import Mathlib

/-!
Shallow embedding of the heightmap2brs grid-compression engine.

The definitions below are translated from the Rust sources:
  src/quad.rs  (Tile, QuadTree, the quad/line merge passes, brick emission,
                gen_opt_heightmap)
  src/map.rs   (Heightmap / Colormap samplers)
  src/util.rs  (GenOptions, to_linear_rgb)

Conventions used throughout:
* Rust u32 values are modelled as Nat, Rust i32 values as Int.  All claim
  statements operate far below 2^31, where the two semantics agree; where the
  Rust code could overflow or underflow (a debug-build panic) this is noted
  in a comment at the definition.
* Rust tuple fields .0 / .1 are Lean Prod fields .1 / .2.
* HashSet values (the neighbors field, height_0_colors) are modelled as
  duplicate-free lists built by insertion; the claims never observe an
  iteration order.
* HashMap values are modelled as association lists where insert replaces the
  value of an existing key, exactly like HashMap::insert.
* while loops are modelled by structural recursion on an explicit fuel
  argument chosen at each call site to dominate the number of iterations the
  Rust loop performs (each definition notes the bound).
-/

namespace H2B

/-- RGBA color sample, modelling the Rust array of four color bytes,
field a is index 3 (the alpha channel). -/
structure RGBA where
  r : Nat
  g : Nat
  b : Nat
  a : Nat
deriving Repr, DecidableEq, Inhabited

/-- Tile of the grid, translated from struct Tile in src/quad.rs.
The derived default matches Rust Tile::default (zeros, empty set, None). -/
structure Tile where
  index : Nat
  center : Nat × Nat
  size : Nat × Nat
  color : RGBA
  height : Nat
  neighbors : List Nat
  parent : Option Nat
deriving Repr, DecidableEq, Inhabited

/-- Insertion into a list used as a set (models HashSet::insert). -/
def insertSet {α : Type} [DecidableEq α] (s : List α) (v : α) : List α :=
  if v ∈ s then s else s ++ [v]

/-- Union of a set-list with the elements of another list
(models HashSet::extend). -/
def extendSet {α : Type} [DecidableEq α] (s t : List α) : List α :=
  t.foldl insertSet s

/-- Tile::similar_quad from src/quad.rs: identical size, color, height, and
neither tile merged. -/
def Tile.similar_quad (t o : Tile) : Bool :=
  decide (t.size = o.size) && decide (t.color = o.color)
    && decide (t.height = o.height) && t.parent.isNone && o.parent.isNone

/-- Tile::similar_line from src/quad.rs: aligned on one axis with matching
size on that axis, identical color and height, neither tile merged. -/
def Tile.similar_line (t o : Tile) : Bool :=
  let is_vertical := decide (t.center.1 = o.center.1)
  let is_horizontal := decide (t.center.2 = o.center.2)
  (is_vertical && decide (t.size.1 = o.size.1)
      || is_horizontal && decide (t.size.2 = o.size.2))
    && decide (t.color = o.color) && decide (t.height = o.height)
    && t.parent.isNone && o.parent.isNone

/-- Tile::merge_quad from src/quad.rs: double the size of the top-left tile,
absorb the three sibling neighbor sets, and mark the three siblings as
children of the top-left tile (parent := the top-left index field). -/
def Tile.merge_quad (tl tr bl br : Tile) : Tile × Tile × Tile × Tile :=
  let tl' := { tl with
    size := (tl.size.1 * 2, tl.size.2 * 2),
    neighbors := extendSet (extendSet (extendSet tl.neighbors tr.neighbors)
      bl.neighbors) br.neighbors }
  (tl', { tr with parent := some tl.index },
        { bl with parent := some tl.index },
        { br with parent := some tl.index })

/-- Iteration domain of a Rust range (0..n).step_by(s). -/
def stepBy (n s : Nat) : List Nat :=
  (List.range n).filter (fun i => i % s == 0)

/-- Column-major scan order of the grid: x outer, y inner, exactly the
nesting for x in 0..width, for y in 0..height used in src/quad.rs. -/
def colMajorPairs (width hgt : Nat) : List (Nat × Nat) :=
  (List.range width).flatMap fun x => (List.range hgt).map fun y => (x, y)

/-- Merge guard of the quadtree pass at one (x, y): the merge is skipped
when the top-left tile's extent width differs from space or any of the
other three tiles fails the quad similarity test against the top-left tile.
The index arithmetic (y + x*height for the left column, (x+space)*height +
y for the right column) is the one the Rust slicing performs. -/
def quadGuard (hgt space x y : Nat) (tiles : List Tile) : Bool :=
  let tl := tiles.getD (y + x * hgt) default
  (tl.size.1 != space)
    || !(tl.similar_quad (tiles.getD ((x + space) * hgt + y) default))
    || !(tl.similar_quad (tiles.getD ((y + space) + x * hgt) default))
    || !(tl.similar_quad (tiles.getD ((x + space) * hgt + (y + space)) default))

/-- Body of the double loop of QuadTree::quad_optimize_tiles at one (x, y):
read the four candidate tiles, test the merge guard, and on success write
back the merged top-left tile and the three marked siblings, counting 3
removed tiles. -/
def quadStep (hgt space x y : Nat) (st : List Tile × Nat) : List Tile × Nat :=
  let tiles := st.1
  let tlIdx := y + x * hgt
  let trIdx := (x + space) * hgt + y
  let blIdx := (y + space) + x * hgt
  let brIdx := (x + space) * hgt + (y + space)
  if quadGuard hgt space x y tiles then
    st
  else
    let m := Tile.merge_quad (tiles.getD tlIdx default)
      (tiles.getD trIdx default) (tiles.getD blIdx default)
      (tiles.getD brIdx default)
    ((((tiles.set tlIdx m.1).set trIdx m.2.1).set blIdx m.2.2.1).set brIdx
        m.2.2.2,
      st.2 + 3)

/-- QuadTree::quad_optimize_tiles from src/quad.rs.  The Nat subtractions
width - space and height - space truncate at 0 (the Rust u32 subtraction
would underflow, a debug panic, only when space exceeds the dimension, a
case the orchestrator never produces). -/
def quad_optimize_tiles (tiles : List Tile) (width hgt space step_amt : Nat) :
    List Tile × Nat :=
  (stepBy (width - space) step_amt).foldl
    (fun st x =>
      (stepBy (hgt - space) step_amt).foldl
        (fun st y => quadStep hgt space x y st) st)
    (tiles, 0)

/-- QuadTree::merge_line from src/quad.rs: mark every child as merged into
the start tile, sum the child sizes along the merge axis onto the start
tile, and union the child neighbor sets into the start tile. -/
def merge_line (tiles : List Tile) (start_i : Nat) (children : List Nat) :
    List Tile :=
  match children with
  | [] => tiles
  | c0 :: _ =>
    let is_vertical :=
      (tiles.getD c0 default).center.1 == (tiles.getD start_i default).center.1
    let res := children.foldl
      (fun (acc : List Tile × List (List Nat) × Nat) i =>
        let t := acc.1.getD i default
        (acc.1.set i { t with parent := some start_i },
          acc.2.1 ++ [t.neighbors],
          acc.2.2 + (if is_vertical then t.size.2 else t.size.1)))
      (tiles, [], 0)
    let start := res.1.getD start_i default
    let start' := { start with
      neighbors := res.2.1.foldl extendSet start.neighbors,
      size := if is_vertical then (start.size.1, start.size.2 + res.2.2)
              else (start.size.1 + res.2.2, start.size.2) }
    res.1.set start_i start'

/-- Horizontal gather loop of QuadTree::line_optimize_tiles: while
x + sx < width, stop when the merged width would exceed the 500-unit limit
or the candidate is not line-similar, else record the candidate index and
extend sx by its width.  Fuel bounds the iteration count; every call site
passes the grid width, which dominates the iterations whenever all tile
widths are at least 1 (they always are; a zero-width tile would make the
Rust while loop spin forever). -/
def gatherH (tiles : List Tile) (width hgt tile_scale x y : Nat)
    (start : Tile) : Nat → Nat → List Nat → List Nat × Nat
  | 0, sx, acc => (acc.reverse, sx)
  | fuel + 1, sx, acc =>
    if x + sx < width then
      let i := y + (x + sx) * hgt
      let t := tiles.getD i default
      if (sx + t.size.1) * tile_scale > 500 || !(start.similar_line t) then
        (acc.reverse, sx)
      else
        gatherH tiles width hgt tile_scale x y start fuel (sx + t.size.1)
          (i :: acc)
    else (acc.reverse, sx)

/-- Vertical gather loop of QuadTree::line_optimize_tiles, symmetric to
gatherH. -/
def gatherV (tiles : List Tile) (hgt tile_scale x y : Nat)
    (start : Tile) : Nat → Nat → List Nat → List Nat × Nat
  | 0, sy, acc => (acc.reverse, sy)
  | fuel + 1, sy, acc =>
    if y + sy < hgt then
      let i := (y + sy) + x * hgt
      let t := tiles.getD i default
      if (sy + t.size.2) * tile_scale > 500 || !(start.similar_line t) then
        (acc.reverse, sy)
      else
        gatherV tiles hgt tile_scale x y start fuel (sy + t.size.2) (i :: acc)
    else (acc.reverse, sy)

/-- Body of the double loop of QuadTree::line_optimize_tiles at one (x, y):
skip merged tiles, gather the two candidate runs, count the longer run, and
commit it (ties go to the vertical run, as in the Rust comparison with
a strict greater-than). -/
def lineStep (width hgt tile_scale : Nat) (st : List Tile × Nat)
    (p : Nat × Nat) : List Tile × Nat :=
  let x := p.1
  let y := p.2
  let tiles := st.1
  let start_i := y + x * hgt
  let start := tiles.getD start_i default
  if start.parent.isSome then st
  else
    let hz := gatherH tiles width hgt tile_scale x y start width start.size.1 []
    let vt := gatherV tiles hgt tile_scale x y start hgt start.size.2 []
    (merge_line tiles start_i
        (if hz.1.length > vt.1.length then hz.1 else vt.1),
      st.2 + max hz.1.length vt.1.length)

/-- QuadTree::line_optimize_tiles from src/quad.rs: scan every grid position
in column-major order, merging the longer of the two candidate runs at each
live tile. -/
def line_optimize_tiles (tiles : List Tile) (width hgt tile_scale : Nat) :
    List Tile × Nat :=
  (colMajorPairs width hgt).foldl (lineStep width hgt tile_scale) (tiles, 0)

/-- Neighbor elevation set of the cell (x, y): elevations of the in-bounds
4-neighbors, collected as a set (src/quad.rs, tile construction). -/
def neighborHeights (hmAt : Nat → Nat → Nat) (width hgt : Nat) (x y : Nat) :
    List Nat :=
  (([(((x : Int) - 1), (y : Int)), (((x : Int) + 1), (y : Int)),
      ((x : Int), ((y : Int) - 1)), ((x : Int), ((y : Int) + 1))]).filter
      (fun q => 0 ≤ q.1 && q.1 < (width : Int) && 0 ≤ q.2 && q.2 < (hgt : Int)))
    |>.foldl (fun s q => insertSet s (hmAt q.1.toNat q.2.toNat)) []

/-- Initial tile grid of the un-layered mode (QuadTree::new, the
gen_full_layers_above_height = 0 branch): one 1x1 tile per sample, in
column-major construction order.  The stored index field is x + y*height,
exactly as written in the source (the scan loops address the array by
y + x*height instead; the index field is only ever used as an opaque parent
marker). -/
def initTiles (hmAt : Nat → Nat → Nat) (cmAt : Nat → Nat → RGBA)
    (width hgt : Nat) : List Tile :=
  (List.range width).flatMap fun x =>
    (List.range hgt).map fun y =>
      { index := x + y * hgt
        center := (x, y)
        size := (1, 1)
        color := cmAt x y
        height := hmAt x y
        neighbors := neighborHeights hmAt width hgt x y
        parent := none }

/-- Predicate (as Bool): the region of tile t, anchored at its center with
its size as extent, contains the grid cell (cx, cy). -/
def coversB (t : Tile) (cx cy : Nat) : Bool :=
  t.center.1 ≤ cx && cx < t.center.1 + t.size.1
    && t.center.2 ≤ cy && cy < t.center.2 + t.size.2

/-- Number of live tiles (parent = none) whose region contains the cell. -/
def coverCount (tiles : List Tile) (cx cy : Nat) : Nat :=
  tiles.countP (fun t => t.parent.isNone && coversB t cx cy)

/-- Partition invariant, decidable form: every cell of the width x height
domain is covered by exactly one live tile. -/
def partitionB (tiles : List Tile) (width hgt : Nat) : Bool :=
  (List.range width).all fun cx =>
    (List.range hgt).all fun cy => coverCount tiles cx cy == 1

/-- Number of live tiles of a layer. -/
def liveCount (tiles : List Tile) : Nat :=
  tiles.countP (fun t => t.parent.isNone)

/-- Generation options, translated from struct GenOptions in src/util.rs. -/
structure GenOptions where
  size : Nat
  scale : Nat
  asset : Nat
  cull : Bool
  tile : Bool
  micro : Bool
  stud : Bool
  snap : Bool
  img : Bool
  glow : Bool
  hdmap : Bool
  lrgb : Bool
  nocollide : Bool
  quadtree : Bool
  gen_full_layers_above_height : Nat
deriving Repr, DecidableEq, Inhabited

/-- Output primitive, the fields of brickadia::save::Brick that
tiles_to_bricks sets.  The size field is the Size::Procedural triple
(width, depth, vertical thickness). -/
structure Brick where
  asset_name_index : Nat
  size : Nat × Nat × Nat
  position : Int × Int × Int
  collision_player : Bool
  collision_weapon : Bool
  collision_interaction : Bool
  collision_tool : Bool
  color : RGBA
  owner_index : Nat
  material_intensity : Nat
  material_index : Nat
deriving Repr, DecidableEq, Inhabited

/-- Brick-stacking loop of QuadTree::tiles_to_bricks (the while
desired_height > 0 loop).  Each iteration clamps the remaining desired
thickness to the range from the minimum unit (5 for stud style, 2
otherwise) to 250, adds the clamped value modulo the minimum unit (the
source comment calls this rounding up to a multiple of the unit), emits one
brick, then lowers the z cursor by twice the emitted value and the desired
thickness by the emitted value.  In the Rust code z and desired_height are
i32 and the emitted thickness is u32; the subtraction of pos_adjust is a
u32 subtraction, modelled here as wrapping modulo 2^32, the release-build
semantics.  The wrap is reachable: in a layer with a nonzero adjustment
(pos_adjust 4) a clamped thickness below 4 underflows, a panic in a debug
build and a thickness near 2^32 in a release build.  Fuel bounds the
iterations: each one lowers desired by at least 2, so the call site's fuel
of desired.toNat suffices. -/
def emitLoop (o : GenOptions) (t : Tile) (pos_adjust : Nat) :
    Nat → Int → Int → List Brick
  | 0, _, _ => []
  | fuel + 1, z, desired =>
    if desired > 0 then
      let mu : Nat := if o.stud then 5 else 2
      let h0 : Int := min (max desired (mu : Int)) 250
      let hgt : Nat := h0.toNat + h0.toNat % mu
      let brick : Brick := {
        asset_name_index := o.asset
        size := (t.size.1 * o.size, t.size.2 * o.size,
          if o.img && o.micro then o.size
          else (hgt + 4294967296 - pos_adjust) % 4294967296)
        position := (((t.center.1 * 2 + t.size.1) * o.size : Nat),
          (((t.center.2 * 2 + t.size.2) * o.size : Nat) : Int),
          z - (hgt : Int) + (pos_adjust : Int) + 4)
        collision_player := !o.nocollide
        collision_weapon := !o.nocollide
        collision_interaction := !o.nocollide
        collision_tool := true
        color := t.color
        owner_index := 1
        material_intensity := 0
        material_index := if o.glow then 1 else 0 }
      brick :: emitLoop o t pos_adjust fuel (z - (hgt : Int) * 2)
        (desired - (hgt : Int))
    else []

/-- QuadTree::tiles_to_bricks from src/quad.rs.  Skips merged tiles, and
fully transparent tiles when culling is enabled; for the rest computes the
top elevation z and the desired thickness, optionally snaps both up to the
4-unit grid, and stacks bricks.  All intermediate values are nonnegative
here, so the Int euclidean division and remainder used below agree with the
Rust i32 truncating operators (the Rust casts could overflow i32 only far
above any value the claims touch). -/
def tiles_to_bricks (tiles : List Tile) (o : GenOptions)
    (height_adjustment : Nat) : List Brick :=
  let pos_adjust : Nat := if height_adjustment == 0 then 0 else 4
  tiles.flatMap fun t =>
    if t.parent.isSome || (o.cull && t.color.a == 0) then []
    else
      let z0 : Int := if t.height == 0 then 0 else ((o.scale * t.height : Nat) : Int)
      let raw_height : Int := max ((t.height : Int) - (height_adjustment : Int) + 1) 2
      let dh0 : Int := max (raw_height * (o.scale : Int) / 2) 2
      let z := if o.snap then z0 + (4 - z0 % 4) else z0
      let dh := if o.snap then dh0 + (4 - dh0 % 4) else dh0
      emitLoop o t pos_adjust dh.toNat z dh

/-- Association-list lookup, modelling HashMap::get. -/
def assocGet (m : List (Nat × RGBA)) (k : Nat) : Option RGBA :=
  (m.find? (fun p => p.1 == k)).map (·.2)

/-- Association-list insertion that replaces the value of an existing key,
modelling HashMap::insert. -/
def assocInsert (m : List (Nat × RGBA)) (k : Nat) (v : RGBA) :
    List (Nat × RGBA) :=
  if m.any (fun p => p.1 == k) then
    m.map (fun p => if p.1 == k then (k, v) else p)
  else m ++ [(k, v)]

/-- The QuadTree state, translated from struct QuadTree in src/quad.rs. -/
structure QuadTree where
  tiles : List Tile
  height_layers : List (List Tile)
  sorted_heights : List Nat
  height_0_colors : List RGBA
  filtered_heights : List (Nat × RGBA)
  width : Nat
  height : Nat
deriving Repr, Inhabited

/-- Elevation sampler interface (trait Heightmap of src/map.rs): a sample
function and the domain dimensions. -/
structure HeightmapM where
  atXY : Nat → Nat → Nat
  size : Nat × Nat

/-- Color sampler interface (trait Colormap of src/map.rs). -/
structure ColormapM where
  atXY : Nat → Nat → RGBA
  size : Nat × Nat

/-- Base-layer tiles of the layered mode of QuadTree::new: elevations above
the lowest retained elevation are capped to it, and capped cells take the
retained representative color. -/
def firstLayerTiles (heightmap : HeightmapM) (colormap : ColormapM)
    (width hgt min_filtered_height : Nat)
    (filtered_heights : List (Nat × RGBA)) : List Tile :=
  (List.range width).flatMap fun x =>
    (List.range hgt).map fun y =>
      let original_height := heightmap.atXY x y
      let capped_height :=
        if original_height > min_filtered_height then min_filtered_height
        else original_height
      { index := x + y * hgt
        center := (x, y)
        neighbors := neighborHeights heightmap.atXY width hgt x y
        size := (1, 1)
        color :=
          if capped_height == min_filtered_height then
            (assocGet filtered_heights min_filtered_height).getD default
          else colormap.atXY x y
        height := capped_height
        parent := none }

/-- Feature-layer tiles of the layered mode of QuadTree::new for one
retained elevation: every tile takes the layer's representative color; a
cell keeps the layer elevation when it qualifies (exact color and elevation
match for a lake layer, elevation at least the layer elevation otherwise)
and gets elevation 0 when it does not. -/
def featureLayerTiles (heightmap : HeightmapM) (colormap : ColormapM)
    (width hgt layer_height : Nat) (layer_color : RGBA)
    (is_lake_layer : Bool) : List Tile :=
  (List.range width).flatMap fun x =>
    (List.range hgt).map fun y =>
      let original_height := heightmap.atXY x y
      let pixel_color := colormap.atXY x y
      let tile_height :=
        if is_lake_layer then
          (if pixel_color == layer_color && original_height == layer_height
           then layer_height else 0)
        else (if original_height ≥ layer_height then layer_height else 0)
      { index := x + y * hgt
        center := (x, y)
        neighbors := neighborHeights heightmap.atXY width hgt x y
        size := (1, 1)
        color := layer_color
        height := tile_height
        parent := none }

/-- Elevation filter of QuadTree::new (the gen_full_layers_above_height > 0
path): keep the elevations above the threshold, plus the highest retained
elevation at or below it. -/
def newFilteredHeights (thr : Nat) (all_heights : List (Nat × RGBA)) :
    List (Nat × RGBA) :=
  if thr > 0 then
    let heights_at_or_below :=
      ((all_heights.map (·.1)).filter (fun h => h ≤ thr)).mergeSort
        (fun a b => decide (a ≤ b))
    let result := all_heights.filter (fun p => p.1 > thr)
    match heights_at_or_below.getLast? with
    | some hb =>
      (match assocGet all_heights hb with
       | some c => assocInsert result hb c
       | none => result)
    | none => result
  else all_heights

/-- QuadTree::new from src/quad.rs.  Fails exactly when the two samplers
report different dimensions; otherwise scans all samples (collecting the
distinct elevations with a representative color, and the colors observed at
elevation 0), filters the retained elevations when layering is enabled, and
builds the base grid plus one feature layer per retained elevation beyond
the first.  HashMap unwraps that cannot fail in the source are modelled
with default fallbacks. -/
def QuadTree.new (heightmap : HeightmapM) (colormap : ColormapM)
    (gen_full_layers_above_height : Nat) : Except String QuadTree :=
  let width := heightmap.size.1
  let hgt := heightmap.size.2
  if colormap.size ≠ heightmap.size then
    .error "Heightmap and colormap must have same dimensions"
  else
    let scan := (colMajorPairs width hgt).foldl
      (fun (acc : List (Nat × RGBA) × List RGBA) p =>
        let h := heightmap.atXY p.1 p.2
        let c := colormap.atXY p.1 p.2
        (assocInsert acc.1 h c, if h == 0 then insertSet acc.2 c else acc.2))
      ([], [])
    let all_heights := scan.1
    let height_0_colors := scan.2
    let filtered_heights : List (Nat × RGBA) :=
      newFilteredHeights gen_full_layers_above_height all_heights
    if gen_full_layers_above_height > 0 && !filtered_heights.isEmpty then
      let min_filtered_height := ((filtered_heights.map (·.1)).min?).getD 0
      let sorted_heights :=
        (filtered_heights.map (·.1)).mergeSort (fun a b => decide (a ≤ b))
      let height_layers := (sorted_heights.drop 1).map fun layer_height =>
        let layer_color := (assocGet filtered_heights layer_height).getD default
        featureLayerTiles heightmap colormap width hgt layer_height
          layer_color (layer_color ∈ height_0_colors)
      .ok { tiles := firstLayerTiles heightmap colormap width hgt
              min_filtered_height filtered_heights
            height_layers := height_layers
            sorted_heights := sorted_heights
            height_0_colors := height_0_colors
            filtered_heights := filtered_heights
            width := width, height := hgt }
    else
      .ok { tiles := initTiles heightmap.atXY colormap.atXY width hgt
            height_layers := [], sorted_heights := []
            height_0_colors := []
            filtered_heights := []
            width := width, height := hgt }

/-- QuadTree::quad_optimize_level from src/quad.rs: run the quad pass at
the given level over the main tiles and over every height layer, summing
the removed-tile counts. -/
def QuadTree.quad_optimize_level (q : QuadTree) (level : Nat) :
    QuadTree × Nat :=
  let space := 2 ^ level
  let step_amt := space * 2
  let m := quad_optimize_tiles q.tiles q.width q.height space step_amt
  let ls := q.height_layers.foldl
    (fun (acc : List (List Tile) × Nat) layer =>
      let r := quad_optimize_tiles layer q.width q.height space step_amt
      (acc.1 ++ [r.1], acc.2 + r.2)) ([], 0)
  ({ q with tiles := m.1, height_layers := ls.1 }, m.2 + ls.2)

/-- QuadTree::line_optimize from src/quad.rs: run the line pass over the
main tiles and over every height layer, summing the merge counts. -/
def QuadTree.line_optimize (q : QuadTree) (tile_scale : Nat) :
    QuadTree × Nat :=
  let m := line_optimize_tiles q.tiles q.width q.height tile_scale
  let ls := q.height_layers.foldl
    (fun (acc : List (List Tile) × Nat) layer =>
      let r := line_optimize_tiles layer q.width q.height tile_scale
      (acc.1 ++ [r.1], acc.2 + r.2)) ([], 0)
  ({ q with tiles := m.1, height_layers := ls.1 }, m.2 + ls.2)

/-- Vertical offset applied to height layer i at emission time
(QuadTree::into_bricks): the previous retained elevation for a layer whose
representative color was seen at elevation 0, the layer's own indexed
elevation otherwise.  Out-of-range index reads, which would panic in Rust
but are unreachable (there is always one more retained elevation than there
are feature layers), are modelled with a 0 default. -/
def layerAdjustment (q : QuadTree) (i : Nat) : Nat :=
  if q.sorted_heights.isEmpty then 0
  else if i < q.sorted_heights.length then
    let current_height := q.sorted_heights.getD i 0
    match assocGet q.filtered_heights current_height with
    | some c =>
      if c ∈ q.height_0_colors then
        (if i > 0 then q.sorted_heights.getD (i - 1) 0 else 0)
      else q.sorted_heights.getD i 0
    | none => q.sorted_heights.getD i 0
  else q.sorted_heights.getD i 0

/-- QuadTree::into_bricks from src/quad.rs: emit the main tiles with a zero
vertical offset, then each height layer with its computed offset. -/
def QuadTree.into_bricks (q : QuadTree) (o : GenOptions) : List Brick :=
  tiles_to_bricks q.tiles o 0
    ++ (q.height_layers.enum.flatMap fun p =>
          tiles_to_bricks p.2 o (layerAdjustment q p.1))

/-- Number of live tiles across the main grid and all height layers. -/
def liveCountQT (q : QuadTree) : Nat :=
  liveCount q.tiles + (q.height_layers.map liveCount).sum

/-- Progress value the quadtree-escalation loop reports.  The Rust value is
computed with f32 log2 arithmetic; no rational models it exactly, so the
integer log stands in.  No claim constrains the callback at this
checkpoint, only whether it cancels. -/
def qProgVal (scale size : Nat) : ℚ :=
  2/10 + 5/10 * (scale : ℚ) / (max (Nat.log2 (500 / max size 1)) 1 : ℚ)

/-- Quadtree-escalation loop of gen_opt_heightmap: while a doubled tile
would still fit the 500-unit limit, report progress (cancelling aborts the
run), run one quad pass, and stop at the first pass that merges nothing.
Fuel dominates the iterations: with a positive size the guard fails from
scale 8 on, and with size 0 merges die out once the space exceeds the grid
width, so every call passes width + 12. -/
def genQuadLoop (progress : ℚ → Bool) (size : Nat) :
    Nat → Nat → QuadTree → Except String QuadTree
  | 0, _, q => .ok q
  | fuel + 1, scale, q =>
    if 2 ^ (scale + 1) * size < 500 then
      if !(progress (qProgVal scale size)) then .error "Stopped by user"
      else
        let r := q.quad_optimize_level scale
        if r.2 == 0 then .ok r.1
        else genQuadLoop progress size fuel (scale + 1) r.1
    else .ok q

/-- Run-merge loop of gen_opt_heightmap: run one line pass, report progress
(the iteration count enters only this report, capped at 5 iterations worth
of progress), and stop at the first pass that merges nothing.  The f32
division by 5.0 is modelled exactly over the rationals.  Fuel dominates the
iterations because every nonzero pass removes at least one live tile; call
sites pass the live tile count plus 2. -/
def genLineLoop (progress : ℚ → Bool) (offs : ℚ × ℚ) (size : Nat) :
    Nat → Nat → QuadTree → Except String QuadTree
  | 0, _, q => .ok q
  | fuel + 1, i, q =>
    let r := q.line_optimize size
    if !(progress (offs.1 + offs.2 * min ((i : ℚ) / 5) 1)) then
      .error "Stopped by user"
    else if r.2 == 0 then .ok r.1
    else genLineLoop progress offs size fuel (i + 1) r.1

/-- gen_opt_heightmap from src/quad.rs: build the quadtree (propagating the
dimension-mismatch failure), escalate quad merges when enabled, run the
run-merge loop to its zero-merge fixpoint, and emit the bricks.  Cancelling
at any checkpoint aborts with the stopped-by-user failure. -/
def gen_opt_heightmap (heightmap : HeightmapM) (colormap : ColormapM)
    (o : GenOptions) (progress : ℚ → Bool) : Except String (List Brick) :=
  if !(progress 0) then .error "Stopped by user"
  else
    match QuadTree.new heightmap colormap o.gen_full_layers_above_height with
    | .error e => .error e
    | .ok quad =>
      if !(progress (2/10)) then .error "Stopped by user"
      else
        let afterQuad : Except String QuadTree :=
          if o.quadtree then
            match genQuadLoop progress o.size (heightmap.size.1 + 12) 0 quad with
            | .error e => .error e
            | .ok r =>
              if !(progress (7/10)) then .error "Stopped by user" else .ok r
          else .ok quad
        match afterQuad with
        | .error e => .error e
        | .ok q1 =>
          let offs : ℚ × ℚ :=
            if o.quadtree then (7/10, 25/100) else (2/10, 75/100)
          match genLineLoop progress offs o.size (liveCountQT q1 + 2) 1 q1 with
          | .error e => .error e
          | .ok q2 =>
            if !(progress (95/100)) then .error "Stopped by user"
            else
              let bricks := q2.into_bricks o
              if !(progress 1) then .error "Stopped by user"
              else .ok bricks

/-- to_linear_rgb from src/util.rs, with the per-channel sRGB-to-linear
transfer function (to_linear_gamma, f64 arithmetic with a 2.4 power; it has
no exact rational model) abstracted as a parameter: the conversion applies
it to the three color channels and passes the alpha channel through. -/
def to_linear_rgb (gamma : Nat → Nat) (c : RGBA) : RGBA :=
  { r := gamma c.r, g := gamma c.g, b := gamma c.b, a := c.a }

/-- ColormapPNG, src/map.rs: a source image and the linear-color flag. -/
structure ColormapPNGM where
  source : Nat → Nat → RGBA
  lrgb : Bool

/-- ColormapPNG::at from src/map.rs: return the pixel directly in linear
mode, else convert it from sRGB with to_linear_rgb. -/
def ColormapPNGM.atXY (m : ColormapPNGM) (gamma : Nat → Nat) (x y : Nat) :
    RGBA :=
  if m.lrgb then m.source x y else to_linear_rgb gamma (m.source x y)

/-! Verification infrastructure: predicates and concrete inputs used by the
theorems below. -/

/-- Common shape of the three grid constructors: one tile per sample, x
outer, y inner. -/
def gridOf (width hgt : Nat) (mk : Nat → Nat → Tile) : List Tile :=
  (List.range width).flatMap fun x => (List.range hgt).map fun y => mk x y

/-- Per-cell constructor discipline shared by the three grid builders:
anchored at its own coordinates, unit extent, not merged. -/
def CellMk (mk : Nat → Nat → Tile) : Prop :=
  ∀ x y, (mk x y).center = (x, y) ∧ (mk x y).size = (1, 1) ∧
    (mk x y).parent = none

/-- Well-formed layer: one tile per cell, the tile stored at y + x*height is
anchored at (x, y), and extents are positive. -/
def WF (tiles : List Tile) (width hgt : Nat) : Prop :=
  tiles.length = width * hgt ∧
    ∀ i, i < width * hgt →
      (tiles.getD i default).center = (i / hgt, i % hgt) ∧
      1 ≤ (tiles.getD i default).size.1 ∧ 1 ≤ (tiles.getD i default).size.2

/-- Partition invariant of a layer, as a proposition. -/
def Partition (tiles : List Tile) (width hgt : Nat) : Prop :=
  ∀ cx cy, cx < width → cy < hgt → coverCount tiles cx cy = 1

/-- Every tile extent is square. -/
def SquareT (tiles : List Tile) : Prop :=
  ∀ i, i < tiles.length →
    (tiles.getD i default).size.1 = (tiles.getD i default).size.2

/-- Every tile extent scaled by the unit size stays within the 500-unit
primitive limit. -/
def SizeBound (tiles : List Tile) (unit : Nat) : Prop :=
  ∀ i, i < tiles.length →
    (tiles.getD i default).size.1 * unit ≤ 500 ∧
    (tiles.getD i default).size.2 * unit ≤ 500

/-- All layers of a quadtree are well-formed. -/
def WFQT (q : QuadTree) : Prop :=
  WF q.tiles q.width q.height ∧ ∀ L ∈ q.height_layers, WF L q.width q.height

/-- All layers of a quadtree satisfy the partition invariant. -/
def PartQT (q : QuadTree) : Prop :=
  Partition q.tiles q.width q.height ∧
    ∀ L ∈ q.height_layers, Partition L q.width q.height

/-- Specification of the index list the horizontal gather loop returns,
starting from accumulated width sx: each index addresses the live tile
anchored immediately to the right of the accumulated strip, with matching
orthogonal extent h0, and sxF is the final accumulated width. -/
def HChain (tiles : List Tile) (hgt x y h0 : Nat) :
    Nat → List Nat → Nat → Prop
  | sx, [], sxF => sxF = sx
  | sx, i :: cs, sxF =>
    i = y + (x + sx) * hgt ∧ i < tiles.length ∧
    (tiles.getD i default).parent = none ∧
    (tiles.getD i default).center = (x + sx, y) ∧
    (tiles.getD i default).size.2 = h0 ∧
    1 ≤ (tiles.getD i default).size.1 ∧
    HChain tiles hgt x y h0 (sx + (tiles.getD i default).size.1) cs sxF

/-- Specification of the index list the vertical gather loop returns,
symmetric to HChain. -/
def VChain (tiles : List Tile) (hgt x y w0 : Nat) :
    Nat → List Nat → Nat → Prop
  | sy, [], syF => syF = sy
  | sy, i :: cs, syF =>
    i = (y + sy) + x * hgt ∧ i < tiles.length ∧
    (tiles.getD i default).parent = none ∧
    (tiles.getD i default).center = (x, y + sy) ∧
    (tiles.getD i default).size.1 = w0 ∧
    1 ≤ (tiles.getD i default).size.2 ∧
    VChain tiles hgt x y w0 (sy + (tiles.getD i default).size.2) cs syF

/-- All layers of a quadtree have square extents. -/
def SquareQT (q : QuadTree) : Prop :=
  SquareT q.tiles ∧ ∀ L ∈ q.height_layers, SquareT L

/-- All layers of a quadtree satisfy the 500-unit extent bound. -/
def SBQT (q : QuadTree) (unit : Nat) : Prop :=
  SizeBound q.tiles unit ∧ ∀ L ∈ q.height_layers, SizeBound L unit

/-- Mark-and-accumulate fold inside merge_line, factored out so the
theorems can characterize it by induction on the child list. -/
def markFold (start_i : Nat) (is_vertical : Bool) (cs : List Nat)
    (st : List Tile × List (List Nat) × Nat) :
    List Tile × List (List Nat) × Nat :=
  cs.foldl
    (fun (acc : List Tile × List (List Nat) × Nat) i =>
      let t := acc.1.getD i default
      (acc.1.set i { t with parent := some start_i },
        acc.2.1 ++ [t.neighbors],
        acc.2.2 + (if is_vertical then t.size.2 else t.size.1)))
    st

/-- Variant of quadStep that counts 1 per successful merge instead of the 3
removed tiles, used to state that the pass's return value is 3 times the
number of successful merges. -/
def quadStepM (hgt space x y : Nat) (st : List Tile × Nat) :
    List Tile × Nat :=
  let tiles := st.1
  let tlIdx := y + x * hgt
  let trIdx := (x + space) * hgt + y
  let blIdx := (y + space) + x * hgt
  let brIdx := (x + space) * hgt + (y + space)
  if quadGuard hgt space x y tiles then
    st
  else
    let m := Tile.merge_quad (tiles.getD tlIdx default)
      (tiles.getD trIdx default) (tiles.getD blIdx default)
      (tiles.getD brIdx default)
    ((((tiles.set tlIdx m.1).set trIdx m.2.1).set blIdx m.2.2.1).set brIdx
        m.2.2.2,
      st.2 + 1)

/-- Number of successful merges of one quad pass over one layer. -/
def quad_merge_count (tiles : List Tile) (width hgt space step_amt : Nat) :
    List Tile × Nat :=
  (stepBy (width - space) step_amt).foldl
    (fun st x =>
      (stepBy (hgt - space) step_amt).foldl
        (fun st y => quadStepM hgt space x y st) st)
    (tiles, 0)

/-- Number of successful merges of quad_optimize_level across all layers. -/
def quadMergeCountLevel (q : QuadTree) (level : Nat) : Nat :=
  let space := 2 ^ level
  let step_amt := space * 2
  (quad_merge_count q.tiles q.width q.height space step_amt).2 +
    (q.height_layers.map
      (fun L => (quad_merge_count L q.width q.height space step_amt).2)).sum

/-- Any sequence of whole-quadtree quad passes, in order. -/
def applyQTQuads (qs : List Nat) (q : QuadTree) : QuadTree :=
  qs.foldl (fun q l => (q.quad_optimize_level l).1) q

/-- Any sequence of whole-quadtree run-merge passes, in order. -/
def applyQTLines (ls : List Nat) (q : QuadTree) : QuadTree :=
  ls.foldl (fun q s => (q.line_optimize s).1) q

/-- Concrete inputs of the C1 and C4 counterexamples: a 4x4 grid whose rows
alternate between two colors, with a tile scale of 200 so that horizontal
runs stop at width 2. -/
def cexColor (_x y : Nat) : RGBA :=
  if y % 2 == 0 then ⟨1, 0, 0, 255⟩ else ⟨0, 1, 0, 255⟩

def cexHeightFn (_x _y : Nat) : Nat := 0

def hmCex : HeightmapM := ⟨cexHeightFn, (4, 4)⟩

def cmCex : ColormapM := ⟨cexColor, (4, 4)⟩

def qCex : QuadTree :=
  match QuadTree.new hmCex cmCex 0 with
  | .ok q => q
  | .error _ => default

def qCexL : QuadTree := (qCex.line_optimize 200).1

def cexGrid0 : List Tile := initTiles cexHeightFn cexColor 4 4

def cexGrid1 : List Tile := (line_optimize_tiles cexGrid0 4 4 200).1

def cexGrid2 : List Tile := (quad_optimize_tiles cexGrid1 4 4 2 4).1

/-- Concrete inputs of the C3 record: a 1x1 grid, elevation 0, an opaque
color, and culling enabled. -/
def hmC3 : HeightmapM := ⟨fun _ _ => 0, (1, 1)⟩

def cmC3 : ColormapM := ⟨fun _ _ => ⟨10, 20, 30, 255⟩, (1, 1)⟩

def optsC3 : GenOptions :=
  { size := 5, scale := 1, asset := 0, cull := true, tile := false,
    micro := false, stud := false, snap := false, img := false, glow := false,
    hdmap := false, lrgb := false, nocollide := false, quadtree := true,
    gen_full_layers_above_height := 0 }

/-- Concrete input of the C2 counterexample: a 1x1 grid of elevation 248
rendered in stud style with vertical scale 2. -/
def hmC2 : HeightmapM := ⟨fun _ _ => 248, (1, 1)⟩

def optsC2 : GenOptions :=
  { size := 5, scale := 2, asset := 3, cull := false, tile := false,
    micro := false, stud := true, snap := false, img := false, glow := false,
    hdmap := false, lrgb := false, nocollide := false, quadtree := true,
    gen_full_layers_above_height := 0 }

/-- Concrete input of the C5 counterexample: one tile of elevation 6, whose
desired thickness 7 in stud style emits thickness 9. -/
def gridC5 : List Tile :=
  initTiles (fun _ _ => 6) (fun _ _ => ⟨1, 2, 3, 255⟩) 1 1

def bricksC2 : List Brick :=
  match gen_opt_heightmap hmC2 cmC3 optsC2 (fun _ => true) with
  | .ok l => l
  | .error _ => []

/-! Concrete inputs used to witness the claim theorems on small samples. -/

def hmW : HeightmapM := ⟨fun _ _ => 1, (1, 1)⟩

def cmW : ColormapM := ⟨fun _ _ => ⟨5, 6, 7, 255⟩, (1, 1)⟩

def qW : QuadTree :=
  match QuadTree.new hmW cmW 0 with
  | .ok q => q
  | .error _ => default

def optsW : GenOptions :=
  { size := 5, scale := 1, asset := 0, cull := false, tile := false,
    micro := false, stud := false, snap := false, img := false, glow := false,
    hdmap := false, lrgb := false, nocollide := false, quadtree := true,
    gen_full_layers_above_height := 0 }

def bricksW : List Brick :=
  match gen_opt_heightmap hmW cmW optsW (fun _ => true) with
  | .ok l => l
  | .error _ => []

def gridW2 : List Tile :=
  initTiles (fun _ _ => 0) (fun _ _ => ⟨1, 1, 1, 255⟩) 2 2

def featW : List Tile := featureLayerTiles hmW cmW 1 1 1 ⟨9, 9, 9, 255⟩ false

/-! Theorems. -/

/-- Claim C9: the sRGB-to-linear conversion changes only the three color
channels: for every RGBA input (and every channel transfer function) the
alpha channel of to_linear_rgb is that of the input, and ColormapPNG::at
never alters a pixel's transparency. -/
theorem c9_alpha_preserved :
    ∀ (gamma : Nat → Nat) (c : RGBA), (to_linear_rgb gamma c).a = c.a ∧
      ∀ (m : ColormapPNGM) (x y : Nat),
        (m.atXY gamma x y).a = (m.source x y).a := by
  intro gamma c
  refine ⟨rfl, ?_⟩
  intro m x y
  unfold ColormapPNGM.atXY
  by_cases h : m.lrgb = true
  · simp [h]
  · simp [h, to_linear_rgb]

/-- Claim C3 (code evaluated at the failing input): in un-layered mode with
culling enabled, a 1x1 grid whose only tile has elevation 0 and an opaque
color still yields one primitive; the culling test of tiles_to_bricks only
checks transparency, never elevation, contradicting the documented
behavior of the cull option. -/
theorem c3_zero_elevation_not_culled :
    (gen_opt_heightmap hmC3 cmC3 optsC3 (fun _ => true)).map List.length =
      Except.ok 1 ∧ optsC3.cull = true ∧ hmC3.atXY 0 0 = 0 ∧
      (cmC3.atXY 0 0).a ≠ 0 ∧ optsC3.gen_full_layers_above_height = 0 := by
  refine ⟨by rfl, by decide, by decide, by decide, by decide⟩

/-- Claim C1, counterexample: starting from the initial 4x4 grid, the
sequence run-merge pass (tile scale 200) followed by a level-1 quad pass
leaves live tiles whose regions do not partition the domain (the level-1
quad pass merges four live 2x1 tiles because only the width of the
top-left extent is compared against the level spacing). -/
theorem c1_counterexample :
    QuadTree.new hmCex cmCex 0 = Except.ok qCex ∧
      partitionB qCex.tiles 4 4 = true ∧
      partitionB qCexL.tiles 4 4 = true ∧
      partitionB ((qCexL.quad_optimize_level 1).1).tiles 4 4 = false := by
  refine ⟨by rfl, by decide, by decide, by decide⟩

/-- Claim C4, counterexample: a level-1 quad pass (space 2) merges a 2x2
block whose top-left tile has extent (2,1), not (2,2): the pass removes 3
tiles even though the top-left extent is not (space, space), because the
code compares only the extent width against space. -/
theorem c4_counterexample :
    ((qCexL.tiles.getD 0 default).size = (2, 1) ∧ (2, 1) ≠ (2, 2)) ∧
      (qCexL.quad_optimize_level 1).2 = 3 ∧
      ((qCexL.quad_optimize_level 1).1.tiles.getD 8 default).parent ≠
        none := by
  refine ⟨⟨by decide, by decide⟩, by decide, by decide⟩

/-- Claim C2, counterexample: a run of gen_opt_heightmap in stud style on a
1x1 grid of elevation 248 with vertical scale 2 emits a primitive of
vertical thickness 253, exceeding 250: the post-clamp adjustment adds the
clamped value modulo 5 on top of the 250 clamp. -/
theorem c2_counterexample :
    ∃ l, gen_opt_heightmap hmC2 cmC3 optsC2 (fun _ => true) = Except.ok l ∧
      ∃ b ∈ l, 250 < b.size.2.2 := by
  refine ⟨bricksC2, by rfl, bricksC2.headI, by decide, by decide⟩

/-- Claim C5, counterexample: in stud style (minimum unit 5) a tile with
desired thickness 7 yields a primitive of thickness 9, which is neither 7
rounded up to a multiple of 5 (that would be 10) nor a multiple of 5. -/
theorem c5_counterexample :
    (tiles_to_bricks gridC5 optsC2 0).map (fun b => b.size.2.2) = [9] ∧
      optsC2.stud = true ∧ ¬ (5 ∣ 9) := by
  refine ⟨by decide, by decide, by decide⟩

/-! List utility lemmas. -/

theorem getD_set_ne {l : List Tile} {i j : Nat} (h : i ≠ j) (a : Tile) :
    (l.set i a).getD j default = l.getD j default := by
  simp [List.getD_eq_getElem?_getD, List.getElem?_set, h]

theorem getD_set_self {l : List Tile} {i : Nat} (h : i < l.length) (a : Tile) :
    (l.set i a).getD i default = a := by
  simp [List.getD_eq_getElem?_getD, List.getElem?_set, h]

theorem countP_set_add (p : Tile → Bool) (l : List Tile) (i : Nat)
    (h : i < l.length) (a : Tile) :
    (l.set i a).countP p + (if p (l.getD i default) then 1 else 0)
      = l.countP p + (if p a then 1 else 0) := by
  have h1 := List.countP_set p l i a h
  have h3 : l.getD i default = l[i] := List.getD_eq_getElem l default h
  by_cases hp : p l[i] = true
  · have h2 : 0 < l.countP p :=
      List.countP_pos_iff.mpr ⟨l[i], List.getElem_mem h, hp⟩
    rw [h3]
    rw [if_pos hp] at h1 ⊢
    omega
  · rw [h3]
    rw [if_neg hp] at h1 ⊢
    omega

theorem foldl_inv {α β : Type} (P : α → Prop) {f : α → β → α} :
    ∀ {l : List β} {init : α}, P init →
      (∀ a b, b ∈ l → P a → P (f a b)) → P (l.foldl f init) := by
  intro l
  induction l with
  | nil => intro init h0 _; exact h0
  | cons b bs ih =>
    intro init h0 h
    exact ih (h init b (by simp) h0)
      (fun a b' hb' ha => h a b' (List.mem_cons_of_mem _ hb') ha)

theorem foldl_rel {α β γ : Type} (R : α → γ → Prop) (f : α → β → α)
    (g : γ → β → γ) :
    ∀ (l : List β) (a : α) (c : γ), R a c →
      (∀ a c b, b ∈ l → R a c → R (f a b) (g c b)) →
      R (l.foldl f a) (l.foldl g c) := by
  intro l
  induction l with
  | nil => intro a c h _; exact h
  | cons b bs ih =>
    intro a c h hstep
    exact ih (f a b) (g c b) (hstep a c b (by simp) h)
      (fun a' c' b' hb' h' => hstep a' c' b' (List.mem_cons_of_mem _ hb') h')

theorem countP_eq_sum_map {α : Type} (p : α → Bool) (l : List α) :
    l.countP p = (l.map (fun a => if p a then 1 else 0)).sum := by
  induction l with
  | nil => simp
  | cons a l ih => rw [List.countP_cons, List.map_cons, List.sum_cons, ih]; omega

theorem sum_indicator_range (w cx : Nat) :
    ((List.range w).map (fun x => if x = cx then (1 : Nat) else 0)).sum
      = if cx < w then 1 else 0 := by
  induction w with
  | zero => simp
  | succ n ih =>
    rw [List.range_succ, List.map_append, List.sum_append, ih]
    simp only [List.map_cons, List.map_nil, List.sum_cons, List.sum_nil]
    split_ifs <;> omega

/-! Shape lemmas for the per-sample grid constructors. -/

theorem gridOf_succ (w h : Nat) (mk : Nat → Nat → Tile) :
    gridOf (w + 1) h mk = gridOf w h mk ++ (List.range h).map (mk w) := by
  unfold gridOf
  rw [List.range_succ, List.flatMap_append]
  simp

theorem gridOf_length (w h : Nat) (mk : Nat → Nat → Tile) :
    (gridOf w h mk).length = w * h := by
  induction w with
  | zero => simp [gridOf]
  | succ n ih =>
    rw [gridOf_succ, List.length_append, ih, List.length_map,
      List.length_range, Nat.succ_mul]

theorem gridOf_getD {h : Nat} (mk : Nat → Nat → Tile) :
    ∀ {w x y : Nat}, x < w → y < h →
      (gridOf w h mk).getD (y + x * h) default = mk x y := by
  intro w
  induction w with
  | zero => intro x y hx _; omega
  | succ n ih =>
    intro x y hx hy
    rw [gridOf_succ]
    by_cases hxn : x < n
    · rw [List.getD_append]
      · exact ih hxn hy
      · rw [gridOf_length]
        have h1 : (x + 1) * h ≤ n * h := Nat.mul_le_mul_right h hxn
        have h2 : y + x * h < (x + 1) * h := by
          rw [Nat.succ_mul]; omega
        omega
    · have hxe : x = n := by omega
      subst hxe
      rw [List.getD_append_right]
      · rw [gridOf_length]
        have h1 : y + x * h - x * h = y := by omega
        rw [h1]
        have h2 : y < ((List.range h).map (mk x)).length := by
          rw [List.length_map, List.length_range]; exact hy
        rw [List.getD_eq_getElem _ _ h2, List.getElem_map, List.getElem_range]
      · rw [gridOf_length]; omega

theorem gridOf_getD_mod {w h i : Nat} (mk : Nat → Nat → Tile)
    (hi : i < w * h) :
    (gridOf w h mk).getD i default = mk (i / h) (i % h) := by
  have hh : 0 < h := by
    rcases Nat.eq_zero_or_pos h with h0 | h0
    · subst h0; omega
    · exact h0
  have hx : i / h < w := by
    rw [Nat.div_lt_iff_lt_mul hh]; omega
  have hy : i % h < h := Nat.mod_lt _ hh
  have hidx : i % h + i / h * h = i := by
    have h4 := Nat.mod_add_div i h
    rw [Nat.mul_comm (i / h) h]
    exact h4
  have h2 := gridOf_getD mk hx hy
  rw [hidx] at h2
  exact h2

theorem WF_gridOf {w h : Nat} {mk : Nat → Nat → Tile} (hmk : CellMk mk) :
    WF (gridOf w h mk) w h := by
  refine ⟨gridOf_length w h mk, ?_⟩
  intro i hi
  rw [gridOf_getD_mod mk hi]
  obtain ⟨hc, hs, _⟩ := hmk (i / h) (i % h)
  exact ⟨hc, by rw [hs], by rw [hs]⟩

theorem SquareT_gridOf {w h : Nat} {mk : Nat → Nat → Tile}
    (hmk : CellMk mk) : SquareT (gridOf w h mk) := by
  intro i hi
  rw [gridOf_length] at hi
  rw [gridOf_getD_mod mk hi]
  obtain ⟨_, hs, _⟩ := hmk (i / h) (i % h)
  rw [hs]

theorem SizeBound_gridOf {w h unit : Nat} {mk : Nat → Nat → Tile}
    (hmk : CellMk mk) (hu : unit ≤ 500) : SizeBound (gridOf w h mk) unit := by
  intro i hi
  rw [gridOf_length] at hi
  rw [gridOf_getD_mod mk hi]
  obtain ⟨_, hs, _⟩ := hmk (i / h) (i % h)
  rw [hs]
  exact ⟨by simpa using hu, by simpa using hu⟩

theorem coverCount_gridOf {w h : Nat} {mk : Nat → Nat → Tile}
    (hmk : CellMk mk) {cx cy : Nat} (hcx : cx < w) (hcy : cy < h) :
    coverCount (gridOf w h mk) cx cy = 1 := by
  unfold coverCount gridOf
  rw [List.countP_flatMap]
  have hin : ∀ x ∈ List.range w,
      (List.countP (fun t => t.parent.isNone && coversB t cx cy) ∘
        fun x => (List.range h).map (mk x)) x
      = (fun x => if x = cx then 1 else 0) x := by
    intro x _
    simp only [Function.comp_apply]
    rw [List.countP_map, countP_eq_sum_map]
    have hpt : ∀ y ∈ List.range h,
        (fun y =>
          if ((fun t => t.parent.isNone && coversB t cx cy) ∘ mk x) y
          then (1 : Nat) else 0) y
        = (fun y => if x = cx then (if y = cy then (1 : Nat) else 0) else 0)
            y := by
      intro y _
      obtain ⟨hc, hs, hp⟩ := hmk x y
      have hcov : (coversB (mk x y) cx cy = true) ↔ (x = cx ∧ y = cy) := by
        simp [coversB, hc, hs]
        omega
      simp only [Function.comp_apply, hp, Option.isNone_none, Bool.true_and]
      by_cases hx : x = cx
      · by_cases hy2 : y = cy
        · rw [if_pos (hcov.mpr ⟨hx, hy2⟩), if_pos hx, if_pos hy2]
        · rw [if_neg (fun hcc => hy2 (hcov.mp hcc).2), if_pos hx, if_neg hy2]
      · rw [if_neg (fun hcc => hx (hcov.mp hcc).1), if_neg hx]
    rw [List.map_congr_left hpt]
    by_cases hx : x = cx
    · simp only [hx, if_true]
      rw [sum_indicator_range]
      simp [hcy]
    · simp only [hx, if_false]
      apply List.sum_eq_zero
      intro a ha
      rcases List.mem_map.mp ha with ⟨y, _, hya⟩
      exact hya.symm
  rw [List.map_congr_left hin, sum_indicator_range]
  simp [hcx]

theorem Partition_gridOf {w h : Nat} {mk : Nat → Nat → Tile}
    (hmk : CellMk mk) : Partition (gridOf w h mk) w h :=
  fun _ _ hcx hcy => coverCount_gridOf hmk hcx hcy

/-! Index arithmetic in the column-major layout. -/

theorem idx_lt {w h a b : Nat} (ha : a < w) (hb : b < h) :
    b + a * h < w * h := by
  have h1 : (a + 1) * h ≤ w * h := Nat.mul_le_mul_right h ha
  have h2 : b + a * h < (a + 1) * h := by rw [Nat.succ_mul]; omega
  omega

theorem idx_div {h a b : Nat} (hb : b < h) : (b + a * h) / h = a := by
  rw [Nat.add_mul_div_right b a (show 0 < h by omega), Nat.div_eq_of_lt hb]
  omega

theorem idx_mod {h a b : Nat} (hb : b < h) : (b + a * h) % h = b := by
  rw [Nat.add_mul_mod_self_right]
  exact Nat.mod_eq_of_lt hb

theorem mem_stepBy {i n s : Nat} (h : i ∈ stepBy n s) : i < n := by
  have := (List.mem_filter.mp h).1
  exact List.mem_range.mp this

/-! Similarity tests, in propositional form. -/

theorem similar_quad_iff {t o : Tile} :
    t.similar_quad o = true ↔
      t.size = o.size ∧ t.color = o.color ∧ t.height = o.height ∧
        t.parent = none ∧ o.parent = none := by
  simp [Tile.similar_quad, Option.isNone_iff_eq_none, and_assoc]

theorem quadGuard_eq_false_iff {hgt space x y : Nat} {tiles : List Tile} :
    quadGuard hgt space x y tiles = false ↔
      (tiles.getD (y + x * hgt) default).size.1 = space
      ∧ (tiles.getD (y + x * hgt) default).similar_quad
          (tiles.getD ((x + space) * hgt + y) default) = true
      ∧ (tiles.getD (y + x * hgt) default).similar_quad
          (tiles.getD ((y + space) + x * hgt) default) = true
      ∧ (tiles.getD (y + x * hgt) default).similar_quad
          (tiles.getD ((x + space) * hgt + (y + space)) default) = true := by
  simp [quadGuard, and_assoc]

/-! Components of a quad merge. -/

theorem merge_quad_tl (tl tr bl br : Tile) :
    (Tile.merge_quad tl tr bl br).1
      = { tl with
          size := (tl.size.1 * 2, tl.size.2 * 2),
          neighbors := extendSet (extendSet (extendSet tl.neighbors
            tr.neighbors) bl.neighbors) br.neighbors } := rfl

theorem merge_quad_tr (tl tr bl br : Tile) :
    (Tile.merge_quad tl tr bl br).2.1 = { tr with parent := some tl.index } :=
  rfl

theorem merge_quad_bl (tl tr bl br : Tile) :
    (Tile.merge_quad tl tr bl br).2.2.1
      = { bl with parent := some tl.index } := rfl

theorem merge_quad_br (tl tr bl br : Tile) :
    (Tile.merge_quad tl tr bl br).2.2.2
      = { br with parent := some tl.index } := rfl

/-- Everything one quad step preserves.  The partition argument: a merge
replaces four live space-by-space tiles anchored at the four corners of an
aligned 2-space block by one live tile covering exactly their union, so the
number of live tiles covering any given cell is unchanged. -/
theorem quadStep_preserves {w h space x y : Nat} (tiles : List Tile)
    (c : Nat) (hsp : 1 ≤ space) (hx : x < w - space) (hy : y < h - space)
    (hwf : WF tiles w h) (hsq : SquareT tiles) :
    WF (quadStep h space x y (tiles, c)).1 w h
    ∧ SquareT (quadStep h space x y (tiles, c)).1
    ∧ (Partition tiles w h →
        Partition (quadStep h space x y (tiles, c)).1 w h)
    ∧ (∀ unit, SizeBound tiles unit → space * 2 * unit ≤ 500 →
        SizeBound (quadStep h space x y (tiles, c)).1 unit) := by
  by_cases hg : quadGuard h space x y tiles = true
  · have hstep : quadStep h space x y (tiles, c) = (tiles, c) := by
      unfold quadStep
      rw [if_pos hg]
    rw [hstep]
    exact ⟨hwf, hsq, id, fun _ hu _ => hu⟩
  · have hgf : quadGuard h space x y tiles = false := by simpa using hg
    rcases quadGuard_eq_false_iff.mp hgf with ⟨hsz1, hstr, hsbl, hsbr⟩
    have hxs : x + space < w := by omega
    have hys : y + space < h := by omega
    have hxw : x < w := by omega
    have hyh : y < h := by omega
    have hlen := hwf.1
    have hadd : (x + space) * h = x * h + space * h := Nat.add_mul x space h
    have hBge : h ≤ space * h := Nat.le_mul_of_pos_left h hsp
    set tlIdx := y + x * h with htlIdx
    set trIdx := (x + space) * h + y with htrIdx
    set blIdx := (y + space) + x * h with hblIdx
    set brIdx := (x + space) * h + (y + space) with hbrIdx
    set tl := tiles.getD tlIdx default with htl
    set tr := tiles.getD trIdx default with htr
    set bl := tiles.getD blIdx default with hbl
    set br := tiles.getD brIdx default with hbr
    have hBtl : tlIdx < w * h := by rw [htlIdx]; exact idx_lt hxw hyh
    have hBtr : trIdx < w * h := by
      rw [htrIdx, Nat.add_comm ((x + space) * h) y]
      exact idx_lt hxs hyh
    have hBbl : blIdx < w * h := by rw [hblIdx]; exact idx_lt hxw hys
    have hBbr : brIdx < w * h := by
      rw [hbrIdx, Nat.add_comm ((x + space) * h) (y + space)]
      exact idx_lt hxs hys
    have hD1 : tlIdx ≠ trIdx := by omega
    have hD2 : tlIdx ≠ blIdx := by omega
    have hD3 : tlIdx ≠ brIdx := by omega
    have hD4 : trIdx ≠ blIdx := by omega
    have hD5 : trIdx ≠ brIdx := by omega
    have hD6 : blIdx ≠ brIdx := by omega
    set tl' := (Tile.merge_quad tl tr bl br).1 with htl'
    set tr' := (Tile.merge_quad tl tr bl br).2.1 with htr'
    set bl' := (Tile.merge_quad tl tr bl br).2.2.1 with hbl'
    set br' := (Tile.merge_quad tl tr bl br).2.2.2 with hbr'
    set out :=
      (((tiles.set tlIdx tl').set trIdx tr').set blIdx bl').set brIdx br'
      with hout
    have hstep : quadStep h space x y (tiles, c) = (out, c + 3) := by
      unfold quadStep
      rw [if_neg hg]
    have houtlen : out.length = w * h := by
      rw [hout]
      simp [List.length_set, hlen]
    have hget : ∀ j, out.getD j default
        = if j = brIdx then br' else if j = blIdx then bl'
          else if j = trIdx then tr' else if j = tlIdx then tl'
          else tiles.getD j default := by
      intro j
      rw [hout]
      by_cases hjbr : j = brIdx
      · subst hjbr
        rw [getD_set_self (by simp [List.length_set, hlen]; exact hBbr)]
        simp
      · rw [getD_set_ne (fun hh2 => hjbr hh2.symm)]
        by_cases hjbl : j = blIdx
        · subst hjbl
          rw [getD_set_self (by simp [List.length_set, hlen]; exact hBbl)]
          simp [hjbr]
        · rw [getD_set_ne (fun hh2 => hjbl hh2.symm)]
          by_cases hjtr : j = trIdx
          · subst hjtr
            rw [getD_set_self (by simp [List.length_set, hlen]; exact hBtr)]
            simp [hjbr, hjbl]
          · rw [getD_set_ne (fun hh2 => hjtr hh2.symm)]
            by_cases hjtl : j = tlIdx
            · subst hjtl
              rw [getD_set_self (by rw [hlen]; exact hBtl)]
              simp [hjbr, hjbl, hjtr]
            · rw [getD_set_ne (fun hh2 => hjtl hh2.symm)]
              simp [hjbr, hjbl, hjtr, hjtl]
    rcases similar_quad_iff.mp hstr with ⟨hstrs, _, _, hptl, hptr⟩
    rcases similar_quad_iff.mp hsbl with ⟨hsbls, _, _, _, hpbl⟩
    rcases similar_quad_iff.mp hsbr with ⟨hsbrs, _, _, _, hpbr⟩
    have hsq_tl : tl.size.2 = space := by
      have h2 := hsq tlIdx (by rw [hlen]; exact hBtl)
      rw [← htl] at h2
      omega
    have hctl : tl.center = (x, y) := by
      have h2 := (hwf.2 tlIdx hBtl).1
      rw [← htl] at h2
      rw [h2, htlIdx, idx_div hyh, idx_mod hyh]
    have hctr : tr.center = (x + space, y) := by
      have h2 := (hwf.2 trIdx hBtr).1
      rw [← htr] at h2
      rw [h2, htrIdx, Nat.add_comm ((x + space) * h) y, idx_div hyh,
        idx_mod hyh]
    have hcbl : bl.center = (x, y + space) := by
      have h2 := (hwf.2 blIdx hBbl).1
      rw [← hbl] at h2
      rw [h2, hblIdx, idx_div hys, idx_mod hys]
    have hcbr : br.center = (x + space, y + space) := by
      have h2 := (hwf.2 brIdx hBbr).1
      rw [← hbr] at h2
      rw [h2, hbrIdx, Nat.add_comm ((x + space) * h) (y + space),
        idx_div hys, idx_mod hys]
    rw [hstep]
    refine ⟨⟨houtlen, ?_⟩, ?_, ?_, ?_⟩
    · -- WF is preserved
      intro i hi
      rw [hget i]
      split_ifs with e1 e2 e3 e4
      · subst e1
        rw [hbr', merge_quad_br]
        exact ⟨(hwf.2 brIdx hBbr).1, (hwf.2 brIdx hBbr).2.1,
          (hwf.2 brIdx hBbr).2.2⟩
      · subst e2
        rw [hbl', merge_quad_bl]
        exact ⟨(hwf.2 blIdx hBbl).1, (hwf.2 blIdx hBbl).2.1,
          (hwf.2 blIdx hBbl).2.2⟩
      · subst e3
        rw [htr', merge_quad_tr]
        exact ⟨(hwf.2 trIdx hBtr).1, (hwf.2 trIdx hBtr).2.1,
          (hwf.2 trIdx hBtr).2.2⟩
      · subst e4
        rw [htl', merge_quad_tl]
        have h1 := (hwf.2 tlIdx hBtl).2.1
        have h2 := (hwf.2 tlIdx hBtl).2.2
        rw [← htl] at h1 h2
        refine ⟨(hwf.2 tlIdx hBtl).1, ?_, ?_⟩
        · show 1 ≤ tl.size.1 * 2
          omega
        · show 1 ≤ tl.size.2 * 2
          omega
      · exact hwf.2 i hi
    · -- squareness is preserved
      intro i hi
      rw [houtlen] at hi
      rw [hget i]
      split_ifs with e1 e2 e3 e4
      · rw [hbr', merge_quad_br]
        exact hsq brIdx (by rw [hlen]; exact hBbr)
      · rw [hbl', merge_quad_bl]
        exact hsq blIdx (by rw [hlen]; exact hBbl)
      · rw [htr', merge_quad_tr]
        exact hsq trIdx (by rw [hlen]; exact hBtr)
      · rw [htl', merge_quad_tl]
        have h2 := hsq tlIdx (by rw [hlen]; exact hBtl)
        rw [← htl] at h2
        show tl.size.1 * 2 = tl.size.2 * 2
        omega
      · exact hsq i (by rw [hlen]; exact hi)
    · -- the partition invariant is preserved
      intro hpart cx cy hcx hcy
      have h0 : coverCount tiles cx cy = 1 := hpart cx cy hcx hcy
      have hptl' : tl'.parent = none := by
        rw [htl', merge_quad_tl]
        exact hptl
      have hptr' : tr'.parent.isNone = false := by
        rw [htr', merge_quad_tr]
        rfl
      have hpbl' : bl'.parent.isNone = false := by
        rw [hbl', merge_quad_bl]
        rfl
      have hpbr' : br'.parent.isNone = false := by
        rw [hbr', merge_quad_br]
        rfl
      have hcov_tl : (coversB tl cx cy = true)
          ↔ (x ≤ cx ∧ cx < x + space ∧ y ≤ cy ∧ cy < y + space) := by
        simp [coversB, hctl, hsz1, hsq_tl, and_assoc]
      have hcov_tr : (coversB tr cx cy = true)
          ↔ (x + space ≤ cx ∧ cx < x + space + space ∧ y ≤ cy
              ∧ cy < y + space) := by
        simp [coversB, hctr, ← hstrs, hsz1, hsq_tl, and_assoc]
      have hcov_bl : (coversB bl cx cy = true)
          ↔ (x ≤ cx ∧ cx < x + space ∧ y + space ≤ cy
              ∧ cy < y + space + space) := by
        simp [coversB, hcbl, ← hsbls, hsz1, hsq_tl, and_assoc]
      have hcov_br : (coversB br cx cy = true)
          ↔ (x + space ≤ cx ∧ cx < x + space + space ∧ y + space ≤ cy
              ∧ cy < y + space + space) := by
        simp [coversB, hcbr, ← hsbrs, hsz1, hsq_tl, and_assoc]
      have hcov_tl' : (coversB tl' cx cy = true)
          ↔ (x ≤ cx ∧ cx < x + space + space ∧ y ≤ cy
              ∧ cy < y + space + space) := by
        rw [htl', merge_quad_tl]
        simp [coversB, hctl, hsz1, hsq_tl, and_assoc]
        omega
      set p : Tile → Bool := fun t => t.parent.isNone && coversB t cx cy
        with hp
      have hpsI : ∀ t : Tile, t.parent = none →
          (if p t then (1 : Nat) else 0)
            = (if coversB t cx cy then 1 else 0) := by
        intro t ht
        rw [hp]
        simp [ht]
      have hp0I : ∀ t : Tile, t.parent.isNone = false →
          (if p t then (1 : Nat) else 0) = 0 := by
        intro t ht
        rw [hp]
        simp [ht]
      set l1 := tiles.set tlIdx tl' with hl1
      set l2 := l1.set trIdx tr' with hl2
      set l3 := l2.set blIdx bl' with hl3
      have hlen1 : l1.length = w * h := by rw [hl1, List.length_set, hlen]
      have hlen2 : l2.length = w * h := by rw [hl2, List.length_set, hlen1]
      have hlen3 : l3.length = w * h := by rw [hl3, List.length_set, hlen2]
      have E1 := countP_set_add p tiles tlIdx (by rw [hlen]; exact hBtl) tl'
      have E2 := countP_set_add p l1 trIdx (by rw [hlen1]; exact hBtr) tr'
      have E3 := countP_set_add p l2 blIdx (by rw [hlen2]; exact hBbl) bl'
      have E4 := countP_set_add p l3 brIdx (by rw [hlen3]; exact hBbr) br'
      have g1 : l1.getD trIdx default = tr := by
        rw [hl1, getD_set_ne hD1, htr]
      have g2 : l2.getD blIdx default = bl := by
        rw [hl2, hl1, getD_set_ne hD4, getD_set_ne hD2, hbl]
      have g3 : l3.getD brIdx default = br := by
        rw [hl3, hl2, hl1, getD_set_ne hD6, getD_set_ne hD5,
          getD_set_ne hD3, hbr]
      rw [g1] at E2
      rw [g2] at E3
      rw [g3] at E4
      rw [← hl1] at E1
      rw [← hl2] at E2
      rw [← hl3] at E3
      rw [← htl] at E1
      rw [hpsI tl hptl, hpsI tl' hptl'] at E1
      rw [hpsI tr hptr, hp0I tr' hptr'] at E2
      rw [hpsI bl hpbl, hp0I bl' hpbl'] at E3
      rw [hpsI br hpbr, hp0I br' hpbr'] at E4
      rw [if_congr hcov_tl rfl rfl, if_congr hcov_tl' rfl rfl] at E1
      rw [if_congr hcov_tr rfl rfl] at E2
      rw [if_congr hcov_bl rfl rfl] at E3
      rw [if_congr hcov_br rfl rfl] at E4
      have h0' : tiles.countP p = 1 := h0
      show (l3.set brIdx br').countP p = 1
      split_ifs at E1 E2 E3 E4 <;> omega
    · -- the 500-unit bound is preserved
      intro unit hsb hbound i hi
      rw [houtlen] at hi
      rw [hget i]
      split_ifs with e1 e2 e3 e4
      · rw [hbr', merge_quad_br]
        exact hsb brIdx (by rw [hlen]; exact hBbr)
      · rw [hbl', merge_quad_bl]
        exact hsb blIdx (by rw [hlen]; exact hBbl)
      · rw [htr', merge_quad_tr]
        exact hsb trIdx (by rw [hlen]; exact hBtr)
      · rw [htl', merge_quad_tl]
        constructor
        · show tl.size.1 * 2 * unit ≤ 500
          rw [hsz1]
          exact hbound
        · show tl.size.2 * 2 * unit ≤ 500
          rw [hsq_tl]
          exact hbound
      · exact hsb i (by rw [hlen]; exact hi)

/-- Pass-level consequences of quadStep_preserves, by fold induction over
the scan grid. -/
theorem quad_optimize_tiles_preserves {w h space step_amt : Nat}
    (tiles : List Tile) (hsp : 1 ≤ space) (hwf : WF tiles w h)
    (hsq : SquareT tiles) :
    WF (quad_optimize_tiles tiles w h space step_amt).1 w h
    ∧ SquareT (quad_optimize_tiles tiles w h space step_amt).1
    ∧ (Partition tiles w h →
        Partition (quad_optimize_tiles tiles w h space step_amt).1 w h)
    ∧ (∀ unit, SizeBound tiles unit → space * 2 * unit ≤ 500 →
        SizeBound (quad_optimize_tiles tiles w h space step_amt).1 unit) := by
  unfold quad_optimize_tiles
  refine foldl_inv
    (fun st : List Tile × Nat => WF st.1 w h ∧ SquareT st.1
      ∧ (Partition tiles w h → Partition st.1 w h)
      ∧ (∀ unit, SizeBound tiles unit → space * 2 * unit ≤ 500 →
          SizeBound st.1 unit))
    ⟨hwf, hsq, id, fun _ hu _ => hu⟩ ?_
  intro st x hxmem hP
  refine foldl_inv
    (fun st : List Tile × Nat => WF st.1 w h ∧ SquareT st.1
      ∧ (Partition tiles w h → Partition st.1 w h)
      ∧ (∀ unit, SizeBound tiles unit → space * 2 * unit ≤ 500 →
          SizeBound st.1 unit))
    hP ?_
  intro st' y hymem hP'
  have hx := mem_stepBy hxmem
  have hy := mem_stepBy hymem
  have h2 := quadStep_preserves st'.1 st'.2 hsp hx hy hP'.1 hP'.2.1
  exact ⟨h2.1, h2.2.1, fun h0 => h2.2.2.1 (hP'.2.2.1 h0),
    fun u hu hb => h2.2.2.2 u (hP'.2.2.2 u hu hb) hb⟩

/-- One quad step keeps the layer length, and its merge count matches the
live tiles it removes (3 per successful merge), assuming only the correct
layer length. -/
theorem quadStep_live {w h space x y : Nat} (tiles : List Tile) (c : Nat)
    (hsp : 1 ≤ space) (hx : x < w - space) (hy : y < h - space)
    (hlen : tiles.length = w * h) :
    (quadStep h space x y (tiles, c)).1.length = tiles.length
    ∧ liveCount (quadStep h space x y (tiles, c)).1
        + (quadStep h space x y (tiles, c)).2
      = liveCount tiles + c := by
  by_cases hg : quadGuard h space x y tiles = true
  · have hstep : quadStep h space x y (tiles, c) = (tiles, c) := by
      unfold quadStep
      rw [if_pos hg]
    rw [hstep]
    exact ⟨rfl, rfl⟩
  · have hgf : quadGuard h space x y tiles = false := by simpa using hg
    rcases quadGuard_eq_false_iff.mp hgf with ⟨hsz1, hstr, hsbl, hsbr⟩
    have hxs : x + space < w := by omega
    have hys : y + space < h := by omega
    have hxw : x < w := by omega
    have hyh : y < h := by omega
    have hadd : (x + space) * h = x * h + space * h := Nat.add_mul x space h
    have hBge : h ≤ space * h := Nat.le_mul_of_pos_left h hsp
    set tlIdx := y + x * h with htlIdx
    set trIdx := (x + space) * h + y with htrIdx
    set blIdx := (y + space) + x * h with hblIdx
    set brIdx := (x + space) * h + (y + space) with hbrIdx
    set tl := tiles.getD tlIdx default with htl
    set tr := tiles.getD trIdx default with htr
    set bl := tiles.getD blIdx default with hbl
    set br := tiles.getD brIdx default with hbr
    have hBtl : tlIdx < w * h := by rw [htlIdx]; exact idx_lt hxw hyh
    have hBtr : trIdx < w * h := by
      rw [htrIdx, Nat.add_comm ((x + space) * h) y]
      exact idx_lt hxs hyh
    have hBbl : blIdx < w * h := by rw [hblIdx]; exact idx_lt hxw hys
    have hBbr : brIdx < w * h := by
      rw [hbrIdx, Nat.add_comm ((x + space) * h) (y + space)]
      exact idx_lt hxs hys
    have hD1 : tlIdx ≠ trIdx := by omega
    have hD2 : tlIdx ≠ blIdx := by omega
    have hD3 : tlIdx ≠ brIdx := by omega
    have hD4 : trIdx ≠ blIdx := by omega
    have hD5 : trIdx ≠ brIdx := by omega
    have hD6 : blIdx ≠ brIdx := by omega
    set tl' := (Tile.merge_quad tl tr bl br).1 with htl'
    set tr' := (Tile.merge_quad tl tr bl br).2.1 with htr'
    set bl' := (Tile.merge_quad tl tr bl br).2.2.1 with hbl'
    set br' := (Tile.merge_quad tl tr bl br).2.2.2 with hbr'
    have hstep : quadStep h space x y (tiles, c)
        = ((((tiles.set tlIdx tl').set trIdx tr').set blIdx bl').set brIdx
            br', c + 3) := by
      unfold quadStep
      rw [if_neg hg]
    rcases similar_quad_iff.mp hstr with ⟨_, _, _, hptl, hptr⟩
    rcases similar_quad_iff.mp hsbl with ⟨_, _, _, _, hpbl⟩
    rcases similar_quad_iff.mp hsbr with ⟨_, _, _, _, hpbr⟩
    have hptl' : tl'.parent = none := by
      rw [htl', merge_quad_tl]
      exact hptl
    have hptr' : tr'.parent.isNone = false := by
      rw [htr', merge_quad_tr]
      rfl
    have hpbl' : bl'.parent.isNone = false := by
      rw [hbl', merge_quad_bl]
      rfl
    have hpbr' : br'.parent.isNone = false := by
      rw [hbr', merge_quad_br]
      rfl
    set p : Tile → Bool := fun t => t.parent.isNone with hp
    have hpsI : ∀ t : Tile, t.parent = none →
        (if p t then (1 : Nat) else 0) = 1 := by
      intro t ht
      rw [hp]
      simp [ht]
    have hp0I : ∀ t : Tile, t.parent.isNone = false →
        (if p t then (1 : Nat) else 0) = 0 := by
      intro t ht
      rw [hp]
      simp [ht]
    set l1 := tiles.set tlIdx tl' with hl1
    set l2 := l1.set trIdx tr' with hl2
    set l3 := l2.set blIdx bl' with hl3
    have hlen1 : l1.length = w * h := by rw [hl1, List.length_set, hlen]
    have hlen2 : l2.length = w * h := by rw [hl2, List.length_set, hlen1]
    have hlen3 : l3.length = w * h := by rw [hl3, List.length_set, hlen2]
    have E1 := countP_set_add p tiles tlIdx (by rw [hlen]; exact hBtl) tl'
    have E2 := countP_set_add p l1 trIdx (by rw [hlen1]; exact hBtr) tr'
    have E3 := countP_set_add p l2 blIdx (by rw [hlen2]; exact hBbl) bl'
    have E4 := countP_set_add p l3 brIdx (by rw [hlen3]; exact hBbr) br'
    have g1 : l1.getD trIdx default = tr := by
      rw [hl1, getD_set_ne hD1, htr]
    have g2 : l2.getD blIdx default = bl := by
      rw [hl2, hl1, getD_set_ne hD4, getD_set_ne hD2, hbl]
    have g3 : l3.getD brIdx default = br := by
      rw [hl3, hl2, hl1, getD_set_ne hD6, getD_set_ne hD5,
        getD_set_ne hD3, hbr]
    rw [g1] at E2
    rw [g2] at E3
    rw [g3] at E4
    rw [← hl1] at E1
    rw [← hl2] at E2
    rw [← hl3] at E3
    rw [← htl] at E1
    rw [hpsI tl hptl, hpsI tl' hptl'] at E1
    rw [hpsI tr hptr, hp0I tr' hptr'] at E2
    rw [hpsI bl hpbl, hp0I bl' hpbl'] at E3
    rw [hpsI br hpbr, hp0I br' hpbr'] at E4
    rw [hstep]
    constructor
    · show (l3.set brIdx br').length = tiles.length
      rw [List.length_set, hlen3, hlen]
    · show (l3.set brIdx br').countP p + (c + 3) = tiles.countP p + c
      omega

/-- The quad pass returns exactly 3 times its number of successful merges,
producing the same tiles as the merge-counting variant, and removes exactly
that many live tiles. -/
theorem quad_optimize_tiles_count {w h space step_amt : Nat}
    (tiles : List Tile) (hsp : 1 ≤ space) (hlen : tiles.length = w * h) :
    (quad_optimize_tiles tiles w h space step_amt).1
        = (quad_merge_count tiles w h space step_amt).1
    ∧ (quad_optimize_tiles tiles w h space step_amt).2
        = 3 * (quad_merge_count tiles w h space step_amt).2
    ∧ liveCount (quad_optimize_tiles tiles w h space step_amt).1
        + (quad_optimize_tiles tiles w h space step_amt).2
      = liveCount tiles := by
  have hrel : ∀ st : List Tile × Nat, ∀ stM : List Tile × Nat,
      (st.1 = stM.1 ∧ st.2 = 3 * stM.2 ∧ st.1.length = w * h
        ∧ liveCount st.1 + st.2 = liveCount tiles + 0) →
      ∀ x y, x < w - space → y < h - space →
      (quadStep h space x y st).1 = (quadStepM h space x y stM).1
      ∧ (quadStep h space x y st).2 = 3 * (quadStepM h space x y stM).2
      ∧ (quadStep h space x y st).1.length = w * h
      ∧ liveCount (quadStep h space x y st).1 + (quadStep h space x y st).2
          = liveCount tiles + 0 := by
    intro st stM hR x y hx hy
    obtain ⟨hR1, hR2, hR3, hR4⟩ := hR
    have hL := quadStep_live st.1 st.2 hsp hx hy hR3
    have hsame : ∀ (t : List Tile) (a b : Nat),
        (quadStep h space x y (t, a)).1 = (quadStepM h space x y (t, b)).1
        ∧ ((quadStep h space x y (t, a)).2 = a + 3
            ∧ (quadStepM h space x y (t, b)).2 = b + 1
          ∨ (quadStep h space x y (t, a)).2 = a
            ∧ (quadStepM h space x y (t, b)).2 = b
            ∧ (quadStep h space x y (t, a)).1 = t) := by
      intro t a b
      by_cases hg : quadGuard h space x y t = true
      · unfold quadStep quadStepM
        rw [if_pos hg, if_pos hg]
        exact ⟨rfl, Or.inr ⟨rfl, rfl, rfl⟩⟩
      · unfold quadStep quadStepM
        rw [if_neg hg, if_neg hg]
        exact ⟨rfl, Or.inl ⟨rfl, rfl⟩⟩
    have hsame2 := hsame st.1 st.2 stM.2
    have e1 : (st.1, st.2) = st := rfl
    have e2 : (stM.1, stM.2) = stM := rfl
    rw [hR1] at e1
    rcases hsame2 with ⟨hfst, hcnt⟩
    constructor
    · show (quadStep h space x y st).1 = (quadStepM h space x y stM).1
      calc (quadStep h space x y st).1
          = (quadStep h space x y (st.1, st.2)).1 := rfl
        _ = (quadStepM h space x y (st.1, stM.2)).1 := hfst
        _ = (quadStepM h space x y (stM.1, stM.2)).1 := by rw [hR1]
        _ = (quadStepM h space x y stM).1 := rfl
    constructor
    · have hq : (quadStep h space x y st).2
          = (quadStep h space x y (st.1, st.2)).2 := rfl
      have hqM : (quadStepM h space x y stM).2
          = (quadStepM h space x y (stM.1, stM.2)).2 := rfl
      have hqM2 : (quadStepM h space x y (stM.1, stM.2)).2
          = (quadStepM h space x y (st.1, stM.2)).2 := by rw [hR1]
      rcases hcnt with ⟨ha, hb⟩ | ⟨ha, hb, _⟩
      · rw [hq, ha, hqM, hqM2, hb]
        omega
      · rw [hq, ha, hqM, hqM2, hb]
        omega
    constructor
    · exact hL.1.trans hR3
    · have h5 : quadStep h space x y st = quadStep h space x y (st.1, st.2) :=
        rfl
      rw [h5]
      have := hL.2
      omega
  unfold quad_optimize_tiles quad_merge_count
  have main := foldl_rel
    (fun st stM : List Tile × Nat =>
      st.1 = stM.1 ∧ st.2 = 3 * stM.2 ∧ st.1.length = w * h
        ∧ liveCount st.1 + st.2 = liveCount tiles + 0)
    (fun st x =>
      (stepBy (h - space) step_amt).foldl
        (fun st y => quadStep h space x y st) st)
    (fun st x =>
      (stepBy (h - space) step_amt).foldl
        (fun st y => quadStepM h space x y st) st)
    (stepBy (w - space) step_amt) (tiles, 0) (tiles, 0)
    ⟨rfl, rfl, hlen, rfl⟩
    (fun a cM x hxmem hR =>
      foldl_rel
        (fun st stM : List Tile × Nat =>
          st.1 = stM.1 ∧ st.2 = 3 * stM.2 ∧ st.1.length = w * h
            ∧ liveCount st.1 + st.2 = liveCount tiles + 0)
        (fun st y => quadStep h space x y st)
        (fun st y => quadStepM h space x y st)
        (stepBy (h - space) step_amt) a cM hR
        (fun a' cM' y hymem hR' =>
          hrel a' cM' hR' x y (mem_stepBy hxmem) (mem_stepBy hymem)))
  exact ⟨main.1, main.2.1, by have := main.2.2.2; omega⟩

/-- The accumulator fold both whole-quadtree passes use over the height
layers is an append of a map, and its count is the sum of counts. -/
theorem layerFold_spec (g : List Tile → List Tile × Nat) :
    ∀ (L : List (List Tile)) (a : List (List Tile)) (c : Nat),
      (L.foldl (fun (acc : List (List Tile) × Nat) layer =>
          (acc.1 ++ [(g layer).1], acc.2 + (g layer).2)) (a, c)).1
        = a ++ L.map (fun l => (g l).1)
      ∧ (L.foldl (fun (acc : List (List Tile) × Nat) layer =>
          (acc.1 ++ [(g layer).1], acc.2 + (g layer).2)) (a, c)).2
        = c + (L.map (fun l => (g l).2)).sum := by
  intro L
  induction L with
  | nil => intro a c; simp
  | cons l ls ih =>
    intro a c
    simp only [List.foldl_cons, List.map_cons, List.sum_cons]
    have h2 := ih (a ++ [(g l).1]) (c + (g l).2)
    refine ⟨?_, ?_⟩
    · rw [h2.1]
      simp
    · rw [h2.2]
      omega

/-- Structural description of one whole-quadtree quad pass: dimensions are
unchanged, the main tiles and each layer go through the per-layer pass, and
the count is the sum over all layers. -/
theorem quad_optimize_level_spec (q : QuadTree) (level : Nat) :
    ((q.quad_optimize_level level).1).width = q.width
    ∧ ((q.quad_optimize_level level).1).height = q.height
    ∧ ((q.quad_optimize_level level).1).tiles
        = (quad_optimize_tiles q.tiles q.width q.height (2 ^ level)
            (2 ^ level * 2)).1
    ∧ ((q.quad_optimize_level level).1).height_layers
        = q.height_layers.map (fun L =>
            (quad_optimize_tiles L q.width q.height (2 ^ level)
              (2 ^ level * 2)).1)
    ∧ (q.quad_optimize_level level).2
        = (quad_optimize_tiles q.tiles q.width q.height (2 ^ level)
            (2 ^ level * 2)).2
          + (q.height_layers.map (fun L =>
              (quad_optimize_tiles L q.width q.height (2 ^ level)
                (2 ^ level * 2)).2)).sum := by
  have h2 := layerFold_spec
    (fun L => quad_optimize_tiles L q.width q.height (2 ^ level)
      (2 ^ level * 2)) q.height_layers [] 0
  refine ⟨rfl, rfl, rfl, ?_, ?_⟩
  · exact h2.1
  · show (quad_optimize_tiles q.tiles q.width q.height (2 ^ level)
        (2 ^ level * 2)).2
      + (q.height_layers.foldl (fun (acc : List (List Tile) × Nat) layer =>
          (acc.1 ++ [(quad_optimize_tiles layer q.width q.height (2 ^ level)
            (2 ^ level * 2)).1],
            acc.2 + (quad_optimize_tiles layer q.width q.height (2 ^ level)
              (2 ^ level * 2)).2)) ([], 0)).2 = _
    rw [show (q.height_layers.foldl (fun (acc : List (List Tile) × Nat)
        layer =>
          (acc.1 ++ [(quad_optimize_tiles layer q.width q.height (2 ^ level)
            (2 ^ level * 2)).1],
            acc.2 + (quad_optimize_tiles layer q.width q.height (2 ^ level)
              (2 ^ level * 2)).2)) ([], 0)).2
        = (0 : Nat) + (q.height_layers.map (fun l =>
            (quad_optimize_tiles l q.width q.height (2 ^ level)
              (2 ^ level * 2)).2)).sum from h2.2]
    omega

/-- Structural description of one whole-quadtree run-merge pass, symmetric
to quad_optimize_level_spec. -/
theorem line_optimize_spec (q : QuadTree) (ts : Nat) :
    ((q.line_optimize ts).1).width = q.width
    ∧ ((q.line_optimize ts).1).height = q.height
    ∧ ((q.line_optimize ts).1).tiles
        = (line_optimize_tiles q.tiles q.width q.height ts).1
    ∧ ((q.line_optimize ts).1).height_layers
        = q.height_layers.map (fun L =>
            (line_optimize_tiles L q.width q.height ts).1)
    ∧ (q.line_optimize ts).2
        = (line_optimize_tiles q.tiles q.width q.height ts).2
          + (q.height_layers.map (fun L =>
              (line_optimize_tiles L q.width q.height ts).2)).sum := by
  have h2 := layerFold_spec
    (fun L => line_optimize_tiles L q.width q.height ts) q.height_layers [] 0
  refine ⟨rfl, rfl, rfl, ?_, ?_⟩
  · exact h2.1
  · show (line_optimize_tiles q.tiles q.width q.height ts).2
      + (q.height_layers.foldl (fun (acc : List (List Tile) × Nat) layer =>
          (acc.1 ++ [(line_optimize_tiles layer q.width q.height ts).1],
            acc.2 + (line_optimize_tiles layer q.width q.height ts).2))
          ([], 0)).2 = _
    rw [show (q.height_layers.foldl (fun (acc : List (List Tile) × Nat)
        layer =>
          (acc.1 ++ [(line_optimize_tiles layer q.width q.height ts).1],
            acc.2 + (line_optimize_tiles layer q.width q.height ts).2))
          ([], 0)).2
        = (0 : Nat) + (q.height_layers.map (fun l =>
            (line_optimize_tiles l q.width q.height ts).2)).sum from h2.2]
    omega

/-! The run-merge pass: gather loops, chains, and merge_line. -/

theorem similar_line_horiz {t o : Tile} {x y sx : Nat} (hsx : 1 ≤ sx)
    (ht : t.center = (x, y)) (ho : o.center = (x + sx, y)) :
    t.similar_line o = true ↔
      t.size.2 = o.size.2 ∧ t.color = o.color ∧ t.height = o.height ∧
        t.parent = none ∧ o.parent = none := by
  simp [Tile.similar_line, ht, ho, Option.isNone_iff_eq_none, and_assoc,
    show ¬ (x = x + sx) by omega]

theorem similar_line_vert {t o : Tile} {x y sy : Nat} (hsy : 1 ≤ sy)
    (ht : t.center = (x, y)) (ho : o.center = (x, y + sy)) :
    t.similar_line o = true ↔
      t.size.1 = o.size.1 ∧ t.color = o.color ∧ t.height = o.height ∧
        t.parent = none ∧ o.parent = none := by
  simp [Tile.similar_line, ht, ho, Option.isNone_iff_eq_none, and_assoc,
    show ¬ (y = y + sy) by omega]

theorem gatherH_succ (tiles : List Tile) (width hgt tile_scale x y : Nat)
    (start : Tile) (n sx : Nat) (acc : List Nat) :
    gatherH tiles width hgt tile_scale x y start (n + 1) sx acc
      = if x + sx < width then
          (if ((sx + (tiles.getD (y + (x + sx) * hgt) default).size.1)
                * tile_scale > 500
              || !(start.similar_line
                    (tiles.getD (y + (x + sx) * hgt) default))) then
            (acc.reverse, sx)
          else
            gatherH tiles width hgt tile_scale x y start n
              (sx + (tiles.getD (y + (x + sx) * hgt) default).size.1)
              ((y + (x + sx) * hgt) :: acc))
        else (acc.reverse, sx) := rfl

theorem gatherV_succ (tiles : List Tile) (hgt tile_scale x y : Nat)
    (start : Tile) (n sy : Nat) (acc : List Nat) :
    gatherV tiles hgt tile_scale x y start (n + 1) sy acc
      = if y + sy < hgt then
          (if ((sy + (tiles.getD ((y + sy) + x * hgt) default).size.2)
                * tile_scale > 500
              || !(start.similar_line
                    (tiles.getD ((y + sy) + x * hgt) default))) then
            (acc.reverse, sy)
          else
            gatherV tiles hgt tile_scale x y start n
              (sy + (tiles.getD ((y + sy) + x * hgt) default).size.2)
              (((y + sy) + x * hgt) :: acc))
        else (acc.reverse, sy) := rfl

theorem gatherH_acc (tiles : List Tile) (width hgt tile_scale x y : Nat)
    (start : Tile) :
    ∀ (fuel sx : Nat) (acc : List Nat),
      gatherH tiles width hgt tile_scale x y start fuel sx acc
        = (acc.reverse
            ++ (gatherH tiles width hgt tile_scale x y start fuel sx []).1,
          (gatherH tiles width hgt tile_scale x y start fuel sx []).2) := by
  intro fuel
  induction fuel with
  | zero => intro sx acc; simp [gatherH]
  | succ n ih =>
    intro sx acc
    rw [gatherH_succ, gatherH_succ]
    by_cases hlt : x + sx < width
    · rw [if_pos hlt, if_pos hlt]
      by_cases hgd : ((sx + (tiles.getD (y + (x + sx) * hgt) default).size.1)
          * tile_scale > 500
          || !(start.similar_line (tiles.getD (y + (x + sx) * hgt) default)))
          = true
      · rw [if_pos hgd, if_pos hgd]
        simp
      · rw [if_neg hgd, if_neg hgd]
        rw [ih _ ((y + (x + sx) * hgt) :: acc), ih _ [y + (x + sx) * hgt]]
        simp
    · rw [if_neg hlt, if_neg hlt]
      simp

theorem gatherV_acc (tiles : List Tile) (hgt tile_scale x y : Nat)
    (start : Tile) :
    ∀ (fuel sy : Nat) (acc : List Nat),
      gatherV tiles hgt tile_scale x y start fuel sy acc
        = (acc.reverse
            ++ (gatherV tiles hgt tile_scale x y start fuel sy []).1,
          (gatherV tiles hgt tile_scale x y start fuel sy []).2) := by
  intro fuel
  induction fuel with
  | zero => intro sy acc; simp [gatherV]
  | succ n ih =>
    intro sy acc
    rw [gatherV_succ, gatherV_succ]
    by_cases hlt : y + sy < hgt
    · rw [if_pos hlt, if_pos hlt]
      by_cases hgd : ((sy + (tiles.getD ((y + sy) + x * hgt) default).size.2)
          * tile_scale > 500
          || !(start.similar_line (tiles.getD ((y + sy) + x * hgt) default)))
          = true
      · rw [if_pos hgd, if_pos hgd]
        simp
      · rw [if_neg hgd, if_neg hgd]
        rw [ih _ (((y + sy) + x * hgt) :: acc), ih _ [(y + sy) + x * hgt]]
        simp
    · rw [if_neg hlt, if_neg hlt]
      simp

/-- The horizontal gather loop returns a chain of live, row-aligned,
orthogonally matching tiles, and when it accepts at least one tile the
final accumulated width respects the 500-unit limit. -/
theorem gatherH_chain {w h ts x y : Nat} (tiles : List Tile) (start : Tile)
    (hwf : WF tiles w h) (hy : y < h) (hsc : start.center = (x, y)) :
    ∀ (fuel sx : Nat), 1 ≤ sx →
      HChain tiles h x y start.size.2 sx
        (gatherH tiles w h ts x y start fuel sx []).1
        (gatherH tiles w h ts x y start fuel sx []).2
      ∧ ((gatherH tiles w h ts x y start fuel sx []).1 ≠ [] →
          (gatherH tiles w h ts x y start fuel sx []).2 * ts ≤ 500) := by
  intro fuel
  induction fuel with
  | zero =>
    intro sx hsx
    constructor
    · show HChain tiles h x y start.size.2 sx [] sx
      rw [HChain]
    · intro hne
      exact absurd rfl hne
  | succ n ih =>
    intro sx hsx
    rw [gatherH_succ]
    by_cases hlt : x + sx < w
    · rw [if_pos hlt]
      by_cases hgd : ((sx + (tiles.getD (y + (x + sx) * h) default).size.1)
          * ts > 500
          || !(start.similar_line (tiles.getD (y + (x + sx) * h) default)))
          = true
      · rw [if_pos hgd]
        constructor
        · show HChain tiles h x y start.size.2 sx [] sx
          rw [HChain]
        · intro hne
          exact absurd rfl hne
      · rw [if_neg hgd]
        have hgdf : ((sx + (tiles.getD (y + (x + sx) * h) default).size.1)
            * ts > 500
            || !(start.similar_line (tiles.getD (y + (x + sx) * h) default)))
            = false := by
          cases hb : ((sx + (tiles.getD (y + (x + sx) * h) default).size.1)
              * ts > 500
              || !(start.similar_line (tiles.getD (y + (x + sx) * h)
                default)))
          · rfl
          · exact absurd hb hgd
        have hparts := Bool.or_eq_false_iff.mp hgdf
        have hbound : (sx + (tiles.getD (y + (x + sx) * h) default).size.1)
            * ts ≤ 500 := by
          have h2 := of_decide_eq_false hparts.1
          omega
        have hsim : start.similar_line (tiles.getD (y + (x + sx) * h)
            default) = true :=
          (Bool.not_eq_false' (start.similar_line
            (tiles.getD (y + (x + sx) * h) default))).mp hparts.2
        rw [gatherH_acc tiles w h ts x y start n _ [y + (x + sx) * h]]
        have hilen : y + (x + sx) * h < tiles.length := by
          rw [hwf.1]
          exact idx_lt hlt hy
        have hicen : (tiles.getD (y + (x + sx) * h) default).center
            = (x + sx, y) := by
          have h2 := (hwf.2 (y + (x + sx) * h)
            (by rw [← hwf.1]; exact hilen)).1
          rw [h2, idx_div hy, idx_mod hy]
        rcases (similar_line_horiz hsx hsc hicen).mp hsim with
          ⟨hsz2, _, _, _, hpar⟩
        have hisz1 := (hwf.2 (y + (x + sx) * h)
          (by rw [← hwf.1]; exact hilen)).2.1
        have hrec := ih (sx + (tiles.getD (y + (x + sx) * h) default).size.1)
          (by omega)
        constructor
        · show HChain tiles h x y start.size.2 sx
            ([y + (x + sx) * h].reverse ++ _) _
          rw [show ([y + (x + sx) * h].reverse
              ++ (gatherH tiles w h ts x y start n
                (sx + (tiles.getD (y + (x + sx) * h) default).size.1) []).1)
              = ((y + (x + sx) * h)
                :: (gatherH tiles w h ts x y start n
                  (sx + (tiles.getD (y + (x + sx) * h) default).size.1)
                  []).1) by simp]
          rw [HChain]
          exact ⟨rfl, hilen, hpar, hicen, hsz2.symm, hisz1, hrec.1⟩
        · intro _
          show (gatherH tiles w h ts x y start n
            (sx + (tiles.getD (y + (x + sx) * h) default).size.1) []).2 * ts
            ≤ 500
          rcases hne2 : (gatherH tiles w h ts x y start n
              (sx + (tiles.getD (y + (x + sx) * h) default).size.1) []).1
            with _ | ⟨a, l⟩
          · have hc := hrec.1
            rw [hne2] at hc
            rw [HChain] at hc
            rw [hc]
            exact hbound
          · exact hrec.2 (by rw [hne2]; simp)
    · rw [if_neg hlt]
      constructor
      · show HChain tiles h x y start.size.2 sx [] sx
        rw [HChain]
      · intro hne
        exact absurd rfl hne

/-- Vertical analog of gatherH_chain. -/
theorem gatherV_chain {w h ts x y : Nat} (tiles : List Tile) (start : Tile)
    (hwf : WF tiles w h) (hx : x < w) (hy : y < h)
    (hsc : start.center = (x, y)) :
    ∀ (fuel sy : Nat), 1 ≤ sy →
      VChain tiles h x y start.size.1 sy
        (gatherV tiles h ts x y start fuel sy []).1
        (gatherV tiles h ts x y start fuel sy []).2
      ∧ ((gatherV tiles h ts x y start fuel sy []).1 ≠ [] →
          (gatherV tiles h ts x y start fuel sy []).2 * ts ≤ 500) := by
  intro fuel
  induction fuel with
  | zero =>
    intro sy hsy
    constructor
    · show VChain tiles h x y start.size.1 sy [] sy
      rw [VChain]
    · intro hne
      exact absurd rfl hne
  | succ n ih =>
    intro sy hsy
    rw [gatherV_succ]
    by_cases hlt : y + sy < h
    · rw [if_pos hlt]
      by_cases hgd : ((sy + (tiles.getD ((y + sy) + x * h) default).size.2)
          * ts > 500
          || !(start.similar_line (tiles.getD ((y + sy) + x * h) default)))
          = true
      · rw [if_pos hgd]
        constructor
        · show VChain tiles h x y start.size.1 sy [] sy
          rw [VChain]
        · intro hne
          exact absurd rfl hne
      · rw [if_neg hgd]
        have hgdf : ((sy + (tiles.getD ((y + sy) + x * h) default).size.2)
            * ts > 500
            || !(start.similar_line (tiles.getD ((y + sy) + x * h) default)))
            = false := by
          cases hb : ((sy + (tiles.getD ((y + sy) + x * h) default).size.2)
              * ts > 500
              || !(start.similar_line (tiles.getD ((y + sy) + x * h)
                default)))
          · rfl
          · exact absurd hb hgd
        have hparts := Bool.or_eq_false_iff.mp hgdf
        have hbound : (sy + (tiles.getD ((y + sy) + x * h) default).size.2)
            * ts ≤ 500 := by
          have h2 := of_decide_eq_false hparts.1
          omega
        have hsim : start.similar_line (tiles.getD ((y + sy) + x * h)
            default) = true :=
          (Bool.not_eq_false' (start.similar_line
            (tiles.getD ((y + sy) + x * h) default))).mp hparts.2
        rw [gatherV_acc tiles h ts x y start n _ [(y + sy) + x * h]]
        have hilen : (y + sy) + x * h < tiles.length := by
          rw [hwf.1]
          exact idx_lt hx hlt
        have hicen : (tiles.getD ((y + sy) + x * h) default).center
            = (x, y + sy) := by
          have h2 := (hwf.2 ((y + sy) + x * h)
            (by rw [← hwf.1]; exact hilen)).1
          rw [h2, idx_div hlt, idx_mod hlt]
        rcases (similar_line_vert hsy hsc hicen).mp hsim with
          ⟨hsz1, _, _, _, hpar⟩
        have hisz2 := (hwf.2 ((y + sy) + x * h)
          (by rw [← hwf.1]; exact hilen)).2.2
        have hrec := ih (sy + (tiles.getD ((y + sy) + x * h) default).size.2)
          (by omega)
        constructor
        · show VChain tiles h x y start.size.1 sy
            ([(y + sy) + x * h].reverse ++ _) _
          rw [show ([(y + sy) + x * h].reverse
              ++ (gatherV tiles h ts x y start n
                (sy + (tiles.getD ((y + sy) + x * h) default).size.2) []).1)
              = (((y + sy) + x * h)
                :: (gatherV tiles h ts x y start n
                  (sy + (tiles.getD ((y + sy) + x * h) default).size.2)
                  []).1) by simp]
          rw [VChain]
          exact ⟨rfl, hilen, hpar, hicen, hsz1.symm, hisz2, hrec.1⟩
        · intro _
          show (gatherV tiles h ts x y start n
            (sy + (tiles.getD ((y + sy) + x * h) default).size.2) []).2 * ts
            ≤ 500
          rcases hne2 : (gatherV tiles h ts x y start n
              (sy + (tiles.getD ((y + sy) + x * h) default).size.2) []).1
            with _ | ⟨a, l⟩
          · have hc := hrec.1
            rw [hne2] at hc
            rw [VChain] at hc
            rw [hc]
            exact hbound
          · exact hrec.2 (by rw [hne2]; simp)
    · rw [if_neg hlt]
      constructor
      · show VChain tiles h x y start.size.1 sy [] sy
        rw [VChain]
      · intro hne
        exact absurd rfl hne

/-- Structural facts about a horizontal chain: the accumulated width only
grows, members are live in-bound indices strictly to the right of the
start, the list has no duplicates, and the member widths sum to the growth
of the accumulated width. -/
theorem hchain_facts {tiles : List Tile} {h x y h0 : Nat} (hh : 1 ≤ h) :
    ∀ (cs : List Nat) (sx sxF : Nat), 1 ≤ sx →
      HChain tiles h x y h0 sx cs sxF →
      sx ≤ sxF
      ∧ (∀ i ∈ cs, y + (x + sx) * h ≤ i ∧ i < tiles.length
          ∧ (tiles.getD i default).parent = none)
      ∧ cs.Nodup
      ∧ (y + x * h) ∉ cs
      ∧ (cs.map (fun i => (tiles.getD i default).size.1)).sum + sx = sxF := by
  intro cs
  induction cs with
  | nil =>
    intro sx sxF hsx hc
    rw [HChain] at hc
    exact ⟨le_of_eq hc.symm, by simp, List.nodup_nil, by simp, by simp [hc]⟩
  | cons i cs ih =>
    intro sx sxF hsx hc
    rw [HChain] at hc
    obtain ⟨hieq, hilen, hipar, _, _, hisz1, htail⟩ := hc
    have hrec := ih (sx + (tiles.getD i default).size.1) sxF (by omega) htail
    have hmul1 : (x + sx) * h
        ≤ (x + (sx + (tiles.getD i default).size.1)) * h :=
      Nat.mul_le_mul_right h (by omega)
    have hmul2 : (x + sx + 1) * h
        ≤ (x + (sx + (tiles.getD i default).size.1)) * h :=
      Nat.mul_le_mul_right h (by omega)
    have hmul3 : (x + sx + 1) * h = (x + sx) * h + h := Nat.succ_mul _ _
    have hmul4 : (x + 1) * h ≤ (x + sx) * h :=
      Nat.mul_le_mul_right h (by omega)
    have hmul5 : (x + 1) * h = x * h + h := Nat.succ_mul _ _
    refine ⟨by omega, ?_, ?_, ?_, ?_⟩
    · intro j hj
      rcases List.mem_cons.mp hj with hj | hj
      · subst hj
        exact ⟨by omega, hilen, hipar⟩
      · have h2 := (hrec.2.1 j hj).1
        exact ⟨by omega, (hrec.2.1 j hj).2.1, (hrec.2.1 j hj).2.2⟩
    · refine List.nodup_cons.mpr ⟨?_, hrec.2.2.1⟩
      intro hmem
      have h2 := (hrec.2.1 i hmem).1
      omega
    · intro hmem
      rcases List.mem_cons.mp hmem with h2 | h2
      · omega
      · have h3 := (hrec.2.1 _ h2).1
        omega
    · have h2 := hrec.2.2.2.2
      rw [List.map_cons, List.sum_cons]
      omega

/-- Structural facts about a vertical chain, symmetric to hchain_facts
(indices grow by the member heights directly, no row stride involved). -/
theorem vchain_facts {tiles : List Tile} {h x y w0 : Nat} :
    ∀ (cs : List Nat) (sy syF : Nat), 1 ≤ sy →
      VChain tiles h x y w0 sy cs syF →
      sy ≤ syF
      ∧ (∀ i ∈ cs, (y + sy) + x * h ≤ i ∧ i < tiles.length
          ∧ (tiles.getD i default).parent = none)
      ∧ cs.Nodup
      ∧ (y + x * h) ∉ cs
      ∧ (cs.map (fun i => (tiles.getD i default).size.2)).sum + sy = syF := by
  intro cs
  induction cs with
  | nil =>
    intro sy syF hsy hc
    rw [VChain] at hc
    exact ⟨le_of_eq hc.symm, by simp, List.nodup_nil, by simp, by simp [hc]⟩
  | cons i cs ih =>
    intro sy syF hsy hc
    rw [VChain] at hc
    obtain ⟨hieq, hilen, hipar, _, _, hisz2, htail⟩ := hc
    have hrec := ih (sy + (tiles.getD i default).size.2) syF (by omega) htail
    refine ⟨by omega, ?_, ?_, ?_, ?_⟩
    · intro j hj
      rcases List.mem_cons.mp hj with hj | hj
      · subst hj
        exact ⟨by omega, hilen, hipar⟩
      · have h2 := (hrec.2.1 j hj).1
        exact ⟨by omega, (hrec.2.1 j hj).2.1, (hrec.2.1 j hj).2.2⟩
    · refine List.nodup_cons.mpr ⟨?_, hrec.2.2.1⟩
      intro hmem
      have h2 := (hrec.2.1 i hmem).1
      omega
    · intro hmem
      rcases List.mem_cons.mp hmem with h2 | h2
      · omega
      · have h3 := (hrec.2.1 _ h2).1
        omega
    · have h2 := hrec.2.2.2.2
      rw [List.map_cons, List.sum_cons]
      omega

/-- Pointwise and counting description of the mark-and-accumulate fold of
merge_line over a duplicate-free in-bound child list. -/
theorem markFold_spec (start_i : Nat) (isV : Bool) (p : Tile → Bool) :
    ∀ (cs : List Nat) (tiles : List Tile) (ns : List (List Nat)) (s : Nat),
      cs.Nodup → (∀ i ∈ cs, i < tiles.length) →
      (markFold start_i isV cs (tiles, ns, s)).1.length = tiles.length
      ∧ (∀ j, j ∉ cs →
          (markFold start_i isV cs (tiles, ns, s)).1.getD j default
            = tiles.getD j default)
      ∧ (∀ i ∈ cs, (markFold start_i isV cs (tiles, ns, s)).1.getD i default
          = { tiles.getD i default with parent := some start_i })
      ∧ (markFold start_i isV cs (tiles, ns, s)).2.2
          = s + (cs.map (fun i => if isV then (tiles.getD i default).size.2
              else (tiles.getD i default).size.1)).sum
      ∧ (markFold start_i isV cs (tiles, ns, s)).1.countP p
          + (cs.map (fun i =>
              if p (tiles.getD i default) then 1 else 0)).sum
        = tiles.countP p
          + (cs.map (fun i =>
              if p ({ tiles.getD i default with parent := some start_i })
              then 1 else 0)).sum := by
  intro cs
  induction cs with
  | nil =>
    intro tiles ns s _ _
    exact ⟨rfl, fun j _ => rfl, by simp, by simp [markFold],
      by simp [markFold]⟩
  | cons i cs ih =>
    intro tiles ns s hnd hb
    have hib : i < tiles.length := hb i (by simp)
    have hstep : markFold start_i isV (i :: cs) (tiles, ns, s)
        = markFold start_i isV cs
            (tiles.set i
              { tiles.getD i default with parent := some start_i },
              ns ++ [(tiles.getD i default).neighbors],
              s + (if isV then (tiles.getD i default).size.2
                else (tiles.getD i default).size.1)) := rfl
    have hinotin : i ∉ cs := (List.nodup_cons.mp hnd).1
    have hndcs : cs.Nodup := (List.nodup_cons.mp hnd).2
    have hbcs : ∀ j ∈ cs,
        j < (tiles.set i
          { tiles.getD i default with parent := some start_i }).length := by
      intro j hj
      rw [List.length_set]
      exact hb j (List.mem_cons_of_mem _ hj)
    have hrec := ih (tiles.set i
        { tiles.getD i default with parent := some start_i })
      (ns ++ [(tiles.getD i default).neighbors])
      (s + (if isV then (tiles.getD i default).size.2
        else (tiles.getD i default).size.1)) hndcs hbcs
    have hsame : ∀ j ∈ cs,
        (tiles.set i
          { tiles.getD i default with parent := some start_i }).getD j
            default
          = tiles.getD j default := by
      intro j hj
      exact getD_set_ne (fun h2 => hinotin (by rw [h2]; exact hj)) _
    rw [hstep]
    refine ⟨?_, ?_, ?_, ?_, ?_⟩
    · rw [hrec.1, List.length_set]
    · intro j hj
      have hji : j ≠ i := fun h2 => hj (h2 ▸ List.mem_cons_self i cs)
      have hjcs : j ∉ cs := fun h2 => hj (List.mem_cons_of_mem _ h2)
      rw [hrec.2.1 j hjcs, getD_set_ne (fun h2 => hji h2.symm)]
    · intro j hj
      rcases List.mem_cons.mp hj with hj2 | hj2
      · subst hj2
        rw [hrec.2.1 j hinotin, getD_set_self hib]
      · rw [hrec.2.2.1 j hj2, hsame j hj2]
    · rw [hrec.2.2.2.1, List.map_cons, List.sum_cons,
        List.map_congr_left (fun j hj => by rw [hsame j hj])]
      omega
    · have hcnt := countP_set_add p tiles i hib
        { tiles.getD i default with parent := some start_i }
      have h2 := hrec.2.2.2.2
      rw [List.map_congr_left (fun j hj => by rw [hsame j hj]),
        List.map_congr_left (fun j (hj : j ∈ cs) =>
          show (if p ({ (tiles.set i { tiles.getD i default with
              parent := some start_i }).getD j default
              with parent := some start_i }) then (1 : Nat) else 0)
            = if p ({ tiles.getD j default with parent := some start_i })
              then 1 else 0 by rw [hsame j hj])] at h2
      rw [List.map_cons, List.sum_cons, List.map_cons, List.sum_cons]
      omega

/-- Full description of merge_line on a nonempty duplicate-free child list
that excludes the start: length preserved, bystanders unchanged, children
marked as merged into the start, the start extended along the merge axis by
the summed child sizes, and the exact countP bookkeeping. -/
theorem merge_line_spec (tiles : List Tile) (start_i c0 : Nat)
    (cs' : List Nat) (p : Tile → Bool)
    (hnd : (c0 :: cs').Nodup) (hb : ∀ i ∈ c0 :: cs', i < tiles.length)
    (hs : start_i ∉ c0 :: cs') (hsl : start_i < tiles.length) :
    (merge_line tiles start_i (c0 :: cs')).length = tiles.length
    ∧ (∀ j, j ∉ c0 :: cs' → j ≠ start_i →
        (merge_line tiles start_i (c0 :: cs')).getD j default
          = tiles.getD j default)
    ∧ (∀ i ∈ c0 :: cs',
        (merge_line tiles start_i (c0 :: cs')).getD i default
          = { tiles.getD i default with parent := some start_i })
    ∧ (∃ nb, (merge_line tiles start_i (c0 :: cs')).getD start_i default
        = { tiles.getD start_i default with
            neighbors := nb,
            size := if ((tiles.getD c0 default).center.1
                == (tiles.getD start_i default).center.1)
              then ((tiles.getD start_i default).size.1,
                (tiles.getD start_i default).size.2
                  + ((c0 :: cs').map (fun i =>
                      (tiles.getD i default).size.2)).sum)
              else ((tiles.getD start_i default).size.1
                  + ((c0 :: cs').map (fun i =>
                      (tiles.getD i default).size.1)).sum,
                (tiles.getD start_i default).size.2) })
    ∧ (merge_line tiles start_i (c0 :: cs')).countP p
        + (if p (tiles.getD start_i default) then 1 else 0)
        + ((c0 :: cs').map (fun i =>
            if p (tiles.getD i default) then 1 else 0)).sum
      = tiles.countP p
        + (if p ((merge_line tiles start_i
              (c0 :: cs')).getD start_i default) then 1 else 0)
        + ((c0 :: cs').map (fun i =>
            if p ({ tiles.getD i default with parent := some start_i })
            then 1 else 0)).sum := by
  set isV := ((tiles.getD c0 default).center.1
    == (tiles.getD start_i default).center.1) with hisV
  set res := markFold start_i isV (c0 :: cs') (tiles, [], 0) with hres
  have hout : merge_line tiles start_i (c0 :: cs')
      = res.1.set start_i
          { res.1.getD start_i default with
            neighbors := res.2.1.foldl extendSet
              (res.1.getD start_i default).neighbors,
            size := if isV
              then ((res.1.getD start_i default).size.1,
                (res.1.getD start_i default).size.2 + res.2.2)
              else ((res.1.getD start_i default).size.1 + res.2.2,
                (res.1.getD start_i default).size.2) } := rfl
  have hmf := markFold_spec start_i isV p (c0 :: cs') tiles [] 0 hnd hb
  have hrs : res.1.getD start_i default = tiles.getD start_i default :=
    hmf.2.1 start_i hs
  have hrlen : res.1.length = tiles.length := hmf.1
  have hsum : res.2.2 = ((c0 :: cs').map (fun i =>
      if isV then (tiles.getD i default).size.2
      else (tiles.getD i default).size.1)).sum := by
    have h2 := hmf.2.2.2.1
    rw [← hres] at h2
    omega
  rw [hout]
  refine ⟨?_, ?_, ?_, ?_, ?_⟩
  · rw [List.length_set, hrlen]
  · intro j hj hjs
    rw [getD_set_ne (fun h2 => hjs h2.symm), hmf.2.1 j hj]
  · intro i hi
    have his : i ≠ start_i := fun h2 => hs (h2 ▸ hi)
    rw [getD_set_ne (fun h2 => his h2.symm), hmf.2.2.1 i hi]
  · refine ⟨res.2.1.foldl extendSet
      (res.1.getD start_i default).neighbors, ?_⟩
    rw [getD_set_self (by rw [hrlen]; exact hsl), hrs, hsum]
    by_cases hV : isV = true
    · rw [if_pos hV, if_pos hV]
      rw [List.map_congr_left (fun i _ => by rw [if_pos hV])]
    · rw [if_neg hV, if_neg hV]
      rw [List.map_congr_left (fun i _ => by
        rw [if_neg (fun h2 => hV h2)])]
  · have hcnt := countP_set_add p res.1 start_i (by rw [hrlen]; exact hsl)
      { res.1.getD start_i default with
        neighbors := res.2.1.foldl extendSet
          (res.1.getD start_i default).neighbors,
        size := if isV
          then ((res.1.getD start_i default).size.1,
            (res.1.getD start_i default).size.2 + res.2.2)
          else ((res.1.getD start_i default).size.1 + res.2.2,
            (res.1.getD start_i default).size.2) }
    have h2 := hmf.2.2.2.2
    rw [← hres] at h2
    rw [hrs] at hcnt
    rw [getD_set_self (by rw [hrlen]; exact hsl), hrs]
    omega

/-- Sum of the cover indicators of a horizontal chain's members at a cell,
together with the indicator of the strip accumulated so far, equals the
indicator of the final strip: the members tile the extension exactly. -/
theorem hchain_cover_sum {tiles : List Tile} {h x y h0 : Nat}
    (cx cy : Nat) :
    ∀ (cs : List Nat) (sx sxF : Nat),
      HChain tiles h x y h0 sx cs sxF →
      (cs.map (fun i => if (tiles.getD i default).parent.isNone
          && coversB (tiles.getD i default) cx cy then (1 : Nat) else 0)).sum
        + (if x ≤ cx ∧ cx < x + sx ∧ y ≤ cy ∧ cy < y + h0 then 1 else 0)
      = (if x ≤ cx ∧ cx < x + sxF ∧ y ≤ cy ∧ cy < y + h0 then 1 else 0) := by
  intro cs
  induction cs with
  | nil =>
    intro sx sxF hc
    rw [HChain] at hc
    rw [hc]
    simp
  | cons i cs ih =>
    intro sx sxF hc
    rw [HChain] at hc
    obtain ⟨hieq, hilen, hipar, hicen, hisz2, hisz1, htail⟩ := hc
    have hrec := ih _ _ htail
    rw [List.map_cons, List.sum_cons]
    have hcov : (coversB (tiles.getD i default) cx cy = true) ↔
        (x + sx ≤ cx ∧ cx < x + sx + (tiles.getD i default).size.1
          ∧ y ≤ cy ∧ cy < y + h0) := by
      simp only [coversB, Bool.and_eq_true, decide_eq_true_eq, hicen,
        hisz2, and_assoc]
    have hhead : (if (tiles.getD i default).parent.isNone
        && coversB (tiles.getD i default) cx cy then (1 : Nat) else 0)
        = if (x + sx ≤ cx ∧ cx < x + sx + (tiles.getD i default).size.1
            ∧ y ≤ cy ∧ cy < y + h0) then 1 else 0 := by
      simp only [hipar, Option.isNone_none, Bool.true_and]
      rw [if_congr hcov rfl rfl]
    rw [hhead]
    have hstrip : (if (x + sx ≤ cx
          ∧ cx < x + sx + (tiles.getD i default).size.1
          ∧ y ≤ cy ∧ cy < y + h0) then (1 : Nat) else 0)
        + (if x ≤ cx ∧ cx < x + sx ∧ y ≤ cy ∧ cy < y + h0 then 1 else 0)
        = (if x ≤ cx ∧ cx < x + (sx + (tiles.getD i default).size.1)
            ∧ y ≤ cy ∧ cy < y + h0 then 1 else 0) := by
      split_ifs <;> omega
    omega

/-- Vertical analog of hchain_cover_sum. -/
theorem vchain_cover_sum {tiles : List Tile} {h x y w0 : Nat}
    (cx cy : Nat) :
    ∀ (cs : List Nat) (sy syF : Nat),
      VChain tiles h x y w0 sy cs syF →
      (cs.map (fun i => if (tiles.getD i default).parent.isNone
          && coversB (tiles.getD i default) cx cy then (1 : Nat) else 0)).sum
        + (if x ≤ cx ∧ cx < x + w0 ∧ y ≤ cy ∧ cy < y + sy then 1 else 0)
      = (if x ≤ cx ∧ cx < x + w0 ∧ y ≤ cy ∧ cy < y + syF then 1 else 0) := by
  intro cs
  induction cs with
  | nil =>
    intro sy syF hc
    rw [VChain] at hc
    rw [hc]
    simp
  | cons i cs ih =>
    intro sy syF hc
    rw [VChain] at hc
    obtain ⟨hieq, hilen, hipar, hicen, hisz1, hisz2, htail⟩ := hc
    have hrec := ih _ _ htail
    rw [List.map_cons, List.sum_cons]
    have hcov : (coversB (tiles.getD i default) cx cy = true) ↔
        (x ≤ cx ∧ cx < x + w0
          ∧ y + sy ≤ cy ∧ cy < y + sy + (tiles.getD i default).size.2) := by
      simp only [coversB, Bool.and_eq_true, decide_eq_true_eq, hicen,
        hisz1, and_assoc]
    have hhead : (if (tiles.getD i default).parent.isNone
        && coversB (tiles.getD i default) cx cy then (1 : Nat) else 0)
        = if (x ≤ cx ∧ cx < x + w0
            ∧ y + sy ≤ cy ∧ cy < y + sy + (tiles.getD i default).size.2)
          then 1 else 0 := by
      simp only [hipar, Option.isNone_none, Bool.true_and]
      rw [if_congr hcov rfl rfl]
    rw [hhead]
    have hstrip : (if (x ≤ cx ∧ cx < x + w0
          ∧ y + sy ≤ cy ∧ cy < y + sy + (tiles.getD i default).size.2)
          then (1 : Nat) else 0)
        + (if x ≤ cx ∧ cx < x + w0 ∧ y ≤ cy ∧ cy < y + sy then 1 else 0)
        = (if x ≤ cx ∧ cx < x + w0 ∧ y ≤ cy
            ∧ cy < y + (sy + (tiles.getD i default).size.2)
            then 1 else 0) := by
      split_ifs <;> omega
    omega

/-- Committing a nonempty horizontal run preserves well-formedness, the
per-cell cover counts and the size bound, and removes exactly the run
length from the live-tile count. -/
theorem mergeH_preserves {w h ts : Nat} (tiles : List Tile)
    (x y c0 : Nat) (cs' : List Nat) (sxF : Nat)
    (hwf : WF tiles w h) (hx : x < w) (hy : y < h)
    (hch : HChain tiles h x y ((tiles.getD (y + x * h) default).size.2)
      ((tiles.getD (y + x * h) default).size.1) (c0 :: cs') sxF)
    (hpar : (tiles.getD (y + x * h) default).parent = none)
    (hbnd : sxF * ts ≤ 500) :
    WF (merge_line tiles (y + x * h) (c0 :: cs')) w h
    ∧ (∀ cx cy, coverCount (merge_line tiles (y + x * h) (c0 :: cs')) cx cy
        = coverCount tiles cx cy)
    ∧ (SizeBound tiles ts →
        SizeBound (merge_line tiles (y + x * h) (c0 :: cs')) ts)
    ∧ liveCount (merge_line tiles (y + x * h) (c0 :: cs'))
        + (c0 :: cs').length = liveCount tiles := by
  have hh : 1 ≤ h := by omega
  have hsl : y + x * h < tiles.length := by
    rw [hwf.1]
    exact idx_lt hx hy
  have hwfs := hwf.2 (y + x * h) (by rw [← hwf.1]; exact hsl)
  have hcen : (tiles.getD (y + x * h) default).center = (x, y) := by
    rw [hwfs.1, idx_div hy, idx_mod hy]
  have hs1 : 1 ≤ (tiles.getD (y + x * h) default).size.1 := hwfs.2.1
  have hf := hchain_facts hh (c0 :: cs') _ sxF hs1 hch
  have hnd : (c0 :: cs').Nodup := hf.2.2.1
  have hb : ∀ i ∈ c0 :: cs', i < tiles.length := fun i hi => (hf.2.1 i hi).2.1
  have hns : (y + x * h) ∉ (c0 :: cs') := hf.2.2.2.1
  have hwsum : ((c0 :: cs').map (fun i => (tiles.getD i default).size.1)).sum
      + (tiles.getD (y + x * h) default).size.1 = sxF := hf.2.2.2.2
  have hc0c : (tiles.getD c0 default).center
      = (x + (tiles.getD (y + x * h) default).size.1, y) := by
    rw [HChain] at hch
    exact hch.2.2.2.1
  have hneg : ¬ (((tiles.getD c0 default).center.1
      == (tiles.getD (y + x * h) default).center.1) = true) := by
    rw [hc0c, hcen]
    simp only [beq_iff_eq]
    omega
  have hout := merge_line_spec tiles (y + x * h) c0 cs'
    (fun _ => true) hnd hb hns hsl
  have hlen : (merge_line tiles (y + x * h) (c0 :: cs')).length
      = tiles.length := hout.1
  obtain ⟨nb, hstart0⟩ := hout.2.2.2.1
  rw [if_neg hneg] at hstart0
  refine ⟨⟨by rw [hlen, hwf.1], ?_⟩, ?_, ?_, ?_⟩
  · intro i hi
    by_cases him : i ∈ c0 :: cs'
    · rw [hout.2.2.1 i him]
      exact hwf.2 i hi
    · by_cases hieq : i = y + x * h
      · subst hieq
        rw [hstart0]
        refine ⟨hwfs.1, ?_, hwfs.2.2⟩
        show 1 ≤ (tiles.getD (y + x * h) default).size.1
          + ((c0 :: cs').map (fun i => (tiles.getD i default).size.1)).sum
        omega
      · rw [hout.2.1 i him hieq]
        exact hwf.2 i hi
  · intro cx cy
    have hcnt : (merge_line tiles (y + x * h) (c0 :: cs')).countP
          (fun t => t.parent.isNone && coversB t cx cy)
        + (if ((tiles.getD (y + x * h) default).parent.isNone
            && coversB (tiles.getD (y + x * h) default) cx cy)
           then 1 else 0)
        + ((c0 :: cs').map (fun i =>
            if ((tiles.getD i default).parent.isNone
                && coversB (tiles.getD i default) cx cy)
            then 1 else 0)).sum
      = tiles.countP (fun t => t.parent.isNone && coversB t cx cy)
        + (if (((merge_line tiles (y + x * h) (c0 :: cs')).getD (y + x * h)
              default).parent.isNone
            && coversB ((merge_line tiles (y + x * h) (c0 :: cs')).getD
              (y + x * h) default) cx cy)
           then 1 else 0)
        + ((c0 :: cs').map (fun _ => (0 : Nat))).sum :=
      (merge_line_spec tiles (y + x * h) c0 cs'
        (fun t => t.parent.isNone && coversB t cx cy) hnd hb hns hsl).2.2.2.2
    have hcs := hchain_cover_sum cx cy (c0 :: cs')
      ((tiles.getD (y + x * h) default).size.1) sxF hch
    have hb1 : (if ((tiles.getD (y + x * h) default).parent.isNone
          && coversB (tiles.getD (y + x * h) default) cx cy)
        then (1 : Nat) else 0)
        = if x ≤ cx ∧ cx < x + (tiles.getD (y + x * h) default).size.1
            ∧ y ≤ cy ∧ cy < y + (tiles.getD (y + x * h) default).size.2
          then 1 else 0 := by
      have hiff : ((tiles.getD (y + x * h) default).parent.isNone
          && coversB (tiles.getD (y + x * h) default) cx cy) = true
          ↔ (x ≤ cx ∧ cx < x + (tiles.getD (y + x * h) default).size.1
            ∧ y ≤ cy ∧ cy < y + (tiles.getD (y + x * h) default).size.2) := by
        simp only [coversB, hpar, Option.isNone_none, Bool.true_and,
          Bool.and_eq_true, decide_eq_true_eq, hcen, and_assoc]
      rw [if_congr hiff rfl rfl]
    have hb3 : (if (((merge_line tiles (y + x * h) (c0 :: cs')).getD
            (y + x * h) default).parent.isNone
          && coversB ((merge_line tiles (y + x * h) (c0 :: cs')).getD
            (y + x * h) default) cx cy)
        then (1 : Nat) else 0)
        = if x ≤ cx ∧ cx < x + sxF ∧ y ≤ cy
            ∧ cy < y + (tiles.getD (y + x * h) default).size.2
          then 1 else 0 := by
      rw [hstart0]
      have hiff : (({ tiles.getD (y + x * h) default with
            neighbors := nb,
            size := ((tiles.getD (y + x * h) default).size.1
              + ((c0 :: cs').map (fun i =>
                  (tiles.getD i default).size.1)).sum,
              (tiles.getD (y + x * h) default).size.2) }).parent.isNone
          && coversB { tiles.getD (y + x * h) default with
            neighbors := nb,
            size := ((tiles.getD (y + x * h) default).size.1
              + ((c0 :: cs').map (fun i =>
                  (tiles.getD i default).size.1)).sum,
              (tiles.getD (y + x * h) default).size.2) } cx cy) = true
          ↔ (x ≤ cx ∧ cx < x + sxF ∧ y ≤ cy
            ∧ cy < y + (tiles.getD (y + x * h) default).size.2) := by
        simp only [coversB, hpar, Option.isNone_none, Bool.true_and,
          Bool.and_eq_true, decide_eq_true_eq, hcen, and_assoc]
        omega
      rw [if_congr hiff rfl rfl]
    have h0 : ((c0 :: cs').map (fun _ => (0 : Nat))).sum = 0 := by simp
    show (merge_line tiles (y + x * h) (c0 :: cs')).countP
        (fun t => t.parent.isNone && coversB t cx cy)
      = tiles.countP (fun t => t.parent.isNone && coversB t cx cy)
    omega
  · intro hsb i hil
    rw [hlen] at hil
    by_cases him : i ∈ c0 :: cs'
    · rw [hout.2.2.1 i him]
      exact hsb i hil
    · by_cases hieq : i = y + x * h
      · subst hieq
        rw [hstart0]
        have h2 := hsb (y + x * h) hsl
        constructor
        · show ((tiles.getD (y + x * h) default).size.1
            + ((c0 :: cs').map (fun i =>
                (tiles.getD i default).size.1)).sum) * ts ≤ 500
          have h3 : (tiles.getD (y + x * h) default).size.1
              + ((c0 :: cs').map (fun i =>
                  (tiles.getD i default).size.1)).sum = sxF := by omega
          rw [h3]
          exact hbnd
        · exact h2.2
      · rw [hout.2.1 i him hieq]
        exact hsb i hil
  · have hcnt : (merge_line tiles (y + x * h) (c0 :: cs')).countP
          (fun t => t.parent.isNone)
        + (if (tiles.getD (y + x * h) default).parent.isNone
           then 1 else 0)
        + ((c0 :: cs').map (fun i =>
            if (tiles.getD i default).parent.isNone then 1 else 0)).sum
      = tiles.countP (fun t => t.parent.isNone)
        + (if ((merge_line tiles (y + x * h) (c0 :: cs')).getD (y + x * h)
              default).parent.isNone then 1 else 0)
        + ((c0 :: cs').map (fun _ => (0 : Nat))).sum :=
      (merge_line_spec tiles (y + x * h) c0 cs'
        (fun t => t.parent.isNone) hnd hb hns hsl).2.2.2.2
    have hmem : ((c0 :: cs').map (fun i =>
        if (tiles.getD i default).parent.isNone then (1 : Nat) else 0)).sum
        = (c0 :: cs').length := by
      have h2 : ((c0 :: cs').map (fun i =>
          if (tiles.getD i default).parent.isNone then (1 : Nat) else 0))
          = (c0 :: cs').map (fun _ => (1 : Nat)) :=
        List.map_congr_left (fun i hi => by
          rw [show (tiles.getD i default).parent = none from
            (hf.2.1 i hi).2.2]
          rfl)
      rw [h2]
      simp
      omega
    have hold : (if (tiles.getD (y + x * h) default).parent.isNone
        then (1 : Nat) else 0) = 1 := by
      rw [hpar]
      rfl
    have hnew : (if ((merge_line tiles (y + x * h) (c0 :: cs')).getD
        (y + x * h) default).parent.isNone then (1 : Nat) else 0) = 1 := by
      rw [hstart0]
      show (if (tiles.getD (y + x * h) default).parent.isNone
        then (1 : Nat) else 0) = 1
      rw [hpar]
      rfl
    have h0 : ((c0 :: cs').map (fun _ => (0 : Nat))).sum = 0 := by simp
    show (merge_line tiles (y + x * h) (c0 :: cs')).countP
        (fun t => t.parent.isNone) + (c0 :: cs').length
      = tiles.countP (fun t => t.parent.isNone)
    omega

/-- Vertical analog of mergeH_preserves. -/
theorem mergeV_preserves {w h ts : Nat} (tiles : List Tile)
    (x y c0 : Nat) (cs' : List Nat) (syF : Nat)
    (hwf : WF tiles w h) (hx : x < w) (hy : y < h)
    (hch : VChain tiles h x y ((tiles.getD (y + x * h) default).size.1)
      ((tiles.getD (y + x * h) default).size.2) (c0 :: cs') syF)
    (hpar : (tiles.getD (y + x * h) default).parent = none)
    (hbnd : syF * ts ≤ 500) :
    WF (merge_line tiles (y + x * h) (c0 :: cs')) w h
    ∧ (∀ cx cy, coverCount (merge_line tiles (y + x * h) (c0 :: cs')) cx cy
        = coverCount tiles cx cy)
    ∧ (SizeBound tiles ts →
        SizeBound (merge_line tiles (y + x * h) (c0 :: cs')) ts)
    ∧ liveCount (merge_line tiles (y + x * h) (c0 :: cs'))
        + (c0 :: cs').length = liveCount tiles := by
  have hsl : y + x * h < tiles.length := by
    rw [hwf.1]
    exact idx_lt hx hy
  have hwfs := hwf.2 (y + x * h) (by rw [← hwf.1]; exact hsl)
  have hcen : (tiles.getD (y + x * h) default).center = (x, y) := by
    rw [hwfs.1, idx_div hy, idx_mod hy]
  have hs2 : 1 ≤ (tiles.getD (y + x * h) default).size.2 := hwfs.2.2
  have hf := vchain_facts (c0 :: cs') _ syF hs2 hch
  have hnd : (c0 :: cs').Nodup := hf.2.2.1
  have hb : ∀ i ∈ c0 :: cs', i < tiles.length := fun i hi => (hf.2.1 i hi).2.1
  have hns : (y + x * h) ∉ (c0 :: cs') := hf.2.2.2.1
  have hwsum : ((c0 :: cs').map (fun i => (tiles.getD i default).size.2)).sum
      + (tiles.getD (y + x * h) default).size.2 = syF := hf.2.2.2.2
  have hc0c : (tiles.getD c0 default).center
      = (x, y + (tiles.getD (y + x * h) default).size.2) := by
    rw [VChain] at hch
    exact hch.2.2.2.1
  have hpos : (((tiles.getD c0 default).center.1
      == (tiles.getD (y + x * h) default).center.1) = true) := by
    rw [hc0c, hcen]
    simp only [beq_iff_eq]
  have hout := merge_line_spec tiles (y + x * h) c0 cs'
    (fun _ => true) hnd hb hns hsl
  have hlen : (merge_line tiles (y + x * h) (c0 :: cs')).length
      = tiles.length := hout.1
  obtain ⟨nb, hstart0⟩ := hout.2.2.2.1
  rw [if_pos hpos] at hstart0
  refine ⟨⟨by rw [hlen, hwf.1], ?_⟩, ?_, ?_, ?_⟩
  · intro i hi
    by_cases him : i ∈ c0 :: cs'
    · rw [hout.2.2.1 i him]
      exact hwf.2 i hi
    · by_cases hieq : i = y + x * h
      · subst hieq
        rw [hstart0]
        refine ⟨hwfs.1, hwfs.2.1, ?_⟩
        show 1 ≤ (tiles.getD (y + x * h) default).size.2
          + ((c0 :: cs').map (fun i => (tiles.getD i default).size.2)).sum
        omega
      · rw [hout.2.1 i him hieq]
        exact hwf.2 i hi
  · intro cx cy
    have hcnt : (merge_line tiles (y + x * h) (c0 :: cs')).countP
          (fun t => t.parent.isNone && coversB t cx cy)
        + (if ((tiles.getD (y + x * h) default).parent.isNone
            && coversB (tiles.getD (y + x * h) default) cx cy)
           then 1 else 0)
        + ((c0 :: cs').map (fun i =>
            if ((tiles.getD i default).parent.isNone
                && coversB (tiles.getD i default) cx cy)
            then 1 else 0)).sum
      = tiles.countP (fun t => t.parent.isNone && coversB t cx cy)
        + (if (((merge_line tiles (y + x * h) (c0 :: cs')).getD (y + x * h)
              default).parent.isNone
            && coversB ((merge_line tiles (y + x * h) (c0 :: cs')).getD
              (y + x * h) default) cx cy)
           then 1 else 0)
        + ((c0 :: cs').map (fun _ => (0 : Nat))).sum :=
      (merge_line_spec tiles (y + x * h) c0 cs'
        (fun t => t.parent.isNone && coversB t cx cy) hnd hb hns hsl).2.2.2.2
    have hcs := vchain_cover_sum cx cy (c0 :: cs')
      ((tiles.getD (y + x * h) default).size.2) syF hch
    have hb1 : (if ((tiles.getD (y + x * h) default).parent.isNone
          && coversB (tiles.getD (y + x * h) default) cx cy)
        then (1 : Nat) else 0)
        = if x ≤ cx ∧ cx < x + (tiles.getD (y + x * h) default).size.1
            ∧ y ≤ cy ∧ cy < y + (tiles.getD (y + x * h) default).size.2
          then 1 else 0 := by
      have hiff : ((tiles.getD (y + x * h) default).parent.isNone
          && coversB (tiles.getD (y + x * h) default) cx cy) = true
          ↔ (x ≤ cx ∧ cx < x + (tiles.getD (y + x * h) default).size.1
            ∧ y ≤ cy ∧ cy < y + (tiles.getD (y + x * h) default).size.2) := by
        simp only [coversB, hpar, Option.isNone_none, Bool.true_and,
          Bool.and_eq_true, decide_eq_true_eq, hcen, and_assoc]
      rw [if_congr hiff rfl rfl]
    have hb3 : (if (((merge_line tiles (y + x * h) (c0 :: cs')).getD
            (y + x * h) default).parent.isNone
          && coversB ((merge_line tiles (y + x * h) (c0 :: cs')).getD
            (y + x * h) default) cx cy)
        then (1 : Nat) else 0)
        = if x ≤ cx ∧ cx < x + (tiles.getD (y + x * h) default).size.1
            ∧ y ≤ cy ∧ cy < y + syF
          then 1 else 0 := by
      rw [hstart0]
      have hiff : (({ tiles.getD (y + x * h) default with
            neighbors := nb,
            size := ((tiles.getD (y + x * h) default).size.1,
              (tiles.getD (y + x * h) default).size.2
              + ((c0 :: cs').map (fun i =>
                  (tiles.getD i default).size.2)).sum) }).parent.isNone
          && coversB { tiles.getD (y + x * h) default with
            neighbors := nb,
            size := ((tiles.getD (y + x * h) default).size.1,
              (tiles.getD (y + x * h) default).size.2
              + ((c0 :: cs').map (fun i =>
                  (tiles.getD i default).size.2)).sum) } cx cy) = true
          ↔ (x ≤ cx ∧ cx < x + (tiles.getD (y + x * h) default).size.1
            ∧ y ≤ cy ∧ cy < y + syF) := by
        simp only [coversB, hpar, Option.isNone_none, Bool.true_and,
          Bool.and_eq_true, decide_eq_true_eq, hcen, and_assoc]
        omega
      rw [if_congr hiff rfl rfl]
    have h0 : ((c0 :: cs').map (fun _ => (0 : Nat))).sum = 0 := by simp
    show (merge_line tiles (y + x * h) (c0 :: cs')).countP
        (fun t => t.parent.isNone && coversB t cx cy)
      = tiles.countP (fun t => t.parent.isNone && coversB t cx cy)
    omega
  · intro hsb i hil
    rw [hlen] at hil
    by_cases him : i ∈ c0 :: cs'
    · rw [hout.2.2.1 i him]
      exact hsb i hil
    · by_cases hieq : i = y + x * h
      · subst hieq
        rw [hstart0]
        have h2 := hsb (y + x * h) hsl
        constructor
        · exact h2.1
        · show ((tiles.getD (y + x * h) default).size.2
            + ((c0 :: cs').map (fun i =>
                (tiles.getD i default).size.2)).sum) * ts ≤ 500
          have h3 : (tiles.getD (y + x * h) default).size.2
              + ((c0 :: cs').map (fun i =>
                  (tiles.getD i default).size.2)).sum = syF := by omega
          rw [h3]
          exact hbnd
      · rw [hout.2.1 i him hieq]
        exact hsb i hil
  · have hcnt : (merge_line tiles (y + x * h) (c0 :: cs')).countP
          (fun t => t.parent.isNone)
        + (if (tiles.getD (y + x * h) default).parent.isNone
           then 1 else 0)
        + ((c0 :: cs').map (fun i =>
            if (tiles.getD i default).parent.isNone then 1 else 0)).sum
      = tiles.countP (fun t => t.parent.isNone)
        + (if ((merge_line tiles (y + x * h) (c0 :: cs')).getD (y + x * h)
              default).parent.isNone then 1 else 0)
        + ((c0 :: cs').map (fun _ => (0 : Nat))).sum :=
      (merge_line_spec tiles (y + x * h) c0 cs'
        (fun t => t.parent.isNone) hnd hb hns hsl).2.2.2.2
    have hmem : ((c0 :: cs').map (fun i =>
        if (tiles.getD i default).parent.isNone then (1 : Nat) else 0)).sum
        = (c0 :: cs').length := by
      have h2 : ((c0 :: cs').map (fun i =>
          if (tiles.getD i default).parent.isNone then (1 : Nat) else 0))
          = (c0 :: cs').map (fun _ => (1 : Nat)) :=
        List.map_congr_left (fun i hi => by
          rw [show (tiles.getD i default).parent = none from
            (hf.2.1 i hi).2.2]
          rfl)
      rw [h2]
      simp
      omega
    have hold : (if (tiles.getD (y + x * h) default).parent.isNone
        then (1 : Nat) else 0) = 1 := by
      rw [hpar]
      rfl
    have hnew : (if ((merge_line tiles (y + x * h) (c0 :: cs')).getD
        (y + x * h) default).parent.isNone then (1 : Nat) else 0) = 1 := by
      rw [hstart0]
      show (if (tiles.getD (y + x * h) default).parent.isNone
        then (1 : Nat) else 0) = 1
      rw [hpar]
      rfl
    have h0 : ((c0 :: cs').map (fun _ => (0 : Nat))).sum = 0 := by simp
    show (merge_line tiles (y + x * h) (c0 :: cs')).countP
        (fun t => t.parent.isNone) + (c0 :: cs').length
      = tiles.countP (fun t => t.parent.isNone)
    omega

/-- One position of the line-merge scan preserves well-formedness, cover
counts and the size bound; the counter only grows, it grows by exactly the
number of tiles that lose their live status, and a step that does not grow
the counter leaves the layer unchanged. -/
theorem lineStep_preserves {w h ts : Nat} (tiles : List Tile) (n x y : Nat)
    (hwf : WF tiles w h) (hx : x < w) (hy : y < h) :
    WF (lineStep w h ts (tiles, n) (x, y)).1 w h
    ∧ (∀ cx cy, coverCount (lineStep w h ts (tiles, n) (x, y)).1 cx cy
        = coverCount tiles cx cy)
    ∧ (SizeBound tiles ts →
        SizeBound (lineStep w h ts (tiles, n) (x, y)).1 ts)
    ∧ liveCount (lineStep w h ts (tiles, n) (x, y)).1
        + (lineStep w h ts (tiles, n) (x, y)).2
      = liveCount tiles + n
    ∧ n ≤ (lineStep w h ts (tiles, n) (x, y)).2
    ∧ ((lineStep w h ts (tiles, n) (x, y)).2 = n
        → (lineStep w h ts (tiles, n) (x, y)).1 = tiles) := by
  have hsl : y + x * h < tiles.length := by
    rw [hwf.1]
    exact idx_lt hx hy
  have hwfs := hwf.2 (y + x * h) (by rw [← hwf.1]; exact hsl)
  have hcen : (tiles.getD (y + x * h) default).center = (x, y) := by
    rw [hwfs.1, idx_div hy, idx_mod hy]
  have hstep0 : lineStep w h ts (tiles, n) (x, y)
      = if (tiles.getD (y + x * h) default).parent.isSome
        then (tiles, n)
        else (merge_line tiles (y + x * h)
            (if (gatherH tiles w h ts x y (tiles.getD (y + x * h) default) w
                  ((tiles.getD (y + x * h) default).size.1) []).1.length
                > (gatherV tiles h ts x y (tiles.getD (y + x * h) default) h
                  ((tiles.getD (y + x * h) default).size.2) []).1.length
              then (gatherH tiles w h ts x y (tiles.getD (y + x * h) default)
                w ((tiles.getD (y + x * h) default).size.1) []).1
              else (gatherV tiles h ts x y (tiles.getD (y + x * h) default)
                h ((tiles.getD (y + x * h) default).size.2) []).1),
          n + max (gatherH tiles w h ts x y (tiles.getD (y + x * h) default)
              w ((tiles.getD (y + x * h) default).size.1) []).1.length
            (gatherV tiles h ts x y (tiles.getD (y + x * h) default)
              h ((tiles.getD (y + x * h) default).size.2) []).1.length)
      := rfl
  by_cases hp : (tiles.getD (y + x * h) default).parent.isSome = true
  · rw [hstep0, if_pos hp]
    exact ⟨hwf, fun _ _ => rfl, fun hsb => hsb, rfl, Nat.le_refl n,
      fun _ => rfl⟩
  · rw [hstep0, if_neg hp]
    have hpar : (tiles.getD (y + x * h) default).parent = none :=
      Option.not_isSome_iff_eq_none.mp hp
    have hs1 : 1 ≤ (tiles.getD (y + x * h) default).size.1 := hwfs.2.1
    have hs2 : 1 ≤ (tiles.getD (y + x * h) default).size.2 := hwfs.2.2
    have hzc := @gatherH_chain w h ts x y tiles
      (tiles.getD (y + x * h) default) hwf hy hcen w
      ((tiles.getD (y + x * h) default).size.1) hs1
    have hvc := @gatherV_chain w h ts x y tiles
      (tiles.getD (y + x * h) default) hwf hx hy hcen h
      ((tiles.getD (y + x * h) default).size.2) hs2
    by_cases hcmp : (gatherH tiles w h ts x y
          (tiles.getD (y + x * h) default) w
          ((tiles.getD (y + x * h) default).size.1) []).1.length
        > (gatherV tiles h ts x y (tiles.getD (y + x * h) default) h
          ((tiles.getD (y + x * h) default).size.2) []).1.length
    · rw [if_pos hcmp]
      rcases hHZ1 : (gatherH tiles w h ts x y
          (tiles.getD (y + x * h) default) w
          ((tiles.getD (y + x * h) default).size.1) []).1
        with _ | ⟨c0, cs'⟩
      · rw [hHZ1] at hcmp
        simp at hcmp
      · rw [hHZ1] at hzc hcmp
        have hbnd : (gatherH tiles w h ts x y
            (tiles.getD (y + x * h) default) w
            ((tiles.getD (y + x * h) default).size.1) []).2 * ts ≤ 500 :=
          hzc.2 (by simp)
        have hmg := mergeH_preserves tiles x y c0 cs' _ hwf hx hy hzc.1
          hpar hbnd
        have hmax : max (c0 :: cs').length
            (gatherV tiles h ts x y (tiles.getD (y + x * h) default) h
              ((tiles.getD (y + x * h) default).size.2) []).1.length
            = (c0 :: cs').length := Nat.max_eq_left (Nat.le_of_lt hcmp)
        refine ⟨hmg.1, hmg.2.1, hmg.2.2.1, ?_, ?_, ?_⟩
        · show liveCount (merge_line tiles (y + x * h) (c0 :: cs'))
            + (n + max (c0 :: cs').length _) = liveCount tiles + n
          rw [hmax]
          have h2 := hmg.2.2.2
          omega
        · show n ≤ n + max (c0 :: cs').length _
          exact Nat.le_add_right n _
        · intro h2
          rw [hmax] at h2
          simp at h2
    · rw [if_neg hcmp]
      rcases hVT1 : (gatherV tiles h ts x y
          (tiles.getD (y + x * h) default) h
          ((tiles.getD (y + x * h) default).size.2) []).1
        with _ | ⟨c0, cs'⟩
      · rw [hVT1] at hcmp
        have hz0 : (gatherH tiles w h ts x y
            (tiles.getD (y + x * h) default) w
            ((tiles.getD (y + x * h) default).size.1) []).1.length = 0 := by
          simp at hcmp
          simp [hcmp]
        refine ⟨hwf, fun _ _ => rfl, fun hsb => hsb, ?_, ?_, fun _ => rfl⟩
        · show liveCount tiles + (n + max _ ([] : List Nat).length)
            = liveCount tiles + n
          rw [hz0]
          rfl
        · show n ≤ n + max _ ([] : List Nat).length
          exact Nat.le_add_right n _
      · rw [hVT1] at hvc hcmp
        have hbnd : (gatherV tiles h ts x y
            (tiles.getD (y + x * h) default) h
            ((tiles.getD (y + x * h) default).size.2) []).2 * ts ≤ 500 :=
          hvc.2 (by simp)
        have hmg := mergeV_preserves tiles x y c0 cs' _ hwf hx hy hvc.1
          hpar hbnd
        have hmax : max (gatherH tiles w h ts x y
              (tiles.getD (y + x * h) default) w
              ((tiles.getD (y + x * h) default).size.1) []).1.length
            (c0 :: cs').length
            = (c0 :: cs').length := Nat.max_eq_right (Nat.le_of_not_lt hcmp)
        refine ⟨hmg.1, hmg.2.1, hmg.2.2.1, ?_, ?_, ?_⟩
        · show liveCount (merge_line tiles (y + x * h) (c0 :: cs'))
            + (n + max _ (c0 :: cs').length) = liveCount tiles + n
          rw [hmax]
          have h2 := hmg.2.2.2
          omega
        · show n ≤ n + max _ (c0 :: cs').length
          exact Nat.le_add_right n _
        · intro h2
          rw [hmax] at h2
          simp at h2

/-- Membership in the column-major scan bounds both coordinates. -/
theorem mem_colMajorPairs {w h : Nat} {p : Nat × Nat}
    (hp : p ∈ colMajorPairs w h) : p.1 < w ∧ p.2 < h := by
  rcases List.mem_flatMap.mp hp with ⟨x, hx, hmem⟩
  rcases List.mem_map.mp hmem with ⟨y, hy, hpy⟩
  rw [← hpy]
  exact ⟨List.mem_range.mp hx, List.mem_range.mp hy⟩

/-- The full line-merge pass preserves well-formedness, cover counts and
the size bound; its merge count equals the number of live tiles it
removes, and a pass that counts zero merges leaves the layer unchanged. -/
theorem line_optimize_tiles_preserves {w h ts : Nat} (tiles : List Tile)
    (hwf : WF tiles w h) :
    WF (line_optimize_tiles tiles w h ts).1 w h
    ∧ (∀ cx cy, coverCount (line_optimize_tiles tiles w h ts).1 cx cy
        = coverCount tiles cx cy)
    ∧ (SizeBound tiles ts →
        SizeBound (line_optimize_tiles tiles w h ts).1 ts)
    ∧ liveCount (line_optimize_tiles tiles w h ts).1
        + (line_optimize_tiles tiles w h ts).2 = liveCount tiles
    ∧ ((line_optimize_tiles tiles w h ts).2 = 0
        → (line_optimize_tiles tiles w h ts).1 = tiles) := by
  unfold line_optimize_tiles
  refine foldl_inv
    (fun st : List Tile × Nat => WF st.1 w h
      ∧ (∀ cx cy, coverCount st.1 cx cy = coverCount tiles cx cy)
      ∧ (SizeBound tiles ts → SizeBound st.1 ts)
      ∧ liveCount st.1 + st.2 = liveCount tiles
      ∧ (st.2 = 0 → st.1 = tiles))
    ⟨hwf, fun _ _ => rfl, fun hsb => hsb, rfl, fun _ => rfl⟩ ?_
  intro st p hpmem hP
  have hx := (mem_colMajorPairs hpmem).1
  have hy := (mem_colMajorPairs hpmem).2
  have h2 := @lineStep_preserves w h ts st.1 st.2 p.1 p.2 hP.1 hx hy
  show WF (lineStep w h ts (st.1, st.2) (p.1, p.2)).1 w h
    ∧ (∀ cx cy, coverCount (lineStep w h ts (st.1, st.2) (p.1, p.2)).1 cx cy
        = coverCount tiles cx cy)
    ∧ (SizeBound tiles ts →
        SizeBound (lineStep w h ts (st.1, st.2) (p.1, p.2)).1 ts)
    ∧ liveCount (lineStep w h ts (st.1, st.2) (p.1, p.2)).1
        + (lineStep w h ts (st.1, st.2) (p.1, p.2)).2 = liveCount tiles
    ∧ ((lineStep w h ts (st.1, st.2) (p.1, p.2)).2 = 0
        → (lineStep w h ts (st.1, st.2) (p.1, p.2)).1 = tiles)
  refine ⟨h2.1, ?_, ?_, ?_, ?_⟩
  · intro cx cy
    rw [h2.2.1 cx cy, hP.2.1 cx cy]
  · intro hsb
    exact h2.2.2.1 (hP.2.2.1 hsb)
  · have h3 := h2.2.2.2.1
    have h4 := hP.2.2.2.1
    omega
  · intro h0
    have h3 := h2.2.2.2.2.1
    have h4 : st.2 = 0 := by omega
    have h5 := h2.2.2.2.2.2 (by omega)
    rw [h5]
    exact hP.2.2.2.2 h4

/-- Summing a pointwise additive relation over a list. -/
theorem sum_map_eq_of_add {α : Type} (f g c : α → Nat) :
    ∀ l : List α, (∀ a ∈ l, f a + c a = g a) →
      (l.map f).sum + (l.map c).sum = (l.map g).sum := by
  intro l
  induction l with
  | nil => intro _; rfl
  | cons a l ih =>
    intro h2
    simp only [List.map_cons, List.sum_cons]
    have h3 := h2 a (by simp)
    have h4 := ih (fun b hb => h2 b (by simp [hb]))
    omega

/-- One whole-quadtree run-merge pass preserves the dimensions and the
layer invariants; its count is exactly the number of live tiles removed
across all layers, and a zero-count pass leaves the quadtree unchanged. -/
theorem line_optimize_QT (q : QuadTree) (ts : Nat) (hwf : WFQT q) :
    WFQT (q.line_optimize ts).1
    ∧ (PartQT q → PartQT (q.line_optimize ts).1)
    ∧ (SBQT q ts → SBQT (q.line_optimize ts).1 ts)
    ∧ liveCountQT (q.line_optimize ts).1 + (q.line_optimize ts).2
        = liveCountQT q
    ∧ ((q.line_optimize ts).2 = 0 → (q.line_optimize ts).1 = q) := by
  have hs := line_optimize_spec q ts
  have hmain := @line_optimize_tiles_preserves q.width q.height ts
    q.tiles hwf.1
  have hlayer : ∀ L ∈ q.height_layers,
      WF (line_optimize_tiles L q.width q.height ts).1 q.width q.height
      ∧ (∀ cx cy, coverCount (line_optimize_tiles L q.width q.height ts).1
          cx cy = coverCount L cx cy)
      ∧ (SizeBound L ts →
          SizeBound (line_optimize_tiles L q.width q.height ts).1 ts)
      ∧ liveCount (line_optimize_tiles L q.width q.height ts).1
          + (line_optimize_tiles L q.width q.height ts).2 = liveCount L
      ∧ ((line_optimize_tiles L q.width q.height ts).2 = 0
          → (line_optimize_tiles L q.width q.height ts).1 = L) :=
    fun L hL => line_optimize_tiles_preserves L (hwf.2 L hL)
  refine ⟨⟨?_, ?_⟩, ?_, ?_, ?_, ?_⟩
  · rw [hs.2.2.1, hs.1, hs.2.1]
    exact hmain.1
  · intro L hL
    rw [hs.2.2.2.1] at hL
    rcases List.mem_map.mp hL with ⟨L0, hL0, hLe⟩
    rw [← hLe, hs.1, hs.2.1]
    exact (hlayer L0 hL0).1
  · intro hpart
    refine ⟨?_, ?_⟩
    · rw [hs.2.2.1, hs.1, hs.2.1]
      intro cx cy hcx hcy
      rw [hmain.2.1 cx cy]
      exact hpart.1 cx cy hcx hcy
    · intro L hL
      rw [hs.2.2.2.1] at hL
      rcases List.mem_map.mp hL with ⟨L0, hL0, hLe⟩
      rw [← hLe, hs.1, hs.2.1]
      intro cx cy hcx hcy
      rw [(hlayer L0 hL0).2.1 cx cy]
      exact hpart.2 L0 hL0 cx cy hcx hcy
  · intro hsb
    refine ⟨?_, ?_⟩
    · rw [hs.2.2.1]
      exact hmain.2.2.1 hsb.1
    · intro L hL
      rw [hs.2.2.2.1] at hL
      rcases List.mem_map.mp hL with ⟨L0, hL0, hLe⟩
      rw [← hLe]
      exact (hlayer L0 hL0).2.2.1 (hsb.2 L0 hL0)
  · show liveCount ((q.line_optimize ts).1).tiles
        + (((q.line_optimize ts).1).height_layers.map liveCount).sum
        + (q.line_optimize ts).2
      = liveCount q.tiles + (q.height_layers.map liveCount).sum
    rw [hs.2.2.1, hs.2.2.2.1, hs.2.2.2.2, List.map_map]
    have hsum := sum_map_eq_of_add
      (fun L => liveCount (line_optimize_tiles L q.width q.height ts).1)
      liveCount
      (fun L => (line_optimize_tiles L q.width q.height ts).2)
      q.height_layers
      (fun L hL => (hlayer L hL).2.2.2.1)
    have hcomp : q.height_layers.map
        (liveCount ∘ fun L => (line_optimize_tiles L q.width q.height ts).1)
        = q.height_layers.map
          (fun L => liveCount (line_optimize_tiles L q.width q.height ts).1)
      := rfl
    rw [hcomp]
    have h2 := hmain.2.2.2.1
    omega
  · intro h0
    rw [hs.2.2.2.2] at h0
    have hm0 : (line_optimize_tiles q.tiles q.width q.height ts).2 = 0 := by
      omega
    have hl0 : ∀ L ∈ q.height_layers,
        (line_optimize_tiles L q.width q.height ts).2 = 0 := by
      intro L hL
      by_contra hne
      have hmem : (line_optimize_tiles L q.width q.height ts).2
          ∈ q.height_layers.map (fun L =>
            (line_optimize_tiles L q.width q.height ts).2) :=
        List.mem_map_of_mem _ hL
      have hle := List.single_le_sum
        (fun (a : Nat) _ => Nat.zero_le a) _ hmem
      omega
    have hA : (line_optimize_tiles q.tiles q.width q.height ts).1
        = q.tiles := hmain.2.2.2.2 hm0
    have hB : ((q.height_layers.foldl
        (fun (acc : List (List Tile) × Nat) layer =>
          (acc.1 ++ [(line_optimize_tiles layer q.width q.height ts).1],
            acc.2 + (line_optimize_tiles layer q.width q.height ts).2))
        ([], 0)).1) = q.height_layers := by
      rw [(layerFold_spec
        (fun L => line_optimize_tiles L q.width q.height ts)
        q.height_layers [] 0).1]
      rw [List.nil_append]
      have hmapeq : q.height_layers.map
          (fun l => (line_optimize_tiles l q.width q.height ts).1)
          = q.height_layers.map (fun l => l) :=
        List.map_congr_left (fun L hL => (hlayer L hL).2.2.2.2 (hl0 L hL))
      rw [hmapeq, List.map_id']
    show ({ q with
        tiles := (line_optimize_tiles q.tiles q.width q.height ts).1,
        height_layers := (q.height_layers.foldl
          (fun (acc : List (List Tile) × Nat) layer =>
            (acc.1 ++ [(line_optimize_tiles layer q.width q.height ts).1],
              acc.2 + (line_optimize_tiles layer q.width q.height ts).2))
          ([], 0)).1 } : QuadTree) = q
    rw [hA, hB]

/-- One whole-quadtree quad pass preserves the dimensions and the layer
invariants (squareness of every extent included), and keeps the size bound
whenever the doubled space still fits the 500-unit limit. -/
theorem quad_optimize_level_QT (q : QuadTree) (level : Nat)
    (hwf : WFQT q) (hsq : SquareQT q) :
    WFQT (q.quad_optimize_level level).1
    ∧ SquareQT (q.quad_optimize_level level).1
    ∧ (PartQT q → PartQT (q.quad_optimize_level level).1)
    ∧ (∀ unit, SBQT q unit → 2 ^ level * 2 * unit ≤ 500 →
        SBQT (q.quad_optimize_level level).1 unit) := by
  have hs := quad_optimize_level_spec q level
  have hsp : 1 ≤ 2 ^ level := Nat.one_le_pow level 2 (by omega)
  have hmain := @quad_optimize_tiles_preserves q.width q.height (2 ^ level)
    (2 ^ level * 2) q.tiles hsp hwf.1 hsq.1
  have hlayer := fun L hL => @quad_optimize_tiles_preserves q.width q.height
    (2 ^ level) (2 ^ level * 2) L hsp (hwf.2 L hL) (hsq.2 L hL)
  refine ⟨⟨?_, ?_⟩, ⟨?_, ?_⟩, ?_, ?_⟩
  · rw [hs.2.2.1, hs.1, hs.2.1]
    exact hmain.1
  · intro L hL
    rw [hs.2.2.2.1] at hL
    rcases List.mem_map.mp hL with ⟨L0, hL0, hLe⟩
    rw [← hLe, hs.1, hs.2.1]
    exact (hlayer L0 hL0).1
  · rw [hs.2.2.1]
    exact hmain.2.1
  · intro L hL
    rw [hs.2.2.2.1] at hL
    rcases List.mem_map.mp hL with ⟨L0, hL0, hLe⟩
    rw [← hLe]
    exact (hlayer L0 hL0).2.1
  · intro hp
    refine ⟨?_, ?_⟩
    · rw [hs.2.2.1, hs.1, hs.2.1]
      exact hmain.2.2.1 hp.1
    · intro L hL
      rw [hs.2.2.2.1] at hL
      rcases List.mem_map.mp hL with ⟨L0, hL0, hLe⟩
      rw [← hLe, hs.1, hs.2.1]
      exact (hlayer L0 hL0).2.2.1 (hp.2 L0 hL0)
  · intro unit hsb hb
    refine ⟨?_, ?_⟩
    · rw [hs.2.2.1]
      exact hmain.2.2.2 unit hsb.1 hb
    · intro L hL
      rw [hs.2.2.2.1] at hL
      rcases List.mem_map.mp hL with ⟨L0, hL0, hLe⟩
      rw [← hLe]
      exact (hlayer L0 hL0).2.2.2 unit (hsb.2 L0 hL0) hb

/-- The four layer invariants of any grid built cell by cell. -/
theorem grid_invariants {w hgt : Nat} (mk : Nat → Nat → Tile)
    (hmk : CellMk mk) :
    WF (gridOf w hgt mk) w hgt ∧ Partition (gridOf w hgt mk) w hgt
    ∧ SquareT (gridOf w hgt mk)
    ∧ ∀ unit, unit ≤ 500 → SizeBound (gridOf w hgt mk) unit :=
  ⟨WF_gridOf hmk, Partition_gridOf hmk, SquareT_gridOf hmk,
    fun _ hu => SizeBound_gridOf hmk hu⟩

/-- Every successful QuadTree::new result carries the sampler dimensions
and satisfies all layer invariants; with layering disabled there are no
height layers. -/
theorem QT_invs_of_grids (q : QuadTree)
    (hmt : ∃ mk, CellMk mk ∧ q.tiles = gridOf q.width q.height mk)
    (hml : ∀ L ∈ q.height_layers,
      ∃ mk, CellMk mk ∧ L = gridOf q.width q.height mk) :
    WFQT q ∧ PartQT q ∧ SquareQT q
    ∧ ∀ unit, unit ≤ 500 → SBQT q unit := by
  obtain ⟨mk, hmk, ht⟩ := hmt
  refine ⟨⟨?_, ?_⟩, ⟨?_, ?_⟩, ⟨?_, ?_⟩, ?_⟩
  · rw [ht]
    exact WF_gridOf hmk
  · intro L hL
    obtain ⟨mk2, hmk2, hL2⟩ := hml L hL
    rw [hL2]
    exact WF_gridOf hmk2
  · rw [ht]
    exact Partition_gridOf hmk
  · intro L hL
    obtain ⟨mk2, hmk2, hL2⟩ := hml L hL
    rw [hL2]
    exact Partition_gridOf hmk2
  · rw [ht]
    exact SquareT_gridOf hmk
  · intro L hL
    obtain ⟨mk2, hmk2, hL2⟩ := hml L hL
    rw [hL2]
    exact SquareT_gridOf hmk2
  · intro unit hu
    refine ⟨?_, ?_⟩
    · rw [ht]
      exact SizeBound_gridOf hmk hu
    · intro L hL
      obtain ⟨mk2, hmk2, hL2⟩ := hml L hL
      rw [hL2]
      exact SizeBound_gridOf hmk2 hu

/-- Every successful QuadTree::new result carries the sampler dimensions
and satisfies all layer invariants; with layering disabled there are no
height layers. -/
theorem new_invariants (hm : HeightmapM) (cm : ColormapM) (thr : Nat)
    (q : QuadTree) (hok : QuadTree.new hm cm thr = .ok q) :
    q.width = hm.size.1 ∧ q.height = hm.size.2
    ∧ WFQT q ∧ PartQT q ∧ SquareQT q
    ∧ (∀ unit, unit ≤ 500 → SBQT q unit)
    ∧ (thr = 0 → q.height_layers = []) := by
  unfold QuadTree.new at hok
  split at hok
  · exact Except.noConfusion hok
  · dsimp only [] at hok
    repeat' split at hok
    all_goals first
      | (rename_i hcond2
         injection hok with hq
         subst hq
         refine ⟨rfl, rfl,
           (QT_invs_of_grids _ ⟨_, fun x y => ⟨rfl, rfl, rfl⟩, rfl⟩
             (fun L hL => by
               rcases List.mem_map.mp hL with ⟨lh, _, hLe⟩
               exact ⟨_, fun x y => ⟨rfl, rfl, rfl⟩, hLe.symm⟩)).1,
           (QT_invs_of_grids _ ⟨_, fun x y => ⟨rfl, rfl, rfl⟩, rfl⟩
             (fun L hL => by
               rcases List.mem_map.mp hL with ⟨lh, _, hLe⟩
               exact ⟨_, fun x y => ⟨rfl, rfl, rfl⟩, hLe.symm⟩)).2.1,
           (QT_invs_of_grids _ ⟨_, fun x y => ⟨rfl, rfl, rfl⟩, rfl⟩
             (fun L hL => by
               rcases List.mem_map.mp hL with ⟨lh, _, hLe⟩
               exact ⟨_, fun x y => ⟨rfl, rfl, rfl⟩, hLe.symm⟩)).2.2.1,
           (QT_invs_of_grids _ ⟨_, fun x y => ⟨rfl, rfl, rfl⟩, rfl⟩
             (fun L hL => by
               rcases List.mem_map.mp hL with ⟨lh, _, hLe⟩
               exact ⟨_, fun x y => ⟨rfl, rfl, rfl⟩, hLe.symm⟩)).2.2.2,
           ?_⟩
         intro h0
         subst h0
         simp at hcond2
         done)
      | (injection hok with hq
         subst hq
         exact ⟨rfl, rfl,
           (QT_invs_of_grids _ ⟨_, fun x y => ⟨rfl, rfl, rfl⟩, rfl⟩
             (fun L hL => absurd hL (List.not_mem_nil L))).1,
           (QT_invs_of_grids _ ⟨_, fun x y => ⟨rfl, rfl, rfl⟩, rfl⟩
             (fun L hL => absurd hL (List.not_mem_nil L))).2.1,
           (QT_invs_of_grids _ ⟨_, fun x y => ⟨rfl, rfl, rfl⟩, rfl⟩
             (fun L hL => absurd hL (List.not_mem_nil L))).2.2.1,
           (QT_invs_of_grids _ ⟨_, fun x y => ⟨rfl, rfl, rfl⟩, rfl⟩
             (fun L hL => absurd hL (List.not_mem_nil L))).2.2.2,
           fun _ => rfl⟩
         done)

/-- One-step unfolding of the quadtree-escalation loop. -/
theorem genQuadLoop_succ (progress : ℚ → Bool) (size n scale : Nat)
    (q : QuadTree) :
    genQuadLoop progress size (n + 1) scale q
      = if 2 ^ (scale + 1) * size < 500 then
          if !(progress (qProgVal scale size)) then .error "Stopped by user"
          else
            if (q.quad_optimize_level scale).2 == 0 then
              .ok (q.quad_optimize_level scale).1
            else genQuadLoop progress size n (scale + 1)
              (q.quad_optimize_level scale).1
        else .ok q := rfl

/-- One-step unfolding of the run-merge loop. -/
theorem genLineLoop_succ (progress : ℚ → Bool) (offs : ℚ × ℚ)
    (size n i : Nat) (q : QuadTree) :
    genLineLoop progress offs size (n + 1) i q
      = if !(progress (offs.1 + offs.2 * min ((i : ℚ) / 5) 1)) then
          .error "Stopped by user"
        else if (q.line_optimize size).2 == 0 then .ok (q.line_optimize size).1
        else genLineLoop progress offs size n (i + 1)
          (q.line_optimize size).1 := rfl

/-- Whatever the quadtree-escalation loop returns satisfies the layer
invariants, given them at entry; the guard that admits a pass also
guarantees the size bound it needs. -/
theorem genQuadLoop_inv (progress : ℚ → Bool) (size : Nat) :
    ∀ (fuel scale : Nat) (q0 q' : QuadTree),
      genQuadLoop progress size fuel scale q0 = .ok q' →
      WFQT q0 → SquareQT q0 → SBQT q0 size →
      WFQT q' ∧ SquareQT q' ∧ SBQT q' size ∧ (PartQT q0 → PartQT q') := by
  intro fuel
  induction fuel with
  | zero =>
    intro scale q0 q' hok hwf hsq hsb
    injection hok with hq
    subst hq
    exact ⟨hwf, hsq, hsb, fun hp => hp⟩
  | succ n ih =>
    intro scale q0 q' hok hwf hsq hsb
    rw [genQuadLoop_succ] at hok
    by_cases hg : 2 ^ (scale + 1) * size < 500
    · rw [if_pos hg] at hok
      by_cases hc : (!(progress (qProgVal scale size))) = true
      · rw [if_pos hc] at hok
        exact Except.noConfusion hok
      · rw [if_neg hc] at hok
        have hb : 2 ^ scale * 2 * size ≤ 500 := by
          rw [pow_succ] at hg
          omega
        have hQ := quad_optimize_level_QT q0 scale hwf hsq
        by_cases hz : ((q0.quad_optimize_level scale).2 == 0) = true
        · rw [if_pos hz] at hok
          injection hok with hq
          subst hq
          exact ⟨hQ.1, hQ.2.1, hQ.2.2.2 size hsb hb, hQ.2.2.1⟩
        · rw [if_neg hz] at hok
          have hrec := ih (scale + 1) (q0.quad_optimize_level scale).1 q' hok
            hQ.1 hQ.2.1 (hQ.2.2.2 size hsb hb)
          exact ⟨hrec.1, hrec.2.1, hrec.2.2.1,
            fun hp => hrec.2.2.2 (hQ.2.2.1 hp)⟩
    · rw [if_neg hg] at hok
      injection hok with hq
      subst hq
      exact ⟨hwf, hsq, hsb, fun hp => hp⟩

/-- Whatever the run-merge loop returns satisfies the layer invariants,
given them at entry. -/
theorem genLineLoop_inv (progress : ℚ → Bool) (offs : ℚ × ℚ) (size : Nat) :
    ∀ (fuel i : Nat) (q0 q' : QuadTree),
      genLineLoop progress offs size fuel i q0 = .ok q' →
      WFQT q0 → SBQT q0 size →
      WFQT q' ∧ SBQT q' size ∧ (PartQT q0 → PartQT q') := by
  intro fuel
  induction fuel with
  | zero =>
    intro i q0 q' hok hwf hsb
    injection hok with hq
    subst hq
    exact ⟨hwf, hsb, fun hp => hp⟩
  | succ n ih =>
    intro i q0 q' hok hwf hsb
    rw [genLineLoop_succ] at hok
    by_cases hc : (!(progress (offs.1 + offs.2 * min ((i : ℚ) / 5) 1)))
        = true
    · rw [if_pos hc] at hok
      exact Except.noConfusion hok
    · rw [if_neg hc] at hok
      have hQ := line_optimize_QT q0 size hwf
      by_cases hz : ((q0.line_optimize size).2 == 0) = true
      · rw [if_pos hz] at hok
        injection hok with hq
        subst hq
        exact ⟨hQ.1, hQ.2.2.1 hsb, hQ.2.1⟩
      · rw [if_neg hz] at hok
        have hrec := ih (i + 1) (q0.line_optimize size).1 q' hok
          hQ.1 (hQ.2.2.1 hsb)
        exact ⟨hrec.1, hrec.2.1, fun hp => hrec.2.2 (hQ.2.1 hp)⟩

/-- One-step unfolding of the run-merge loop under a callback that never
cancels. -/
theorem genLineLoop_succ_true (offs : ℚ × ℚ) (size n i : Nat)
    (q : QuadTree) :
    genLineLoop (fun _ => true) offs size (n + 1) i q
      = if (q.line_optimize size).2 == 0 then .ok (q.line_optimize size).1
        else genLineLoop (fun _ => true) offs size n (i + 1)
          (q.line_optimize size).1 := by
  rw [genLineLoop_succ]
  rw [if_neg (by simp)]

/-- With a callback that never cancels, the run-merge loop terminates with
success on any fuel beyond the live tile count, and the state it returns is
a zero-merge fixpoint: the loop exits only on a zero-merge pass. -/
theorem genLineLoop_term (offs : ℚ × ℚ) (size : Nat) :
    ∀ (fuel : Nat) (q : QuadTree) (i : Nat), WFQT q →
      liveCountQT q + 1 ≤ fuel →
      ∃ q', genLineLoop (fun _ => true) offs size fuel i q = .ok q'
        ∧ (q'.line_optimize size).2 = 0 ∧ WFQT q' := by
  intro fuel
  induction fuel with
  | zero =>
    intro q i hwf hle
    omega
  | succ n ih =>
    intro q i hwf hle
    rw [genLineLoop_succ_true]
    have hQ := line_optimize_QT q size hwf
    by_cases hz : ((q.line_optimize size).2 == 0) = true
    · rw [if_pos hz]
      have hz0 : (q.line_optimize size).2 = 0 := by
        simpa using hz
      have hfix : (q.line_optimize size).1 = q := hQ.2.2.2.2 hz0
      refine ⟨(q.line_optimize size).1, rfl, ?_, hQ.1⟩
      rw [hfix]
      exact hz0
    · rw [if_neg hz]
      have hz' : (q.line_optimize size).2 ≠ 0 := by
        intro h0
        rw [h0] at hz
        simp at hz
      have hlive := hQ.2.2.2.1
      exact ih (q.line_optimize size).1 (i + 1) hQ.1 (by omega)

/-- With a callback that never cancels, any two fuels beyond the live tile
count make the run-merge loop return the same result: the fuel is an
artifact of the embedding, not a bound the loop can hit. -/
theorem genLineLoop_fuel_irrel (offs : ℚ × ℚ) (size : Nat) :
    ∀ (f1 : Nat) (q : QuadTree) (i : Nat) (f2 : Nat), WFQT q →
      liveCountQT q + 1 ≤ f1 → liveCountQT q + 1 ≤ f2 →
      genLineLoop (fun _ => true) offs size f1 i q
        = genLineLoop (fun _ => true) offs size f2 i q := by
  intro f1
  induction f1 with
  | zero =>
    intro q i f2 hwf h1 h2
    omega
  | succ n ih =>
    intro q i f2 hwf h1 h2
    cases f2 with
    | zero => omega
    | succ m =>
      rw [genLineLoop_succ_true, genLineLoop_succ_true]
      by_cases hz : ((q.line_optimize size).2 == 0) = true
      · rw [if_pos hz, if_pos hz]
      · rw [if_neg hz, if_neg hz]
        have hQ := line_optimize_QT q size hwf
        have hz' : (q.line_optimize size).2 ≠ 0 := by
          intro h0
          rw [h0] at hz
          simp at hz
        have hlive := hQ.2.2.2.1
        exact ih (q.line_optimize size).1 (i + 1) m hQ.1 (by omega) (by omega)

/-- With a callback that never cancels, the iteration counter does not
influence the run-merge loop's result: it feeds only the progress report. -/
theorem genLineLoop_i_irrel (offs : ℚ × ℚ) (size : Nat) :
    ∀ (fuel : Nat) (q : QuadTree) (i j : Nat),
      genLineLoop (fun _ => true) offs size fuel i q
        = genLineLoop (fun _ => true) offs size fuel j q := by
  intro fuel
  induction fuel with
  | zero =>
    intro q i j
    rfl
  | succ n ih =>
    intro q i j
    rw [genLineLoop_succ_true, genLineLoop_succ_true]
    by_cases hz : ((q.line_optimize size).2 == 0) = true
    · rw [if_pos hz, if_pos hz]
    · rw [if_neg hz, if_neg hz]
      exact ih (q.line_optimize size).1 (i + 1) (j + 1)

/-- The getD-indexed size bound, read at a member. -/
theorem sizeBound_mem {tiles : List Tile} {unit : Nat}
    (hsb : SizeBound tiles unit) : ∀ t ∈ tiles,
      t.size.1 * unit ≤ 500 ∧ t.size.2 * unit ≤ 500 := by
  intro t ht
  rcases List.mem_iff_getElem.mp ht with ⟨i, hi, hti⟩
  have h2 := hsb i hi
  have h3 : tiles.getD i default = t := by
    rw [List.getD_eq_getElem?_getD, List.getElem?_eq_getElem hi, hti]
    rfl
  rw [h3] at h2
  exact h2

/-- Every brick the stacking loop emits: its footprint is the tile extent
scaled by the unit size; with a zero position adjustment (any un-layered
emission) and outside the flat-micro special case, its thickness obeys the
253-stud / 250 bound and is exactly the clamp of the remaining desired
thickness plus the clamp's remainder modulo the minimum unit, for some
positive remaining desired thickness.  (With a nonzero adjustment the u32
subtraction can wrap, so no bound is stated.) -/
theorem emitLoop_bricks (o : GenOptions) (t : Tile) (pos_adjust : Nat) :
    ∀ (fuel : Nat) (z desired : Int) (b : Brick),
      b ∈ emitLoop o t pos_adjust fuel z desired →
      b.size.1 = t.size.1 * o.size
      ∧ b.size.2.1 = t.size.2 * o.size
      ∧ (pos_adjust = 0 → ¬(o.img = true ∧ o.micro = true) →
          b.size.2.2 ≤ (if o.stud = true then 253 else 250))
      ∧ ((o.img = true ∧ o.micro = true) → b.size.2.2 = o.size)
      ∧ (pos_adjust = 0 → ¬(o.img = true ∧ o.micro = true) →
          ∃ d : Int, 0 < d ∧
            b.size.2.2
              = (min (max d (if o.stud = true then (5 : Int) else 2))
                  250).toNat
                + (min (max d (if o.stud = true then (5 : Int) else 2))
                    250).toNat % (if o.stud = true then 5 else 2)) := by
  intro fuel
  induction fuel with
  | zero =>
    intro z desired b hb
    exact absurd hb (List.not_mem_nil b)
  | succ n ih =>
    intro z desired b hb
    simp only [emitLoop] at hb
    by_cases hd : desired > 0
    · rw [if_pos hd] at hb
      rcases List.mem_cons.mp hb with hb | hb
      · subst hb
        by_cases him : (o.img && o.micro) = true
        · have him2 : o.img = true ∧ o.micro = true := by
            simpa [Bool.and_eq_true] using him
          refine ⟨rfl, rfl, fun _ hno => absurd him2 hno, fun _ => ?_,
            fun _ hno => absurd him2 hno⟩
          show (if (o.img && o.micro) = true then o.size else _) = o.size
          rw [if_pos him]
        · refine ⟨rfl, rfl, ?_, ?_, ?_⟩
          · intro hpa _
            show (if (o.img && o.micro) = true then o.size else
                (((min (max desired ((if o.stud then (5 : Nat) else 2)
                    : Nat)) 250).toNat
                  + (min (max desired ((if o.stud then (5 : Nat) else 2)
                    : Nat)) 250).toNat % (if o.stud then 5 else 2))
                  + 4294967296 - pos_adjust) % 4294967296)
              ≤ (if o.stud = true then 253 else 250)
            rw [if_neg him, hpa, Nat.sub_zero, Nat.add_mod_right]
            by_cases hst : o.stud = true
            · have hmuN : (if o.stud then (5 : Nat) else 2) = 5 := by
                rw [if_pos hst]
              rw [hmuN, if_pos hst]
              simp only [Nat.cast_ofNat]
              rw [Nat.mod_eq_of_lt (by omega)]
              omega
            · have hmuN : (if o.stud then (5 : Nat) else 2) = 2 := by
                rw [if_neg hst]
              rw [hmuN, if_neg hst]
              simp only [Nat.cast_ofNat]
              rw [Nat.mod_eq_of_lt (by omega)]
              omega
          · intro him2
            exact absurd him2 (by simpa [Bool.and_eq_true] using him)
          · intro hpa _
            refine ⟨desired, hd, ?_⟩
            show (if (o.img && o.micro) = true then o.size else
                (((min (max desired ((if o.stud then (5 : Nat) else 2)
                    : Nat)) 250).toNat
                  + (min (max desired ((if o.stud then (5 : Nat) else 2)
                    : Nat)) 250).toNat % (if o.stud then 5 else 2))
                  + 4294967296 - pos_adjust) % 4294967296)
              = _
            rw [if_neg him, hpa, Nat.sub_zero, Nat.add_mod_right]
            by_cases hst : o.stud = true
            · have hmuN : (if o.stud then (5 : Nat) else 2) = 5 := by
                rw [if_pos hst]
              have hmuI : (if o.stud = true then (5 : Int) else 2) = 5 := by
                rw [if_pos hst]
              rw [hmuN, hmuI]
              simp only [Nat.cast_ofNat]
              rw [Nat.mod_eq_of_lt (by omega)]
            · have hmuN : (if o.stud then (5 : Nat) else 2) = 2 := by
                rw [if_neg hst]
              have hmuI : (if o.stud = true then (5 : Int) else 2) = 2 := by
                rw [if_neg hst]
              rw [hmuN, hmuI]
              simp only [Nat.cast_ofNat]
              rw [Nat.mod_eq_of_lt (by omega)]
      · exact ih _ _ b hb
    · rw [if_neg hd] at hb
      exact absurd hb (List.not_mem_nil b)

/-- Every brick tiles_to_bricks emits with a zero height adjustment (the
un-layered emission path) obeys the footprint and thickness bounds. -/
theorem tiles_to_bricks_bound (tiles : List Tile) (o : GenOptions)
    (hsb : ∀ t ∈ tiles, t.size.1 * o.size ≤ 500 ∧ t.size.2 * o.size ≤ 500)
    (hnm : ¬(o.img = true ∧ o.micro = true)) :
    ∀ b ∈ tiles_to_bricks tiles o 0,
      b.size.1 ≤ 500 ∧ b.size.2.1 ≤ 500
      ∧ b.size.2.2 ≤ (if o.stud = true then 253 else 250) := by
  intro b hb
  unfold tiles_to_bricks at hb
  rcases List.mem_flatMap.mp hb with ⟨t, ht, hbt⟩
  by_cases hskip : (t.parent.isSome || (o.cull && t.color.a == 0)) = true
  · rw [if_pos hskip] at hbt
    exact absurd hbt (List.not_mem_nil b)
  · rw [if_neg hskip] at hbt
    have he := emitLoop_bricks o t _ _ _ _ b hbt
    have hs := hsb t ht
    refine ⟨?_, ?_, he.2.2.1 rfl hnm⟩
    · rw [he.1]
      exact hs.1
    · rw [he.2.1]
      exact hs.2

/-- The second component of an enumerated entry is a member of the list. -/
theorem snd_mem_of_mem_enum {α : Type} {l : List α} {p : Nat × α}
    (hp : p ∈ l.enum) : p.2 ∈ l := by
  have h2 := List.mem_enumFrom hp
  rw [h2.2.2]
  exact List.getElem_mem _

/-- Every brick of a whole-quadtree emission obeys the footprint and
thickness bounds, given the 500-unit size bound on every layer. -/
theorem into_bricks_bound (q : QuadTree) (o : GenOptions)
    (hsb : SBQT q o.size)
    (hnm : ¬(o.img = true ∧ o.micro = true))
    (hnl : q.height_layers = []) :
    ∀ b ∈ q.into_bricks o,
      b.size.1 ≤ 500 ∧ b.size.2.1 ≤ 500
      ∧ b.size.2.2 ≤ (if o.stud = true then 253 else 250) := by
  intro b hb
  unfold QuadTree.into_bricks at hb
  rw [hnl] at hb
  rcases List.mem_append.mp hb with hb | hb
  · exact tiles_to_bricks_bound q.tiles o (sizeBound_mem hsb.1) hnm b hb
  · simp at hb

/-- One whole-quadtree quad pass keeps an empty layer list empty. -/
theorem quad_optimize_level_layers_nil (q : QuadTree) (level : Nat)
    (h0 : q.height_layers = []) :
    ((q.quad_optimize_level level).1).height_layers = [] := by
  rw [(quad_optimize_level_spec q level).2.2.2.1, h0]
  rfl

/-- One whole-quadtree run-merge pass keeps an empty layer list empty. -/
theorem line_optimize_layers_nil (q : QuadTree) (ts : Nat)
    (h0 : q.height_layers = []) :
    ((q.line_optimize ts).1).height_layers = [] := by
  rw [(line_optimize_spec q ts).2.2.2.1, h0]
  rfl

/-- The quadtree-escalation loop keeps an empty layer list empty. -/
theorem genQuadLoop_layers_nil (progress : ℚ → Bool) (size : Nat) :
    ∀ (fuel scale : Nat) (q0 q' : QuadTree),
      genQuadLoop progress size fuel scale q0 = .ok q' →
      q0.height_layers = [] → q'.height_layers = [] := by
  intro fuel
  induction fuel with
  | zero =>
    intro scale q0 q' hok h0
    injection hok with hq
    subst hq
    exact h0
  | succ n ih =>
    intro scale q0 q' hok h0
    rw [genQuadLoop_succ] at hok
    by_cases hg : 2 ^ (scale + 1) * size < 500
    · rw [if_pos hg] at hok
      by_cases hc : (!(progress (qProgVal scale size))) = true
      · rw [if_pos hc] at hok
        exact Except.noConfusion hok
      · rw [if_neg hc] at hok
        by_cases hz : ((q0.quad_optimize_level scale).2 == 0) = true
        · rw [if_pos hz] at hok
          injection hok with hq
          subst hq
          exact quad_optimize_level_layers_nil q0 scale h0
        · rw [if_neg hz] at hok
          exact ih (scale + 1) _ q' hok
            (quad_optimize_level_layers_nil q0 scale h0)
    · rw [if_neg hg] at hok
      injection hok with hq
      subst hq
      exact h0

/-- The run-merge loop keeps an empty layer list empty. -/
theorem genLineLoop_layers_nil (progress : ℚ → Bool) (offs : ℚ × ℚ)
    (size : Nat) :
    ∀ (fuel i : Nat) (q0 q' : QuadTree),
      genLineLoop progress offs size fuel i q0 = .ok q' →
      q0.height_layers = [] → q'.height_layers = [] := by
  intro fuel
  induction fuel with
  | zero =>
    intro i q0 q' hok h0
    injection hok with hq
    subst hq
    exact h0
  | succ n ih =>
    intro i q0 q' hok h0
    rw [genLineLoop_succ] at hok
    by_cases hc : (!(progress (offs.1 + offs.2 * min ((i : ℚ) / 5) 1)))
        = true
    · rw [if_pos hc] at hok
      exact Except.noConfusion hok
    · rw [if_neg hc] at hok
      by_cases hz : ((q0.line_optimize size).2 == 0) = true
      · rw [if_pos hz] at hok
        injection hok with hq
        subst hq
        exact line_optimize_layers_nil q0 size h0
      · rw [if_neg hz] at hok
        exact ih (i + 1) _ q' hok (line_optimize_layers_nil q0 size h0)

/-- A successful generation run decomposes into the pipeline: a successful
QuadTree::new, optionally the quadtree-escalation loop, the run-merge loop,
and the final emission. -/
theorem gen_decomp (hm : HeightmapM) (cm : ColormapM) (o : GenOptions)
    (progress : ℚ → Bool) (bricks : List Brick)
    (hok : gen_opt_heightmap hm cm o progress = .ok bricks) :
    ∃ q0 q1 q2,
      QuadTree.new hm cm o.gen_full_layers_above_height = .ok q0
      ∧ ((o.quadtree = true
            ∧ genQuadLoop progress o.size (hm.size.1 + 12) 0 q0 = .ok q1)
         ∨ (¬(o.quadtree = true) ∧ q1 = q0))
      ∧ (∃ offs i, genLineLoop progress offs o.size (liveCountQT q1 + 2) i q1
          = .ok q2)
      ∧ bricks = q2.into_bricks o := by
  unfold gen_opt_heightmap at hok
  repeat' first
    | split at hok
    | dsimp only [] at hok
  all_goals first
    | exact Except.noConfusion hok
    | (injection hok with hb2
       subst hb2
       refine ⟨_, _, _, by assumption,
         Or.inl ⟨by assumption, by assumption⟩,
         ⟨_, _, by assumption⟩, rfl⟩
       done)
    | (injection hok with hb2
       subst hb2
       refine ⟨_, _, _, by assumption,
         Or.inr ⟨by assumption, rfl⟩,
         ⟨_, _, by assumption⟩, rfl⟩
       done)

/-- Claim C1 (amended): after the initial grid is built, and after any
sequence of quad passes followed by any sequence of run-merge passes — the
order the generator runs them in — the live tiles of every layer exactly
partition the width x height grid domain.  Freely interleaving the two
pass kinds does not preserve the invariant (see the counterexample): a run
merge creates non-square live tiles that a later quad pass, whose guard
checks only the width, can merge into overlapping regions. -/
theorem c1_amended (hm : HeightmapM) (cm : ColormapM) (thr : Nat)
    (q : QuadTree) (hok : QuadTree.new hm cm thr = .ok q)
    (qs ls : List Nat) :
    PartQT (applyQTLines ls (applyQTQuads qs q)) := by
  have hinv := new_invariants hm cm thr q hok
  have hq : WFQT (applyQTQuads qs q) ∧ SquareQT (applyQTQuads qs q)
      ∧ PartQT (applyQTQuads qs q) := by
    unfold applyQTQuads
    refine foldl_inv (fun st => WFQT st ∧ SquareQT st ∧ PartQT st)
      ⟨hinv.2.2.1, hinv.2.2.2.2.1, hinv.2.2.2.1⟩ ?_
    intro st l _ hP
    have h2 := quad_optimize_level_QT st l hP.1 hP.2.1
    exact ⟨h2.1, h2.2.1, h2.2.2.1 hP.2.2⟩
  unfold applyQTLines
  refine (foldl_inv (fun st => WFQT st ∧ PartQT st)
    ⟨hq.1, hq.2.2⟩ ?_).2
  intro st s _ hP
  have h2 := line_optimize_QT st s hP.1
  exact ⟨h2.1, h2.2.1 hP.2⟩

theorem c1_amended_witness :
    PartQT (applyQTLines [200] (applyQTQuads [0] qW)) :=
  c1_amended hmW cmW 0 qW rfl [0] [200]

/-- Claim C6: a run-merge pass that returns zero merges is a fixpoint:
running line_optimize again on the grid it returns, with the same tile
scale, again yields zero merges and leaves every tile of every layer
unchanged. -/
theorem c6_line_fixpoint (q : QuadTree) (ts : Nat) (hwf : WFQT q)
    (h0 : (q.line_optimize ts).2 = 0) :
    ((q.line_optimize ts).1.line_optimize ts).2 = 0
    ∧ ((q.line_optimize ts).1.line_optimize ts).1
        = (q.line_optimize ts).1 := by
  have hfix := (line_optimize_QT q ts hwf).2.2.2.2 h0
  rw [hfix]
  exact ⟨h0, hfix⟩

theorem c6_line_fixpoint_witness :
    ((qW.line_optimize 5).1.line_optimize 5).2 = 0
    ∧ ((qW.line_optimize 5).1.line_optimize 5).1 = (qW.line_optimize 5).1 :=
  c6_line_fixpoint qW 5 (new_invariants hmW cmW 0 qW rfl).2.2.1 (by decide)

/-- Claim C7: with a callback that never cancels, the run-merge loop of
gen_opt_heightmap terminates successfully with the fuel the generator
passes (two beyond the live tile count), the state it returns is a
zero-merge fixpoint — the loop exits only on a zero-merge pass — and
neither extra fuel nor the iteration counter, which feeds only the
capped-at-5 progress fraction, changes the result. -/
theorem c7_line_loop_terminates (offs : ℚ × ℚ) (size : Nat) (q : QuadTree)
    (hwf : WFQT q) (i : Nat) :
    (∃ q', genLineLoop (fun _ => true) offs size (liveCountQT q + 2) i q
        = .ok q'
      ∧ (q'.line_optimize size).2 = 0)
    ∧ (∀ fuel, liveCountQT q + 1 ≤ fuel →
        genLineLoop (fun _ => true) offs size fuel i q
          = genLineLoop (fun _ => true) offs size (liveCountQT q + 2) i q)
    ∧ (∀ j, genLineLoop (fun _ => true) offs size (liveCountQT q + 2) i q
        = genLineLoop (fun _ => true) offs size (liveCountQT q + 2) j q) := by
  refine ⟨?_, ?_, ?_⟩
  · obtain ⟨q', hq', hz, _⟩ := genLineLoop_term offs size
      (liveCountQT q + 2) q i hwf (by omega)
    exact ⟨q', hq', hz⟩
  · intro fuel hle
    exact genLineLoop_fuel_irrel offs size fuel q i (liveCountQT q + 2)
      hwf hle (by omega)
  · intro j
    exact genLineLoop_i_irrel offs size (liveCountQT q + 2) q i j

theorem c7_line_loop_terminates_witness :
    (∃ q', genLineLoop (fun _ => true) ((7 : ℚ)/10, (25 : ℚ)/100) 5
        (liveCountQT qW + 2) 1 qW = .ok q'
      ∧ (q'.line_optimize 5).2 = 0)
    ∧ (∀ fuel, liveCountQT qW + 1 ≤ fuel →
        genLineLoop (fun _ => true) ((7 : ℚ)/10, (25 : ℚ)/100) 5 fuel 1 qW
          = genLineLoop (fun _ => true) ((7 : ℚ)/10, (25 : ℚ)/100) 5
            (liveCountQT qW + 2) 1 qW)
    ∧ (∀ j, genLineLoop (fun _ => true) ((7 : ℚ)/10, (25 : ℚ)/100) 5
        (liveCountQT qW + 2) 1 qW
        = genLineLoop (fun _ => true) ((7 : ℚ)/10, (25 : ℚ)/100) 5
          (liveCountQT qW + 2) j qW) :=
  c7_line_loop_terminates ((7 : ℚ)/10, (25 : ℚ)/100) 5 qW
    (new_invariants hmW cmW 0 qW rfl).2.2.1 1

/-- Claim C2 (amended): in any successful un-layered generation run
(layering threshold 0) whose unit size is at most 500 and which is not in
the flat-micro special mode, every emitted primitive's footprint stays
within 500 units, and its vertical thickness stays within 253 units in the
stud style and 250 units otherwise: the clamp bounds the value by 250, but
the subsequent rounding step adds the clamp's remainder modulo the 5-unit
minimum on top of it.  Layered runs are excluded because a layer with a
nonzero position adjustment subtracts 4 from the emitted u32 thickness,
which underflows whenever the clamped thickness is below 4 — a panic in a
debug build and a thickness near 2^32 in a release build, so no such bound
holds there. -/
theorem c2_amended (hm : HeightmapM) (cm : ColormapM) (o : GenOptions)
    (progress : ℚ → Bool) (bricks : List Brick)
    (hok : gen_opt_heightmap hm cm o progress = .ok bricks)
    (hsz : o.size ≤ 500)
    (hnm : ¬(o.img = true ∧ o.micro = true))
    (hthr : o.gen_full_layers_above_height = 0) :
    ∀ b ∈ bricks,
      b.size.1 ≤ 500 ∧ b.size.2.1 ≤ 500
      ∧ b.size.2.2 ≤ (if o.stud = true then 253 else 250) := by
  obtain ⟨q0, q1, q2, hnew, hmid, ⟨offs, i, hline⟩, hbr⟩ :=
    gen_decomp hm cm o progress bricks hok
  have hinv := new_invariants hm cm o.gen_full_layers_above_height q0 hnew
  have hl0 : q0.height_layers = [] := hinv.2.2.2.2.2.2 hthr
  have h1 : WFQT q1 ∧ SBQT q1 o.size := by
    rcases hmid with ⟨hqt, hql⟩ | ⟨hqt, hq1⟩
    · have h2 := genQuadLoop_inv progress o.size (hm.size.1 + 12) 0 q0 q1
        hql hinv.2.2.1 hinv.2.2.2.2.1 (hinv.2.2.2.2.2.1 o.size hsz)
      exact ⟨h2.1, h2.2.2.1⟩
    · rw [hq1]
      exact ⟨hinv.2.2.1, hinv.2.2.2.2.2.1 o.size hsz⟩
  have hl1 : q1.height_layers = [] := by
    rcases hmid with ⟨hqt, hql⟩ | ⟨hqt, hq1⟩
    · exact genQuadLoop_layers_nil progress o.size (hm.size.1 + 12) 0 q0 q1
        hql hl0
    · rw [hq1]
      exact hl0
  have h2 := genLineLoop_inv progress offs o.size (liveCountQT q1 + 2) i q1
    q2 hline h1.1 h1.2
  have hl2 : q2.height_layers = [] :=
    genLineLoop_layers_nil progress offs o.size (liveCountQT q1 + 2) i q1
      q2 hline hl1
  rw [hbr]
  exact into_bricks_bound q2 o h2.2.1 hnm hl2

theorem c2_amended_witness :
    bricksW.headI.size.1 ≤ 500 ∧ bricksW.headI.size.2.1 ≤ 500
    ∧ bricksW.headI.size.2.2 ≤ (if optsW.stud = true then 253 else 250) :=
  c2_amended hmW cmW optsW (fun _ => true) bricksW rfl (by decide)
    (by decide) (by decide) bricksW.headI (by decide)

/-- Claim C8: QuadTree::new fails exactly when the two samplers report
different dimensions, and gen_opt_heightmap propagates that failure as its
own result, so a mismatched run produces no primitives. -/
theorem c8_dimension_mismatch (hm : HeightmapM) (cm : ColormapM)
    (thr : Nat) (o : GenOptions) :
    ((∃ e, QuadTree.new hm cm thr = .error e) ↔ cm.size ≠ hm.size)
    ∧ (cm.size ≠ hm.size →
        gen_opt_heightmap hm cm o (fun _ => true)
          = .error "Heightmap and colormap must have same dimensions") := by
  constructor
  · constructor
    · rintro ⟨e, he⟩
      by_contra hne
      unfold QuadTree.new at he
      rw [if_neg (fun hc => hc hne)] at he
      dsimp only [] at he
      split at he
      · exact Except.noConfusion he
      · exact Except.noConfusion he
    · intro hne
      refine ⟨"Heightmap and colormap must have same dimensions", ?_⟩
      unfold QuadTree.new
      rw [if_pos hne]
  · intro hne
    have hnew : QuadTree.new hm cm o.gen_full_layers_above_height
        = .error "Heightmap and colormap must have same dimensions" := by
      unfold QuadTree.new
      rw [if_pos hne]
    unfold gen_opt_heightmap
    rw [if_neg (by simp), hnew]

/-- Claim C4 (amended): at one scan position the quad pass merges exactly
when the top-left tile's WIDTH equals space and the three quad-similarity
tests pass — the guard never inspects the top-left tile's height, so a
non-square top-left tile with the right width can merge (see the
counterexample); a successful merge doubles the top-left extent in both
dimensions, marks the other three tiles as merged into the top-left
tile's index, and counts 3; the per-step live count drops by the counted
amount, and a whole pass returns exactly 3 times its number of successful
merges. -/
theorem c4_amended {w h space : Nat} (x y : Nat) (tiles : List Tile)
    (c step_amt : Nat) (hsp : 1 ≤ space) (hx : x < w - space)
    (hy : y < h - space) (hlen : tiles.length = w * h) :
    (quadGuard h space x y tiles = false
      ↔ (tiles.getD (y + x * h) default).size.1 = space
        ∧ (tiles.getD (y + x * h) default).similar_quad
            (tiles.getD ((x + space) * h + y) default) = true
        ∧ (tiles.getD (y + x * h) default).similar_quad
            (tiles.getD ((y + space) + x * h) default) = true
        ∧ (tiles.getD (y + x * h) default).similar_quad
            (tiles.getD ((x + space) * h + (y + space)) default) = true)
    ∧ (quadGuard h space x y tiles = true →
        quadStep h space x y (tiles, c) = (tiles, c))
    ∧ (quadGuard h space x y tiles = false →
        (quadStep h space x y (tiles, c)).2 = c + 3
        ∧ (∃ nb, (quadStep h space x y (tiles, c)).1.getD (y + x * h)
              default
            = { tiles.getD (y + x * h) default with
                size := ((tiles.getD (y + x * h) default).size.1 * 2,
                  (tiles.getD (y + x * h) default).size.2 * 2),
                neighbors := nb })
        ∧ (quadStep h space x y (tiles, c)).1.getD ((x + space) * h + y)
            default
          = { tiles.getD ((x + space) * h + y) default with
              parent := some (tiles.getD (y + x * h) default).index }
        ∧ (quadStep h space x y (tiles, c)).1.getD ((y + space) + x * h)
            default
          = { tiles.getD ((y + space) + x * h) default with
              parent := some (tiles.getD (y + x * h) default).index }
        ∧ (quadStep h space x y (tiles, c)).1.getD
            ((x + space) * h + (y + space)) default
          = { tiles.getD ((x + space) * h + (y + space)) default with
              parent := some (tiles.getD (y + x * h) default).index })
    ∧ liveCount (quadStep h space x y (tiles, c)).1
        + (quadStep h space x y (tiles, c)).2 = liveCount tiles + c
    ∧ (quad_optimize_tiles tiles w h space step_amt).2
        = 3 * (quad_merge_count tiles w h space step_amt).2 := by
  have hadd : (x + space) * h = x * h + space * h := Nat.add_mul x space h
  have hsh : space * 2 ≤ space * h :=
    Nat.mul_le_mul_left space (by omega)
  have htlb : y + x * h < tiles.length := by
    rw [hlen]
    exact idx_lt (by omega) (by omega)
  have htrb : (x + space) * h + y < tiles.length := by
    rw [hlen]
    have h2 := idx_lt (show x + space < w by omega) (show y < h by omega)
    omega
  have hblb : (y + space) + x * h < tiles.length := by
    rw [hlen]
    exact idx_lt (by omega) (by omega)
  have hbrb : (x + space) * h + (y + space) < tiles.length := by
    rw [hlen]
    have h2 := idx_lt (show x + space < w by omega)
      (show y + space < h by omega)
    omega
  refine ⟨quadGuard_eq_false_iff, ?_, ?_, (quadStep_live tiles c hsp hx hy
    (by rw [hlen])).2, (@quad_optimize_tiles_count w h space step_amt tiles
      hsp hlen).2.1⟩
  · intro hg
    unfold quadStep
    rw [if_pos hg]
  · intro hg
    have hneg : ¬(quadGuard h space x y tiles = true) := by
      rw [hg]
      exact Bool.false_ne_true
    have hne_br_tl : (x + space) * h + (y + space) ≠ y + x * h := by omega
    have hne_bl_tl : (y + space) + x * h ≠ y + x * h := by omega
    have hne_tr_tl : (x + space) * h + y ≠ y + x * h := by omega
    have hne_br_tr : (x + space) * h + (y + space) ≠ (x + space) * h + y :=
      by omega
    have hne_bl_tr : (y + space) + x * h ≠ (x + space) * h + y := by omega
    have hne_br_bl : (x + space) * h + (y + space) ≠ (y + space) + x * h :=
      by omega
    set M := Tile.merge_quad (tiles.getD (y + x * h) default)
      (tiles.getD ((x + space) * h + y) default)
      (tiles.getD ((y + space) + x * h) default)
      (tiles.getD ((x + space) * h + (y + space)) default) with hM
    have hstep : quadStep h space x y (tiles, c)
        = ((((tiles.set (y + x * h) M.1).set ((x + space) * h + y)
            M.2.1).set ((y + space) + x * h) M.2.2.1).set
            ((x + space) * h + (y + space)) M.2.2.2, c + 3) := by
      unfold quadStep
      rw [if_neg hneg]
    have htr2 : (x + space) * h + y
        < (tiles.set (y + x * h) M.1).length := by
      rw [List.length_set]
      exact htrb
    have hbl2 : (y + space) + x * h
        < ((tiles.set (y + x * h) M.1).set ((x + space) * h + y)
            M.2.1).length := by
      rw [List.length_set, List.length_set]
      exact hblb
    have hbr2 : (x + space) * h + (y + space)
        < (((tiles.set (y + x * h) M.1).set ((x + space) * h + y)
            M.2.1).set ((y + space) + x * h) M.2.2.1).length := by
      rw [List.length_set, List.length_set, List.length_set]
      exact hbrb
    rw [hstep]
    refine ⟨rfl, ?_, ?_, ?_, ?_⟩
    · refine ⟨extendSet (extendSet (extendSet
          (tiles.getD (y + x * h) default).neighbors
          (tiles.getD ((x + space) * h + y) default).neighbors)
          (tiles.getD ((y + space) + x * h) default).neighbors)
          (tiles.getD ((x + space) * h + (y + space)) default).neighbors,
        ?_⟩
      rw [getD_set_ne hne_br_tl, getD_set_ne hne_bl_tl,
        getD_set_ne hne_tr_tl, getD_set_self htlb, hM, merge_quad_tl]
    · rw [getD_set_ne hne_br_tr, getD_set_ne hne_bl_tr,
        getD_set_self htr2, hM, merge_quad_tr]
    · rw [getD_set_ne hne_br_bl, getD_set_self hbl2, hM, merge_quad_bl]
    · rw [getD_set_self hbr2, hM, merge_quad_br]

theorem c4_amended_witness :
    (quadGuard 2 1 0 0 gridW2 = false
      ↔ (gridW2.getD 0 default).size.1 = 1
        ∧ (gridW2.getD 0 default).similar_quad
            (gridW2.getD 2 default) = true
        ∧ (gridW2.getD 0 default).similar_quad
            (gridW2.getD 1 default) = true
        ∧ (gridW2.getD 0 default).similar_quad
            (gridW2.getD 3 default) = true)
    ∧ (quadGuard 2 1 0 0 gridW2 = true →
        quadStep 2 1 0 0 (gridW2, 0) = (gridW2, 0))
    ∧ (quadGuard 2 1 0 0 gridW2 = false →
        (quadStep 2 1 0 0 (gridW2, 0)).2 = 0 + 3
        ∧ (∃ nb, (quadStep 2 1 0 0 (gridW2, 0)).1.getD 0 default
            = { gridW2.getD 0 default with
                size := ((gridW2.getD 0 default).size.1 * 2,
                  (gridW2.getD 0 default).size.2 * 2),
                neighbors := nb })
        ∧ (quadStep 2 1 0 0 (gridW2, 0)).1.getD 2 default
          = { gridW2.getD 2 default with
              parent := some (gridW2.getD 0 default).index }
        ∧ (quadStep 2 1 0 0 (gridW2, 0)).1.getD 1 default
          = { gridW2.getD 1 default with
              parent := some (gridW2.getD 0 default).index }
        ∧ (quadStep 2 1 0 0 (gridW2, 0)).1.getD 3 default
          = { gridW2.getD 3 default with
              parent := some (gridW2.getD 0 default).index })
    ∧ liveCount (quadStep 2 1 0 0 (gridW2, 0)).1
        + (quadStep 2 1 0 0 (gridW2, 0)).2 = liveCount gridW2 + 0
    ∧ (quad_optimize_tiles gridW2 2 2 1 2).2
        = 3 * (quad_merge_count gridW2 2 2 1 2).2 :=
  c4_amended 0 0 gridW2 0 2 (by decide) (by decide) (by decide) (by decide)

/-- Claim C5 (amended): outside the flat-micro special mode and with no
layer position adjustment, each primitive the emitter stacks has thickness
equal to the remaining desired thickness clamped to [min_unit, 250] PLUS
that clamp's remainder modulo min_unit (the code adds the remainder rather
than rounding up to a multiple); in the non-stud styles the result is
always even, but in the stud style it need not be a multiple of 5 (see the
counterexample). -/
theorem c5_amended (tiles : List Tile) (o : GenOptions) (b : Brick)
    (hmem : b ∈ tiles_to_bricks tiles o 0)
    (hnm : ¬(o.img = true ∧ o.micro = true)) :
    (∃ d : Int, 0 < d ∧
      b.size.2.2
        = (min (max d (if o.stud = true then (5 : Int) else 2)) 250).toNat
          + (min (max d (if o.stud = true then (5 : Int) else 2)) 250).toNat
            % (if o.stud = true then 5 else 2))
    ∧ (o.stud = false → 2 ∣ b.size.2.2) := by
  unfold tiles_to_bricks at hmem
  rcases List.mem_flatMap.mp hmem with ⟨t, ht, hbt⟩
  by_cases hskip : (t.parent.isSome || (o.cull && t.color.a == 0)) = true
  · rw [if_pos hskip] at hbt
    exact absurd hbt (List.not_mem_nil b)
  · rw [if_neg hskip] at hbt
    have he := emitLoop_bricks o t _ _ _ _ b hbt
    have hd := he.2.2.2.2 (by rfl) hnm
    refine ⟨hd, ?_⟩
    intro hst
    obtain ⟨d, hd0, heq⟩ := hd
    rw [heq, hst]
    simp only [Bool.false_eq_true, if_false]
    omega

theorem c5_amended_witness :
    ((∃ d : Int, 0 < d ∧
      ((tiles_to_bricks gridC5 optsC2 0).headI).size.2.2
        = (min (max d (if optsC2.stud = true then (5 : Int) else 2))
            250).toNat
          + (min (max d (if optsC2.stud = true then (5 : Int) else 2))
              250).toNat % (if optsC2.stud = true then 5 else 2))
    ∧ (optsC2.stud = false →
        2 ∣ ((tiles_to_bricks gridC5 optsC2 0).headI).size.2.2)) :=
  c5_amended gridC5 optsC2 ((tiles_to_bricks gridC5 optsC2 0).headI)
    (by decide) (by decide)

/-- The stacking loop emits at least one primitive whenever it has fuel
and a positive remaining desired thickness. -/
theorem emitLoop_ne_nil (o : GenOptions) (t : Tile) (pa fuel : Nat)
    (z d : Int) (hf : 1 ≤ fuel) (hd : 0 < d) :
    emitLoop o t pa fuel z d ≠ [] := by
  cases fuel with
  | zero => omega
  | succ n =>
    simp only [emitLoop]
    rw [if_pos hd]
    exact List.cons_ne_nil _ _

/-- Claim C10: every feature-layer tile carries the layer's representative
color — the non-qualifying cells included, which get elevation 0 but keep
that color — so a feature layer never holds a per-pixel colormap color,
and under culling the emitter drops such a live tile exactly when the
representative color itself is fully transparent. -/
theorem c10_feature_layer_color (heightmap : HeightmapM)
    (colormap : ColormapM) (w hgt lh : Nat) (lc : RGBA) (lake : Bool)
    (t : Tile) (o : GenOptions) (adj : Nat)
    (hmem : t ∈ featureLayerTiles heightmap colormap w hgt lh lc lake)
    (hcull : o.cull = true) (hlive : t.parent = none) :
    t.color = lc
    ∧ (tiles_to_bricks [t] o adj = [] ↔ lc.a = 0) := by
  have hcol : t.color = lc := by
    unfold featureLayerTiles at hmem
    rcases List.mem_flatMap.mp hmem with ⟨x, _, hmx⟩
    rcases List.mem_map.mp hmx with ⟨y, _, hty⟩
    rw [← hty]
  refine ⟨hcol, ?_⟩
  have hflat : tiles_to_bricks [t] o adj
      = if (t.parent.isSome || (o.cull && t.color.a == 0)) then []
        else
          emitLoop o t (if adj == 0 then 0 else 4)
            (if o.snap
              then (max ((t.height : Int) - (adj : Int) + 1) 2
                    * (o.scale : Int) / 2 ⊔ 2)
                  + (4 - (max ((t.height : Int) - (adj : Int) + 1) 2
                    * (o.scale : Int) / 2 ⊔ 2) % 4)
              else (max ((t.height : Int) - (adj : Int) + 1) 2
                    * (o.scale : Int) / 2 ⊔ 2)).toNat
            (if o.snap
              then (if t.height == 0 then 0
                  else ((o.scale * t.height : Nat) : Int))
                + (4 - (if t.height == 0 then 0
                    else ((o.scale * t.height : Nat) : Int)) % 4)
              else (if t.height == 0 then 0
                else ((o.scale * t.height : Nat) : Int)))
            (if o.snap
              then (max ((t.height : Int) - (adj : Int) + 1) 2
                    * (o.scale : Int) / 2 ⊔ 2)
                  + (4 - (max ((t.height : Int) - (adj : Int) + 1) 2
                    * (o.scale : Int) / 2 ⊔ 2) % 4)
              else (max ((t.height : Int) - (adj : Int) + 1) 2
                    * (o.scale : Int) / 2 ⊔ 2)) := by
    unfold tiles_to_bricks
    simp [List.flatMap]
  have hd0 : (0 : Int) <
      (if o.snap
        then (max ((t.height : Int) - (adj : Int) + 1) 2
              * (o.scale : Int) / 2 ⊔ 2)
            + (4 - (max ((t.height : Int) - (adj : Int) + 1) 2
              * (o.scale : Int) / 2 ⊔ 2) % 4)
        else (max ((t.height : Int) - (adj : Int) + 1) 2
              * (o.scale : Int) / 2 ⊔ 2)) := by
    have h2 : (2 : Int) ≤ max ((t.height : Int) - (adj : Int) + 1) 2
        * (o.scale : Int) / 2 ⊔ 2 := le_max_right _ _
    by_cases hsn : o.snap = true
    · rw [if_pos hsn]
      omega
    · rw [if_neg hsn]
      omega
  rw [hflat]
  constructor
  · intro hemp
    by_contra hna
    have hskip : (t.parent.isSome || (o.cull && t.color.a == 0)) = false := by
      rw [hlive, hcull, hcol]
      simp
      intro h2
      exact absurd h2 hna
    rw [if_neg (by rw [hskip]; exact Bool.false_ne_true)] at hemp
    exact emitLoop_ne_nil o t _ _ _ _ (by omega) hd0 hemp
  · intro ha0
    rw [if_pos]
    rw [hlive, hcull, hcol]
    simp [ha0]

theorem c10_feature_layer_color_witness :
    (featW.headI).color = (⟨9, 9, 9, 255⟩ : RGBA)
    ∧ (tiles_to_bricks [featW.headI] optsC3 0 = []
        ↔ (⟨9, 9, 9, 255⟩ : RGBA).a = 0) :=
  c10_feature_layer_color hmW cmW 1 1 1 ⟨9, 9, 9, 255⟩ false featW.headI
    optsC3 0 (by decide) (by decide) (by decide)

end H2B
